import Mathlib

/-!
# Shortest transport route with one discounted edge

A verification development for the route-pricing program: the adjacency-matrix
`Graph`, `Dijkstra::calculate`, and the discount search loop of `main`.

Modelling conventions.

* `std::vector` is a `List`; an index outside the vector is undefined behaviour
  in the program and is the explicit result `Fault.outOfBounds` here.
* Node indices and weights are C++ `int`s and are `Int` here.  The program
  performs no `int` arithmetic that can overflow (only `w / 2`).
* `double` distances are `Cost`: an exact integer or `+∞`.  Every finite
  distance the program computes is a sum of `int` weights along a path, which
  a `double` represents exactly below `2^53`.
* `std::priority_queue<pair<double,int>, ..., greater<>>` is the list of its
  elements; `top` is the least pair in lexicographic order and `pop` removes it.
* The two loops of `calculate` that have no syntactic bound (`while (!pq.empty())`
  and the predecessor walk) take a fuel argument; running out of fuel is the
  explicit result `Fault.outOfFuel`.
-/

/-- Ways in which a run of the model fails to produce a value. -/
inductive Fault where
  | outOfBounds
  | outOfFuel
  | lengthError
  deriving DecidableEq, Repr

/-- A `double` holding an exact integer or `+∞`. -/
inductive Cost where
  | fin (x : Int)
  | inf
  deriving DecidableEq, Repr

namespace Cost

/-- The comparison `a < b` on doubles. -/
def lt : Cost → Cost → Bool
  | fin a, fin b => decide (a < b)
  | fin _, inf => true
  | inf, _ => false

/-- The sum `a + w` of a double and an `int` converted to double. -/
def add : Cost → Int → Cost
  | fin a, w => fin (a + w)
  | inf, _ => inf

end Cost

/-- Read `xs[i]`; an index outside the vector is a fault. -/
def readAt {α : Type} (xs : List α) : Int → Except Fault α
  | Int.ofNat k =>
    match xs[k]? with
    | some x => .ok x
    | none => .error .outOfBounds
  | Int.negSucc _ => .error .outOfBounds

/-- Assign `xs[i] = x`; an index outside the vector is a fault. -/
def writeAt {α : Type} (xs : List α) (i : Int) (x : α) : Except Fault (List α) :=
  match i with
  | Int.ofNat k => if k < xs.length then .ok (xs.set k x) else .error .outOfBounds
  | Int.negSucc _ => .error .outOfBounds

/-- The class `Graph`: a square adjacency matrix, `-1` meaning "no edge". -/
structure Graph where
  adjMatrix : List (List Int)
  deriving DecidableEq, Repr

namespace Graph

/-- The value of `Graph(n)` for `n ≥ 0`: an `n × n` matrix filled with `-1`. -/
def new (n : Nat) : Graph :=
  ⟨List.replicate n (List.replicate n (-1))⟩

/-- The constructor `Graph(int n)`.  A negative `n` converts to a `size_t`
beyond `max_size()`, and the `vector` constructor throws. -/
def construct (n : Int) : Except Fault Graph :=
  if n < 0 then .error .lengthError else .ok (new n.toNat)

/-- The method `Graph::size`. -/
def size (g : Graph) : Nat := g.adjMatrix.length

/-- The method `Graph::getEdgeWeight`: `adjMatrix[u][v]`. -/
def getEdgeWeight (g : Graph) (u v : Int) : Except Fault Int := do
  let row ← readAt g.adjMatrix u
  readAt row v

/-- The method `Graph::setEdge`: `adjMatrix[u][v] = weight; adjMatrix[v][u] = weight;`. -/
def setEdge (g : Graph) (u v : Int) (weight : Int) : Except Fault Graph := do
  let rowU ← readAt g.adjMatrix u
  let rowU ← writeAt rowU v weight
  let m ← writeAt g.adjMatrix u rowU
  let rowV ← readAt m v
  let rowV ← writeAt rowV u weight
  let m ← writeAt m v rowV
  return ⟨m⟩

/-- The stored cell `adjMatrix[u][v]` for natural indices, `-1` outside the matrix. -/
def weight (g : Graph) (u v : Nat) : Int :=
  ((g.adjMatrix[u]?).getD [])[v]?.getD (-1)

end Graph

/-- The local variables of `Dijkstra::calculate` during the frontier loop. -/
structure DState where
  dist : List Cost
  parent : List Int
  pq : List (Cost × Int)
  deriving DecidableEq, Repr

namespace Dijkstra

/-- The order `<` on `pair<double,int>`. -/
def pairLt (p q : Cost × Int) : Bool :=
  p.1.lt q.1 || (!(q.1.lt p.1) && decide (p.2 < q.2))

/-- The element `pq.top()` of the min-queue: the least pair. -/
def pqTop : List (Cost × Int) → Option (Cost × Int)
  | [] => none
  | p :: ps => some (ps.foldl (fun m q => if pairLt q m then q else m) p)

/-- One pass of the body of `for (int v = 0; v < n; ++v)` for the popped node `u`. -/
def relaxEdge (g : Graph) (u : Int) (s : DState) (v : Nat) : Except Fault DState := do
  let weight ← g.getEdgeWeight u v
  if weight = -1 then return s
  let du ← readAt s.dist u
  let dv ← readAt s.dist v
  if (du.add weight).lt dv then
    let dist ← writeAt s.dist v (du.add weight)
    let parent ← writeAt s.parent v u
    let dv ← readAt dist v
    return { dist := dist, parent := parent, pq := (dv, (v : Int)) :: s.pq }
  else return s

/-- The loop `while (!pq.empty())`, bounded by `fuel` iterations. -/
def mainLoop (g : Graph) (n : Nat) : Nat → DState → Except Fault DState
  | 0, _ => .error .outOfFuel
  | fuel + 1, s =>
    match pqTop s.pq with
    | none => .ok s
    | some top => do
      let current_dist := top.1
      let u := top.2
      let s1 : DState := { s with pq := s.pq.erase top }
      let du ← readAt s1.dist u
      if du.lt current_dist then mainLoop g n fuel s1
      else do
        let s2 ← (List.range n).foldlM (relaxEdge g u) s1
        mainLoop g n fuel s2

/-- The walk `for (int at = end; at != -1; at = parent[at]) path.push_back(at);`,
bounded by `fuel` iterations. -/
def walkBack (parent : List Int) : Nat → Int → List Int → Except Fault (List Int)
  | 0, _, _ => .error .outOfFuel
  | fuel + 1, cur, path =>
    if cur = -1 then .ok path
    else do
      let next ← readAt parent cur
      walkBack parent fuel next (path ++ [cur])

/-- The function `Dijkstra::calculate`. -/
def calculate (fuel : Nat) (g : Graph) (start end_ : Int) :
    Except Fault (Cost × List Int) := do
  let n := g.size
  let dist := List.replicate n Cost.inf
  let parent := List.replicate n (-1 : Int)
  let dist ← writeAt dist start (Cost.fin 0)
  let s ← mainLoop g n fuel { dist := dist, parent := parent, pq := [(Cost.fin 0, start)] }
  let path ← walkBack s.parent fuel end_ []
  let path := path.reverse
  if path.length = 1 ∧ path.head? ≠ some start then return (Cost.inf, [])
  let de ← readAt s.dist end_
  return (de, path)

end Dijkstra

/-- The variables the discount search of `main` updates: the graph and the
best cost and path found so far. -/
structure Search where
  graph : Graph
  min_cost_with_discount : Cost
  best_path_with_discount : List Int
  deriving DecidableEq, Repr

/-- The body of the inner `for` of the discount search for one pair `(u, v)`. -/
def discountTrial (fuel : Nat) (A B : Int) (u : Nat) (st : Search) (v : Nat) :
    Except Fault Search := do
  let weight ← st.graph.getEdgeWeight u v
  if 0 < weight then
    let original_weight ← st.graph.getEdgeWeight u v
    let g1 ← st.graph.setEdge u v (Int.tdiv original_weight 2)
    let result_with_discount ← Dijkstra.calculate fuel g1 A B
    let st1 : Search :=
      if result_with_discount.1.lt st.min_cost_with_discount
      then { st with min_cost_with_discount := result_with_discount.1,
                     best_path_with_discount := result_with_discount.2 }
      else st
    let g2 ← g1.setEdge u v original_weight
    return { st1 with graph := g2 }
  else return st

/-- The discount search of `main`: both `for` loops over the `n × n` pairs,
starting from cost `+∞` and the empty path. -/
def discountSearch (fuel : Nat) (g : Graph) (A B : Int) : Except Fault Search :=
  (List.range g.size).foldlM
    (fun st u => (List.range g.size).foldlM (discountTrial fuel A B u) st)
    { graph := g, min_cost_with_discount := Cost.inf, best_path_with_discount := [] }

namespace Graph

/-- Every row of the matrix has as many cells as there are rows. -/
def WellFormed (g : Graph) : Prop := ∀ row ∈ g.adjMatrix, row.length = g.size

instance (g : Graph) : Decidable g.WellFormed :=
  inferInstanceAs (Decidable (∀ row ∈ g.adjMatrix, row.length = g.size))

/-- Every weight is the absence marker `-1` or a non-negative integer. -/
def NonNeg (g : Graph) : Prop := ∀ row ∈ g.adjMatrix, ∀ w ∈ row, -1 ≤ w

instance (g : Graph) : Decidable g.NonNeg :=
  inferInstanceAs (Decidable (∀ row ∈ g.adjMatrix, ∀ w ∈ row, -1 ≤ w))

/-- The symmetry invariant of the weight table. -/
def Symmetric (g : Graph) : Prop :=
  ∀ u < g.size, ∀ v < g.size, g.weight u v = g.weight v u

instance (g : Graph) : Decidable g.Symmetric :=
  inferInstanceAs (Decidable (∀ u < g.size, ∀ v < g.size, g.weight u v = g.weight v u))

end Graph

namespace Dijkstra

/-- The entry `dist[v]` for a natural index, `+∞` outside the vector. -/
def distAt (s : DState) (v : Nat) : Cost := s.dist[v]?.getD Cost.inf

/-- The entry `parent[v]` for a natural index, `-1` outside the vector. -/
def parentAt (s : DState) (v : Nat) : Int := s.parent[v]?.getD (-1)

/-- The effect of `relaxEdge` when every index is in range. -/
def relaxPure (g : Graph) (u : Nat) (s : DState) (v : Nat) : DState :=
  if g.weight u v = -1 then s
  else if ((distAt s u).add (g.weight u v)).lt (distAt s v) then
    { dist := s.dist.set v ((distAt s u).add (g.weight u v)),
      parent := s.parent.set v (u : Int),
      pq := ((distAt s u).add (g.weight u v), (v : Int)) :: s.pq }
  else s

/-- Relaxing the edge `(u, v)` from distance `k` at `u` lowers `dist[v]` in state `s`. -/
def Improves (g : Graph) (u : Nat) (k : Int) (s : DState) (v : Nat) : Prop :=
  g.weight u v ≠ -1 ∧ (Cost.fin (k + g.weight u v)).lt (distAt s v) = true

instance (g : Graph) (u : Nat) (k : Int) (s : DState) (v : Nat) :
    Decidable (Improves g u k s v) :=
  inferInstanceAs (Decidable (_ ∧ _))

/-- The state after the first `i` passes of the relaxation loop for node `u`,
described cell by cell from the state `s1` before the loop. -/
structure RelaxedUpTo (g : Graph) (u : Nat) (k : Int) (s1 si : DState) (i : Nat) : Prop where
  lenD : si.dist.length = s1.dist.length
  lenP : si.parent.length = s1.parent.length
  dist : ∀ v, distAt si v =
    if v < i ∧ Improves g u k s1 v then Cost.fin (k + g.weight u v) else distAt s1 v
  parent : ∀ v, parentAt si v =
    if v < i ∧ Improves g u k s1 v then (u : Int) else parentAt s1 v
  mem : ∀ e, e ∈ si.pq ↔
    e ∈ s1.pq ∨ ∃ v, v < i ∧ Improves g u k s1 v ∧ e = (Cost.fin (k + g.weight u v), (v : Int))
  len : si.pq.length ≤ s1.pq.length + i
  nodup : s1.pq.Nodup →
    (∀ e ∈ s1.pq, ∀ v : Nat, e.2 = (v : Int) → e.1.lt (distAt s1 v) = false) → si.pq.Nodup

/-- No frontier entry has a key below `k`: a node at distance `k` is settled. -/
def Final (s : DState) (k : Int) : Prop := ∀ e ∈ s.pq, e.1.lt (Cost.fin k) = false

/-- Every edge leaving `v`, at distance `k`, has been relaxed. -/
def Relaxed (g : Graph) (s : DState) (v : Nat) (k : Int) : Prop :=
  ∀ x, x < g.size → g.weight v x ≠ -1 → (Cost.fin (k + g.weight v x)).lt (distAt s x) = false

/-- Node `u` is the recorded predecessor of `v`, it is settled, and the two
distances differ by the weight of the edge `(u, v)`. -/
def Link (g : Graph) (s : DState) (v u : Nat) : Prop :=
  parentAt s v = (u : Int) ∧ g.weight u v ≠ -1 ∧
    ∃ ku, distAt s u = Cost.fin ku ∧ distAt s v = Cost.fin (ku + g.weight u v) ∧ Final s ku

/-- The invariant of the frontier loop. -/
structure Inv (g : Graph) (start : Nat) (s : DState) : Prop where
  lenD : s.dist.length = g.size
  lenP : s.parent.length = g.size
  pqOk : ∀ e ∈ s.pq, ∃ (x : Nat) (k kd : Int),
    e = (Cost.fin k, (x : Int)) ∧ x < g.size ∧ distAt s x = Cost.fin kd ∧ kd ≤ k
  nodup : s.pq.Nodup
  startLt : start < g.size
  startD : distAt s start = Cost.fin 0
  startP : parentAt s start = -1
  nonneg : ∀ v k, distAt s v = Cost.fin k → 0 ≤ k
  infP : ∀ v, distAt s v = Cost.inf → parentAt s v = -1
  proc : ∀ v k, v < g.size → distAt s v = Cost.fin k → (Cost.fin k, (v : Int)) ∉ s.pq →
    Final s k ∧ Relaxed g s v k
  chain : ∀ v k, v < g.size → distAt s v = Cost.fin k →
    ∃ q : List Nat, q.head? = some v ∧ q.getLast? = some start ∧ q.Nodup ∧
      (∀ x ∈ q, x < g.size) ∧ q.Chain' (Link g s)

/-- Node `v` still awaits processing: it is unreached or has a current frontier entry. -/
def unprocessed (s : DState) (v : Nat) : Bool :=
  decide (distAt s v = Cost.inf) || decide ((distAt s v, (v : Int)) ∈ s.pq)

/-- The termination measure of the frontier loop on `n` nodes. -/
def work (n : Nat) (s : DState) : Nat :=
  (List.range n).countP (unprocessed s) * (n + 1) + s.pq.length

/-- The state in which `calculate` enters the frontier loop, for a start node in range. -/
def initState (n start : Nat) : DState :=
  { dist := (List.replicate n Cost.inf).set start (Cost.fin 0),
    parent := List.replicate n (-1),
    pq := [(Cost.fin 0, (start : Int))] }

end Dijkstra

namespace Graph

/-- A walk along existing edges, as a list of natural node indices. -/
def IsWalk (g : Graph) (p : List Nat) : Prop :=
  (∀ x ∈ p, x < g.size) ∧ p.Chain' (fun a b => g.weight a b ≠ -1)

/-- The sum of the edge weights along a list of natural node indices. -/
def walkCost (g : Graph) : List Nat → Int
  | a :: b :: rest => g.weight a b + walkCost g (b :: rest)
  | _ => 0

/-- The sum of the edge weights along a predecessor chain, listed from its
last node back to its first. -/
def backCost (g : Graph) : List Nat → Int
  | v :: u :: rest => g.weight u v + backCost g (u :: rest)
  | _ => 0

/-- The test that `(u, v)` is an existing edge: `getEdgeWeight(u, v)` is defined
and differs from `-1`. -/
def hasEdge (g : Graph) (u v : Int) : Bool :=
  match g.getEdgeWeight u v with
  | .ok w => decide (w ≠ -1)
  | .error _ => false

/-- The pair `(u, v)` is an existing edge. -/
def HasEdge (g : Graph) (u v : Int) : Prop := g.hasEdge u v = true

instance (g : Graph) (u v : Int) : Decidable (g.HasEdge u v) :=
  inferInstanceAs (Decidable (g.hasEdge u v = true))

/-- Every two consecutive elements of the path are joined by an existing edge. -/
def allEdges (g : Graph) : List Int → Bool
  | a :: b :: rest => g.hasEdge a b && allEdges g (b :: rest)
  | _ => true

/-- A walk from `a` to `b` along existing edges, as the program lists a path. -/
def IsRoute (g : Graph) (a b : Int) (path : List Int) : Prop :=
  path.head? = some a ∧ path.getLast? = some b ∧ g.allEdges path = true

instance (g : Graph) (a b : Int) (path : List Int) : Decidable (g.IsRoute a b path) :=
  inferInstanceAs (Decidable (_ ∧ _ ∧ _))

/-- The sum of `getEdgeWeight` over the consecutive elements of a path. -/
def routeCost (g : Graph) : List Int → Except Fault Int
  | a :: b :: rest => do
    let w ← g.getEdgeWeight a b
    let c ← routeCost g (b :: rest)
    return w + c
  | _ => .ok 0

/-- Node `b` can be reached from node `a` by a walk along existing edges. -/
def Reachable (g : Graph) (a b : Int) : Prop := ∃ path, g.IsRoute a b path

end Graph

/-- The least number of loop iterations that is always enough for `calculate`
on a graph of `n` nodes. -/
def enoughFuel (n : Nat) : Nat := n * (n + 1) + 2

/-- The index `i` lies in `[0, n)`. -/
def InRange (n : Nat) (i : Int) : Prop := 0 ≤ i ∧ i < n

instance (n : Nat) (i : Int) : Decidable (InRange n i) :=
  inferInstanceAs (Decidable (_ ∧ _))

/-- The precondition `0 <= i < graph.size()` on a node index. -/
def Graph.Valid (g : Graph) (i : Int) : Prop := InRange g.size i

instance (g : Graph) (i : Int) : Decidable (g.Valid i) :=
  inferInstanceAs (Decidable (InRange g.size i))

/-- A finite sequence of calls `setEdge(u, v, weight)`, performed in order. -/
def runSetEdges (g : Graph) (ops : List (Int × Int × Int)) : Except Fault Graph :=
  ops.foldlM (fun g op => g.setEdge op.1 op.2.1 op.2.2) g

/-- Every call of the sequence has both node indices in `[0, n)`. -/
def OpsInRange (n : Nat) (ops : List (Int × Int × Int)) : Prop :=
  ∀ op ∈ ops, InRange n op.1 ∧ InRange n op.2.1

instance (n : Nat) (ops : List (Int × Int × Int)) : Decidable (OpsInRange n ops) :=
  inferInstanceAs (Decidable (∀ op ∈ ops, InRange n op.1 ∧ InRange n op.2.1))

/-- The weight of the most recent call in `ops` on the unordered pair `{u, v}`,
or `-1` when there is none. -/
def lastSet (ops : List (Int × Int × Int)) (u v : Int) : Int :=
  ops.foldl
    (fun acc op => if (op.1 = u ∧ op.2.1 = v) ∨ (op.1 = v ∧ op.2.1 = u) then op.2.2 else acc)
    (-1)

/-- Scenario B of the specification: edges `(0,1) = 4`, `(1,2) = 4`, `(0,2) = 10`. -/
def scenarioB : Graph := ⟨[[-1, 4, 10], [4, -1, 4], [10, 4, -1]]⟩

/-- Scenario C of the specification: node `2` has no edges. -/
def scenarioC : Graph := ⟨[[-1, 3, -1], [3, -1, -1], [-1, -1, -1]]⟩

/-- The graph of one discount trial: the weight of `(u, v)` and `(v, u)` replaced by
the integer-truncated half of the weight of `(u, v)`. -/
def discounted (g : Graph) (u v : Int) : Except Fault Graph := do
  let w ← g.getEdgeWeight u v
  g.setEdge u v (Int.tdiv w 2)

/-- What `calculate` returns on the graph of the discount trial for the pair `(u, v)`. -/
def trial (fuel : Nat) (g : Graph) (A B : Int) (u v : Int) : Except Fault (Cost × List Int) := do
  let g1 ← discounted g u v
  Dijkstra.calculate fuel g1 A B

/-- The test `getEdgeWeight(u, v) > 0` that selects the pairs to discount. -/
def Graph.positive (g : Graph) (u v : Int) : Bool :=
  match g.getEdgeWeight u v with
  | .ok w => decide (0 < w)
  | .error _ => false

/-- The ordered pairs `(u, v)` in row-major order: `u` outer and `v` inner, both from
`0` to `n - 1`. -/
def pairs (n : Nat) : List (Nat × Nat) :=
  (List.range n).flatMap (fun u => (List.range n).map (fun v => (u, v)))

/-- The pairs the discount search tries, in the order in which it tries them. -/
def candidates (g : Graph) : List (Nat × Nat) :=
  (pairs g.size).filter (fun p => g.positive p.1 p.2)

/-- The result of the trial for a pair, `(+∞, [])` standing in for a failed run. -/
def trialResult (fuel : Nat) (g : Graph) (A B : Int) (p : Nat × Nat) : Cost × List Int :=
  match trial fuel g A B p.1 p.2 with
  | .ok r => r
  | .error _ => (Cost.inf, [])

/-- The update of the best result by the result `T p` of one trial: replace it when
the new cost is strictly lower. -/
def better (T : Nat × Nat → Cost × List Int) (st : Search) (p : Nat × Nat) : Search :=
  if (T p).1.lt st.min_cost_with_discount
  then { st with min_cost_with_discount := (T p).1, best_path_with_discount := (T p).2 }
  else st

/-- The best result over the pairs the discount search tries, taken in order. -/
def searchResult (fuel : Nat) (g : Graph) (A B : Int) : Search :=
  (candidates g).foldl (better (trialResult fuel g A B))
    { graph := g, min_cost_with_discount := Cost.inf, best_path_with_discount := [] }

/-- The graph in which the weight of `(u, v)` and the weight of `(v, u)` are replaced by
`w` and every other cell is kept.  It is written cell by cell from the matrix and does
not use `setEdge`. -/
def Graph.replaceBoth (g : Graph) (u v : Int) (w : Int) : Graph :=
  ⟨g.adjMatrix.mapIdx (fun a row => row.mapIdx (fun b x =>
    if ((a : Int) = u ∧ (b : Int) = v) ∨ ((a : Int) = v ∧ (b : Int) = u) then w else x))⟩

/-- The fault is an error condition that the program or its library raises at run
time (a C++ exception).  `outOfBounds` is not: it marks an unchecked access outside a
vector, which is undefined behaviour; `outOfFuel` is the iteration bound of the model. -/
def Fault.raised : Fault → Bool
  | .lengthError => true
  | .outOfBounds => false
  | .outOfFuel => false

/-- Two isolated nodes: no edge at all. -/
def isolatedPair : Graph := ⟨[[-1, -1], [-1, -1]]⟩

/-- A self-loop of weight `2` at node `0` and an edge of weight `0` between `0` and `1`. -/
def selfLoopGraph : Graph := ⟨[[2, 0], [0, -1]]⟩

/-- The order in which the loops enumerate pairs: row first, then column. -/
def lexLt (p q : Nat × Nat) : Prop := p.1 < q.1 ∨ (p.1 = q.1 ∧ p.2 < q.2)

/-- The body of the inner `for` of a discount search restricted to one direction per
undirected edge: the pair `(u, v)` is tried only when `u < v`. -/
def discountTrialOneWay (fuel : Nat) (A B : Int) (u : Nat) (st : Search) (v : Nat) :
    Except Fault Search :=
  if u < v then discountTrial fuel A B u st v else .ok st

/-- The discount search restricted to the pairs with `u < v`, enumerated in the same
row-major order with the same strict comparison. -/
def discountSearchOneWay (fuel : Nat) (g : Graph) (A B : Int) : Except Fault Search :=
  (List.range g.size).foldlM
    (fun st u => (List.range g.size).foldlM (discountTrialOneWay fuel A B u) st)
    { graph := g, min_cost_with_discount := Cost.inf, best_path_with_discount := [] }

theorem ok_bind {ε α β : Type} (x : α) (f : α → Except ε β) : (Except.ok x >>= f) = f x := rfl

theorem ok_pure {ε α : Type} (x : α) : (pure x : Except ε α) = Except.ok x := rfl
theorem readAt_natCast {α : Type} (xs : List α) (k : Nat) (x : α) (h : xs[k]? = some x) :
    readAt xs (k : Int) = .ok x := by
  show readAt xs (Int.ofNat k) = _
  simp [readAt, h]

theorem writeAt_natCast {α : Type} (xs : List α) (k : Nat) (x : α) (h : k < xs.length) :
    writeAt xs (k : Int) x = .ok (xs.set k x) := by
  show writeAt xs (Int.ofNat k) x = _
  simp [writeAt, h]

theorem readAt_ok_iff {α : Type} (xs : List α) (i : Int) (x : α) :
    readAt xs i = .ok x ↔ ∃ k : Nat, i = k ∧ xs[k]? = some x := by
  cases i with
  | ofNat k =>
    simp only [readAt]
    constructor
    · intro h
      refine ⟨k, rfl, ?_⟩
      cases hk : xs[k]? with
      | none => simp [hk] at h
      | some y => simp [hk] at h; simp [h]
    · rintro ⟨k', hk', h⟩
      have : k = k' := Int.ofNat.inj hk'
      subst this
      simp [h]
  | negSucc k =>
    simp only [readAt]
    constructor
    · intro h; cases h
    · rintro ⟨k', hk', _⟩
      cases hk'


namespace Graph

theorem row_exists (g : Graph) (hwf : g.WellFormed) (u : Nat) (hu : u < g.size) :
    ∃ row, g.adjMatrix[u]? = some row ∧ row.length = g.size := by
  have hu' : u < g.adjMatrix.length := hu
  refine ⟨g.adjMatrix[u], List.getElem?_eq_getElem hu', ?_⟩
  exact hwf _ (List.getElem_mem _)

theorem cell_exists (g : Graph) (hwf : g.WellFormed) (u v : Nat) (hu : u < g.size)
    (hv : v < g.size) :
    ∃ row, g.adjMatrix[u]? = some row ∧ row.length = g.size ∧ row[v]? = some (g.weight u v) := by
  obtain ⟨row, hrow, hlen⟩ := row_exists g hwf u hu
  refine ⟨row, hrow, hlen, ?_⟩
  have hv' : v < row.length := by omega
  simp [weight, hrow, List.getElem?_eq_getElem hv']

theorem getEdgeWeight_eq (g : Graph) (hwf : g.WellFormed) (u v : Nat) (hu : u < g.size)
    (hv : v < g.size) : g.getEdgeWeight u v = .ok (g.weight u v) := by
  obtain ⟨row, hrow, _, hcell⟩ := cell_exists g hwf u v hu hv
  simp only [getEdgeWeight, readAt_natCast _ _ _ hrow, ok_bind, readAt_natCast _ _ _ hcell]

theorem weight_set_row (m : List (List Int)) (k : Nat) (r : List Int) (hk : k < m.length)
    (a b : Nat) :
    weight ⟨m.set k r⟩ a b = if a = k then r[b]?.getD (-1) else weight ⟨m⟩ a b := by
  unfold weight
  by_cases h : a = k
  · subst h; simp [hk]
  · simp [h, List.getElem?_set_ne (Ne.symm h)]

theorem setEdge_ok (g : Graph) (hwf : g.WellFormed) (u v : Nat) (hu : u < g.size)
    (hv : v < g.size) (w : Int) :
    ∃ g2, g.setEdge u v w = .ok g2 ∧ g2.size = g.size ∧ g2.WellFormed ∧
      ∀ a b, a < g.size → b < g.size →
        g2.weight a b = if (a = u ∧ b = v) ∨ (a = v ∧ b = u) then w else g.weight a b := by
  obtain ⟨rowU, hrowU, hlenU⟩ := row_exists g hwf u hu
  obtain ⟨rowV, hrowV, hlenV⟩ := row_exists g hwf v hv
  have hu' : u < g.adjMatrix.length := hu
  have hv' : v < g.adjMatrix.length := hv
  have hvU : v < rowU.length := by omega
  -- the row of `v` after the first assignment
  obtain ⟨rowV1, hrowV1, hlenV1, hV1⟩ : ∃ r, (g.adjMatrix.set u (rowU.set v w))[v]? = some r ∧
      r.length = g.size ∧ r = if v = u then rowU.set v w else rowV := by
    by_cases h : v = u
    · subst h
      exact ⟨rowU.set v w, by simp [hu'], by simp [hlenU], by simp⟩
    · exact ⟨rowV, by simp [List.getElem?_set_ne (Ne.symm h), hrowV], hlenV, by simp [h]⟩
  have huV1 : u < rowV1.length := by omega
  have hv1 : v < (g.adjMatrix.set u (rowU.set v w)).length := by simpa using hv'
  refine ⟨⟨(g.adjMatrix.set u (rowU.set v w)).set v (rowV1.set u w)⟩, ?_, ?_, ?_, ?_⟩
  · simp only [setEdge, readAt_natCast _ _ _ hrowU, ok_bind, writeAt_natCast _ _ _ hvU,
      writeAt_natCast _ _ _ hu', readAt_natCast _ _ _ hrowV1, writeAt_natCast _ _ _ huV1,
      writeAt_natCast _ _ _ hv1, ok_pure]
  · simp [size]
  · intro row hrow
    simp only [size, List.length_set]
    rcases List.mem_or_eq_of_mem_set hrow with h | h
    · rcases List.mem_or_eq_of_mem_set h with h | h
      · exact hwf _ h
      · subst h; simpa using hlenU
    · subst h; simpa using hlenV1
  · intro a b ha hb
    rw [weight_set_row _ _ _ hv1, weight_set_row _ _ _ hu']
    have hbU : b < rowU.length := by omega
    have hbV : b < rowV.length := by omega
    have hwU : weight g u b = rowU[b]?.getD (-1) := by simp [weight, hrowU]
    have hwV : weight g v b = rowV[b]?.getD (-1) := by simp [weight, hrowV]
    by_cases hav : a = v
    · subst hav
      by_cases hbu : b = u
      · subst hbu; simp [huV1]
      · rw [if_pos rfl, List.getElem?_set_ne (Ne.symm hbu), hV1]
        by_cases hau : a = u
        · subst hau
          by_cases hba : b = a
          · exact absurd hba hbu
          · simp [hbu, hwU, List.getElem?_set_ne (Ne.symm hbu)]
        · simp [hau, hbu, hwV]
    · rw [if_neg hav]
      by_cases hau : a = u
      · subst hau
        by_cases hbv : b = v
        · subst hbv; simp [hvU]
        · simp [hav, hbv, List.getElem?_set_ne (Ne.symm hbv), hwU]
      · simp [hav, hau]

end Graph

namespace Dijkstra

theorem readAt_dist (s : DState) (v : Nat) (hv : v < s.dist.length) :
    readAt s.dist (v : Int) = .ok (distAt s v) := by
  apply readAt_natCast
  simp [distAt, List.getElem?_eq_getElem hv]

theorem readAt_parent (s : DState) (v : Nat) (hv : v < s.parent.length) :
    readAt s.parent (v : Int) = .ok (parentAt s v) := by
  apply readAt_natCast
  simp [parentAt, List.getElem?_eq_getElem hv]

theorem relaxEdge_eq (g : Graph) (hwf : g.WellFormed) (s : DState) (u v : Nat)
    (hd : s.dist.length = g.size) (hp : s.parent.length = g.size)
    (hu : u < g.size) (hv : v < g.size) :
    relaxEdge g u s v = .ok (relaxPure g u s v) := by
  have hud : u < s.dist.length := by omega
  have hvd : v < s.dist.length := by omega
  have hvp : v < s.parent.length := by omega
  simp only [relaxEdge, Graph.getEdgeWeight_eq g hwf u v hu hv, ok_bind, readAt_dist s u hud,
    readAt_dist s v hvd, relaxPure]
  by_cases hw : g.weight u v = -1
  · simp [hw, ok_pure]
  · simp only [hw, if_false]
    by_cases hlt : ((distAt s u).add (g.weight u v)).lt (distAt s v) = true
    · simp only [hlt, if_true, writeAt_natCast _ _ _ hvd, writeAt_natCast _ _ _ hvp, ok_bind]
      rw [readAt_natCast (s.dist.set v ((distAt s u).add (g.weight u v))) v
        ((distAt s u).add (g.weight u v)) (by simp [hvd])]
      simp [ok_bind, ok_pure]
    · simp [hlt, ok_pure, ok_bind]

theorem relaxPure_length (g : Graph) (s : DState) (u v : Nat) :
    (relaxPure g u s v).dist.length = s.dist.length ∧
    (relaxPure g u s v).parent.length = s.parent.length := by
  unfold relaxPure
  split
  · exact ⟨rfl, rfl⟩
  · split
    · simp
    · exact ⟨rfl, rfl⟩

theorem foldl_relaxPure_length (g : Graph) (u : Nat) (l : List Nat) (s : DState) :
    (l.foldl (relaxPure g u) s).dist.length = s.dist.length ∧
    (l.foldl (relaxPure g u) s).parent.length = s.parent.length := by
  induction l generalizing s with
  | nil => exact ⟨rfl, rfl⟩
  | cons v l ih =>
    simp only [List.foldl_cons]
    obtain ⟨h1, h2⟩ := ih (relaxPure g u s v)
    obtain ⟨h3, h4⟩ := relaxPure_length g s u v
    exact ⟨h1.trans h3, h2.trans h4⟩

theorem foldlM_relaxEdge (g : Graph) (hwf : g.WellFormed) (u : Nat) (hu : u < g.size)
    (l : List Nat) (hl : ∀ v ∈ l, v < g.size) (s : DState)
    (hd : s.dist.length = g.size) (hp : s.parent.length = g.size) :
    l.foldlM (relaxEdge g u) s = .ok (l.foldl (relaxPure g u) s) := by
  induction l generalizing s with
  | nil => rfl
  | cons v l ih =>
    simp only [List.foldlM_cons, List.foldl_cons]
    rw [relaxEdge_eq g hwf s u v hd hp hu (hl v (by simp)), ok_bind]
    obtain ⟨h3, h4⟩ := relaxPure_length g s u v
    exact ih (fun x hx => hl x (by simp [hx])) _ (h3.trans hd) (h4.trans hp)

end Dijkstra

namespace Dijkstra

theorem distAt_set (s : DState) (i v : Nat) (c : Cost) (hi : i < s.dist.length)
    (p : List Int) (q : List (Cost × Int)) :
    distAt { dist := s.dist.set i c, parent := p, pq := q } v
      = if v = i then c else distAt s v := by
  unfold distAt
  by_cases h : v = i
  · subst h; simp [hi]
  · simp [h, List.getElem?_set_ne (Ne.symm h)]

theorem parentAt_set (s : DState) (i v : Nat) (c : Int) (hi : i < s.parent.length)
    (d : List Cost) (q : List (Cost × Int)) :
    parentAt { dist := d, parent := s.parent.set i c, pq := q } v
      = if v = i then c else parentAt s v := by
  unfold parentAt
  by_cases h : v = i
  · subst h; simp [hi]
  · simp [h, List.getElem?_set_ne (Ne.symm h)]

theorem relaxedUpTo (g : Graph) (u : Nat) (k : Int) (s1 : DState)
    (hlen : s1.parent.length = s1.dist.length)
    (hdu : distAt s1 u = Cost.fin k) (hself : ¬ Improves g u k s1 u) (i : Nat)
    (hi : i ≤ s1.dist.length) :
    RelaxedUpTo g u k s1 ((List.range i).foldl (relaxPure g u) s1) i := by
  induction i with
  | zero =>
    exact ⟨rfl, rfl, by simp, by simp, by simp, by simp, fun h _ => by simpa using h⟩
  | succ i ih =>
    have ih := ih (by omega)
    rw [List.range_succ, List.foldl_append, List.foldl_cons, List.foldl_nil]
    generalize (List.range i).foldl (relaxPure g u) s1 = si at ih
    have hu : distAt si u = Cost.fin k := by
      rw [ih.dist u, if_neg (fun h => hself h.2), hdu]
    have hii : distAt si i = distAt s1 i := by
      rw [ih.dist i, if_neg (fun h => absurd h.1 (lt_irrefl i))]
    have hiD : i < si.dist.length := by rw [ih.lenD]; omega
    have hiP : i < si.parent.length := by rw [ih.lenP, hlen]; omega
    by_cases himp : Improves g u k s1 i
    · have hstep : relaxPure g u si i =
          { dist := si.dist.set i (Cost.fin (k + g.weight u i)),
            parent := si.parent.set i (u : Int),
            pq := (Cost.fin (k + g.weight u i), (i : Int)) :: si.pq } := by
        unfold relaxPure
        rw [if_neg himp.1, hu, hii]
        simp only [Cost.add]
        rw [if_pos himp.2]
      rw [hstep]
      refine ⟨by simp [ih.lenD], by simp [ih.lenP], ?_, ?_, ?_, ?_, ?_⟩
      · intro v
        rw [distAt_set si i v _ hiD, ih.dist v]
        by_cases hv : v = i
        · subst hv; simp [himp]
        · have : v < i + 1 ↔ v < i := by omega
          simp [hv, this]
      · intro v
        rw [parentAt_set si i v _ hiP, ih.parent v]
        by_cases hv : v = i
        · subst hv; simp [himp]
        · have : v < i + 1 ↔ v < i := by omega
          simp [hv, this]
      · intro e
        simp only [List.mem_cons, ih.mem e]
        constructor
        · rintro (h | h | ⟨v, hv, hI, he⟩)
          · exact Or.inr ⟨i, by omega, himp, h⟩
          · exact Or.inl h
          · exact Or.inr ⟨v, by omega, hI, he⟩
        · rintro (h | ⟨v, hv, hI, he⟩)
          · exact Or.inr (Or.inl h)
          · by_cases hvi : v = i
            · subst hvi; exact Or.inl he
            · exact Or.inr (Or.inr ⟨v, by omega, hI, he⟩)
      · simp only [List.length_cons]
        have := ih.len
        omega
      · intro hnd hq
        refine List.nodup_cons.mpr ⟨?_, ih.nodup hnd hq⟩
        intro hmem
        rcases (ih.mem _).mp hmem with h | ⟨v, hv, _, he⟩
        · have := hq _ h i rfl
          rw [himp.2] at this
          cases this
        · have : (i : Int) = (v : Int) := congrArg Prod.snd he
          have : i = v := by exact_mod_cast this
          omega
    · have hstep : relaxPure g u si i = si := by
        unfold relaxPure
        by_cases hw : g.weight u i = -1
        · rw [if_pos hw]
        · rw [if_neg hw, hu, hii]
          simp only [Cost.add]
          rw [if_neg (fun h => himp ⟨hw, h⟩)]
      rw [hstep]
      refine ⟨ih.lenD, ih.lenP, ?_, ?_, ?_, ?_, ih.nodup⟩
      · intro v
        rw [ih.dist v]
        by_cases hv : v = i
        · subst hv; simp [himp]
        · have : v < i + 1 ↔ v < i := by omega
          simp [this]
      · intro v
        rw [ih.parent v]
        by_cases hv : v = i
        · subst hv; simp [himp]
        · have : v < i + 1 ↔ v < i := by omega
          simp [this]
      · intro e
        rw [ih.mem e]
        constructor
        · rintro (h | ⟨v, hv, hI, he⟩)
          · exact Or.inl h
          · exact Or.inr ⟨v, by omega, hI, he⟩
        · rintro (h | ⟨v, hv, hI, he⟩)
          · exact Or.inl h
          · by_cases hvi : v = i
            · subst hvi; exact absurd hI himp
            · exact Or.inr ⟨v, by omega, hI, he⟩
      · have := ih.len
        omega

end Dijkstra

namespace Cost

@[simp] theorem lt_fin_fin (a b : Int) : (fin a).lt (fin b) = decide (a < b) := rfl
@[simp] theorem lt_fin_inf (a : Int) : (fin a).lt inf = true := rfl
@[simp] theorem lt_inf (c : Cost) : inf.lt c = false := by cases c <;> rfl
@[simp] theorem add_fin (a w : Int) : (fin a).add w = fin (a + w) := rfl

theorem lt_flip {a b : Cost} (h : a.lt b = true) : b.lt a = false := by
  cases a <;> cases b <;> simp_all
  omega

theorem le_chain {a b c : Cost} (h1 : b.lt a = false) (h2 : c.lt b = false) :
    c.lt a = false := by
  cases a <;> cases b <;> cases c <;> simp_all
  omega

end Cost

namespace Dijkstra

theorem pairLt_false {p q : Cost × Int} (h : pairLt q p = false) : q.1.lt p.1 = false := by
  unfold pairLt at h
  simp only [Bool.or_eq_false_iff] at h
  exact h.1

theorem pairLt_true {p q : Cost × Int} (h : pairLt q p = true) : p.1.lt q.1 = false := by
  unfold pairLt at h
  simp only [Bool.or_eq_true, Bool.and_eq_true, Bool.not_eq_true'] at h
  rcases h with h | h
  · exact Cost.lt_flip h
  · exact h.1

theorem foldl_min (ps : List (Cost × Int)) (p : Cost × Int) :
    ps.foldl (fun m q => if pairLt q m then q else m) p ∈ p :: ps ∧
      ∀ e ∈ p :: ps,
        e.1.lt (ps.foldl (fun m q => if pairLt q m then q else m) p).1 = false := by
  induction ps generalizing p with
  | nil =>
    simp only [List.foldl_nil, List.mem_singleton, forall_eq, true_and]
    cases p.1 <;> simp
  | cons q ps ih =>
    simp only [List.foldl_cons]
    obtain ⟨hmem, hmin⟩ := ih (if pairLt q p then q else p)
    generalize ps.foldl (fun m q => if pairLt q m then q else m) (if pairLt q p then q else p)
      = m at hmem hmin
    have hp' := hmin _ (List.mem_cons_self _ _)
    by_cases hqp : pairLt q p = true
    · rw [if_pos hqp] at hmem hp'
      refine ⟨List.mem_cons_of_mem _ hmem, ?_⟩
      intro e he
      rcases List.mem_cons.mp he with rfl | he
      · exact Cost.le_chain hp' (pairLt_true hqp)
      · exact hmin e (by
          rcases List.mem_cons.mp he with rfl | he
          · rw [if_pos hqp]; exact List.mem_cons_self _ _
          · exact List.mem_cons_of_mem _ he)
    · have hqp' : pairLt q p = false := by simpa using hqp
      rw [if_neg hqp] at hmem hp'
      refine ⟨?_, ?_⟩
      · rcases List.mem_cons.mp hmem with h | h
        · exact h ▸ List.mem_cons_self _ _
        · exact List.mem_cons_of_mem _ (List.mem_cons_of_mem _ h)
      · intro e he
        rcases List.mem_cons.mp he with rfl | he
        · exact hp'
        · rcases List.mem_cons.mp he with rfl | he
          · exact Cost.le_chain hp' (pairLt_false hqp')
          · exact hmin e (List.mem_cons_of_mem _ he)

theorem pqTop_mem {l : List (Cost × Int)} {t : Cost × Int} (h : pqTop l = some t) : t ∈ l := by
  cases l with
  | nil => simp [pqTop] at h
  | cons p ps =>
    simp only [pqTop, Option.some.injEq] at h
    exact h ▸ (foldl_min ps p).1

theorem pqTop_min {l : List (Cost × Int)} {t : Cost × Int} (h : pqTop l = some t) :
    ∀ e ∈ l, e.1.lt t.1 = false := by
  cases l with
  | nil => simp [pqTop] at h
  | cons p ps =>
    simp only [pqTop, Option.some.injEq] at h
    exact h ▸ (foldl_min ps p).2

theorem pqTop_none {l : List (Cost × Int)} (h : pqTop l = none) : l = [] := by
  cases l with
  | nil => rfl
  | cons p ps => simp [pqTop] at h

end Dijkstra

namespace Dijkstra

theorem countP_lt {α : Type} (p q : α → Bool) (l : List α)
    (hle : ∀ x ∈ l, p x = true → q x = true)
    (u : α) (hu : u ∈ l) (hq : q u = true) (hp : p u = false) :
    l.countP p < l.countP q := by
  induction l with
  | nil => cases hu
  | cons a l ih =>
    have hmono : l.countP p ≤ l.countP q :=
      List.countP_mono_left (fun x hx => hle x (List.mem_cons_of_mem _ hx))
    rcases List.mem_cons.mp hu with rfl | hu
    · rw [List.countP_cons_of_pos _ _ hq, List.countP_cons_of_neg _ _ (by simp [hp])]
      omega
    · have := ih (fun x hx => hle x (List.mem_cons_of_mem _ hx)) hu
      by_cases hpa : p a = true
      · rw [List.countP_cons_of_pos _ _ hpa,
          List.countP_cons_of_pos _ _ (hle a (List.mem_cons_self _ _) hpa)]
        omega
      · rw [List.countP_cons_of_neg _ _ hpa]
        by_cases hqa : q a = true
        · rw [List.countP_cons_of_pos _ _ hqa]; omega
        · rw [List.countP_cons_of_neg _ _ hqa]; exact this

theorem Final.of_subset {s s2 : DState} {k : Int} (h : Final s k)
    (hsub : ∀ e ∈ s2.pq, e ∈ s.pq) : Final s2 k :=
  fun e he => h e (hsub e he)

theorem Link.of_erase {g : Graph} {s : DState} {t : Cost × Int} {a b : Nat}
    (h : Link g s a b) : Link g { s with pq := s.pq.erase t } a b := by
  obtain ⟨h1, h2, ku, h3, h4, h5⟩ := h
  exact ⟨h1, h2, ku, h3, h4, h5.of_subset (fun e he => List.mem_of_mem_erase he)⟩

/-- Discarding a stale frontier entry keeps the invariant and lowers the measure. -/
theorem Inv.stale {g : Graph} {start : Nat} {s : DState} (h : Inv g start s)
    {t : Cost × Int} (ht : t ∈ s.pq) (u : Nat) (d kd : Int)
    (htu : t = (Cost.fin d, (u : Int))) (hdu : distAt s u = Cost.fin kd) (hlt : kd < d) :
    Inv g start { s with pq := s.pq.erase t } ∧
      work g.size { s with pq := s.pq.erase t } < work g.size s := by
  have hne : ∀ v k, distAt s v = Cost.fin k → (Cost.fin k, (v : Int)) ≠ t := by
    intro v k hv heq
    rw [htu] at heq
    have h1 : k = d := by simpa using congrArg Prod.fst heq
    have h2 : v = u := by
      have : (v : Int) = (u : Int) := congrArg Prod.snd heq
      exact_mod_cast this
    subst h1 h2
    rw [hdu] at hv
    have : kd = k := by simpa using hv
    omega
  refine ⟨⟨h.lenD, h.lenP, ?_, h.nodup.erase _, h.startLt, h.startD, h.startP, h.nonneg,
    h.infP, ?_, ?_⟩, ?_⟩
  · intro e he
    exact h.pqOk e (List.mem_of_mem_erase he)
  · intro v k hv hdv hnm
    have hnm' : (Cost.fin k, (v : Int)) ∉ s.pq := by
      intro hm
      exact hnm ((List.mem_erase_of_ne (hne v k hdv)).mpr hm)
    obtain ⟨hf, hr⟩ := h.proc v k hv hdv hnm'
    exact ⟨hf.of_subset (fun e he => List.mem_of_mem_erase he), hr⟩
  · intro v k hv hdv
    obtain ⟨q, h1, h2, h3, h4, h5⟩ := h.chain v k hv hdv
    exact ⟨q, h1, h2, h3, h4, h5.imp (fun _ _ h => h.of_erase)⟩
  · unfold work
    have hlen : (s.pq.erase t).length = s.pq.length - 1 := List.length_erase_of_mem ht
    have hpos : 0 < s.pq.length := List.length_pos_of_mem ht
    have hcount : (List.range g.size).countP (unprocessed { s with pq := s.pq.erase t })
        ≤ (List.range g.size).countP (unprocessed s) := by
      apply List.countP_mono_left
      intro v _ hv
      simp only [unprocessed, Bool.or_eq_true, decide_eq_true_eq] at hv ⊢
      rcases hv with hv | hv
      · exact Or.inl hv
      · exact Or.inr (List.mem_of_mem_erase hv)
    have := Nat.mul_le_mul_right (g.size + 1) hcount
    simp only at this ⊢
    omega

end Dijkstra

namespace Graph

theorem weight_ge (g : Graph) (hnn : g.NonNeg) (u v : Nat) : -1 ≤ g.weight u v := by
  unfold weight
  cases hrow : g.adjMatrix[u]? with
  | none => simp
  | some row =>
    cases hcell : row[v]? with
    | none => simp [hcell]
    | some w =>
      simp only [Option.getD_some, hcell]
      exact hnn row (List.getElem?_mem hrow) w (List.getElem?_mem hcell)

end Graph

namespace Dijkstra

theorem chain_dist_le {g : Graph} {s : DState} {d : Int}
    (hkey : ∃ e ∈ s.pq, e.1 = Cost.fin d) :
    ∀ q : List Nat, q.Chain' (Link g s) → ∀ x ∈ q.tail, ∃ kx, distAt s x = Cost.fin kx ∧ kx ≤ d := by
  intro q
  induction q with
  | nil => intro _ x hx; cases hx
  | cons a q ih =>
    intro hc x hx
    cases q with
    | nil => cases hx
    | cons b q =>
      rw [List.chain'_cons] at hc
      obtain ⟨hab, hc⟩ := hc
      simp only [List.tail_cons] at hx ih
      rcases List.mem_cons.mp hx with rfl | hx
      · obtain ⟨_, _, ku, hku, _, hfin⟩ := hab
        obtain ⟨e, he, hed⟩ := hkey
        have := hfin e he
        rw [hed] at this
        exact ⟨ku, hku, by simpa using this⟩
      · exact ih hc x hx

end Dijkstra

namespace Dijkstra

/-- Links between nodes that the relaxation pass leaves untouched survive it. -/
theorem chain_transfer {g : Graph} {s s2 : DState}
    (hlink : ∀ a b, Link g s a b → distAt s2 a = distAt s a → Link g s2 a b ∧
      distAt s2 b = distAt s b) :
    ∀ q : List Nat, q.Chain' (Link g s) → (∀ a ∈ q.head?, distAt s2 a = distAt s a) →
      q.Chain' (Link g s2) := by
  intro q
  induction q with
  | nil => intro _ _; exact List.chain'_nil
  | cons a q ih =>
    intro hc hhead
    cases q with
    | nil => exact List.chain'_singleton a
    | cons b q =>
      rw [List.chain'_cons] at hc ⊢
      obtain ⟨hab, hc⟩ := hc
      obtain ⟨h1, h2⟩ := hlink a b hab (hhead a (by simp))
      refine ⟨h1, ih hc ?_⟩
      intro x hx
      simp only [List.head?_cons, Option.mem_def, Option.some.injEq] at hx
      exact hx ▸ h2

/-- Processing the least frontier entry, when it is current, keeps the invariant
and lowers the measure. -/
theorem Inv.relax {g : Graph} {start : Nat} {s : DState} (hnn : g.NonNeg)
    (h : Inv g start s) {t : Cost × Int} (htop : pqTop s.pq = some t) (u : Nat) (d : Int)
    (htu : t = (Cost.fin d, (u : Int))) (hu : u < g.size) (hdu : distAt s u = Cost.fin d) :
    Inv g start ((List.range g.size).foldl (relaxPure g u) { s with pq := s.pq.erase t }) ∧
      work g.size ((List.range g.size).foldl (relaxPure g u) { s with pq := s.pq.erase t })
        < work g.size s := by
  have ht : t ∈ s.pq := pqTop_mem htop
  have hmin : Final s d := by
    intro e he
    have := pqTop_min htop e he
    rwa [htu] at this
  have hd0 : 0 ≤ d := h.nonneg u d hdu
  have hw : ∀ v, Improves g u d s v → 0 ≤ g.weight u v := by
    intro v hv
    have := g.weight_ge hnn u v
    have := hv.1
    omega
  have hself : ¬ Improves g u d s u := by
    intro hI
    have h1 := hw u hI
    have h2 := hI.2
    rw [hdu] at h2
    simp only [Cost.lt_fin_fin, decide_eq_true_eq] at h2
    omega
  have hR := relaxedUpTo g u d { s with pq := s.pq.erase t } (h.lenP.trans h.lenD.symm) hdu
    hself g.size (le_of_eq h.lenD.symm)
  generalize (List.range g.size).foldl (relaxPure g u) { s with pq := s.pq.erase t } = s2 at hR
  have hdist : ∀ v, distAt s2 v =
      if v < g.size ∧ Improves g u d s v then Cost.fin (d + g.weight u v) else distAt s v :=
    hR.dist
  have hparent : ∀ v, parentAt s2 v =
      if v < g.size ∧ Improves g u d s v then (u : Int) else parentAt s v := hR.parent
  have hmem : ∀ e, e ∈ s2.pq ↔ e ∈ s.pq.erase t ∨
      ∃ v, v < g.size ∧ Improves g u d s v ∧ e = (Cost.fin (d + g.weight u v), (v : Int)) :=
    hR.mem
  -- settled nodes are not improved
  have hfinal_keep : ∀ v k, distAt s v = Cost.fin k → Final s k → ¬ Improves g u d s v := by
    intro v k hv hf hI
    have h1 := hw v hI
    have h2 := hI.2
    rw [hv] at h2
    have h3 := hf t ht
    rw [htu] at h3
    simp only [Cost.lt_fin_fin, decide_eq_true_eq, decide_eq_false_iff_not] at h2 h3
    omega
  have hfinal2 : ∀ k, Final s k → Final s2 k := by
    intro k hf e he
    rcases (hmem e).mp he with he | ⟨v, _, hI, rfl⟩
    · exact hf e (List.mem_of_mem_erase he)
    · have h1 := hw v hI
      have h3 := hf t ht
      rw [htu] at h3
      simp only [Cost.lt_fin_fin, decide_eq_false_iff_not] at h3 ⊢
      omega
  have hkeep : ∀ v, ¬ Improves g u d s v → distAt s2 v = distAt s v := by
    intro v hv
    rw [hdist v, if_neg (fun h => hv h.2)]
  have hkeepP : ∀ v, ¬ Improves g u d s v → parentAt s2 v = parentAt s v := by
    intro v hv
    rw [hparent v, if_neg (fun h => hv h.2)]
  -- the distance of any node can only go down
  have hdown : ∀ v j, (Cost.fin j).lt (distAt s v) = false → (Cost.fin j).lt (distAt s2 v) = false := by
    intro v j hj
    by_cases hI : Improves g u d s v
    · by_cases hv : v < g.size
      · rw [hdist v, if_pos ⟨hv, hI⟩]
        have h2 := hI.2
        cases hsv : distAt s v with
        | inf => rw [hsv] at hj; simp at hj
        | fin c =>
          rw [hsv] at hj h2
          simp only [Cost.lt_fin_fin, decide_eq_true_eq, decide_eq_false_iff_not] at h2 hj ⊢
          omega
      · rw [hdist v, if_neg (fun h => hv h.1)]; exact hj
    · rw [hkeep v hI]; exact hj
  have hlink : ∀ a b, Link g s a b → distAt s2 a = distAt s a →
      Link g s2 a b ∧ distAt s2 b = distAt s b := by
    intro a b hab ha
    obtain ⟨h1, h2, ku, h3, h4, h5⟩ := hab
    have hb : distAt s2 b = distAt s b := hkeep b (hfinal_keep b ku h3 h5)
    have hpa : parentAt s2 a = parentAt s a := by
      rw [hparent a]
      by_cases hI : a < g.size ∧ Improves g u d s a
      · exfalso
        have h6 := hI.2.2
        rw [hdist a, if_pos hI, h4] at ha
        rw [h4, ← ha] at h6
        simp at h6
      · rw [if_neg hI]
    exact ⟨⟨hpa.trans h1, h2, ku, hb.trans h3, ha.trans h4, hfinal2 ku h5⟩, hb⟩
  refine ⟨⟨hR.lenD.trans h.lenD, hR.lenP.trans h.lenP, ?_, ?_, h.startLt, ?_, ?_, ?_, ?_, ?_, ?_⟩,
    ?_⟩
  · -- pqOk
    intro e he
    rcases (hmem e).mp he with he | ⟨v, hv, hI, rfl⟩
    · obtain ⟨x, k, kd, rfl, hx, hdx, hle⟩ := h.pqOk e (List.mem_of_mem_erase he)
      by_cases hI : Improves g u d s x
      · refine ⟨x, k, d + g.weight u x, rfl, hx, by rw [hdist x, if_pos ⟨hx, hI⟩], ?_⟩
        have h2 := hI.2
        rw [hdx] at h2
        simp only [Cost.lt_fin_fin, decide_eq_true_eq] at h2
        omega
      · exact ⟨x, k, kd, rfl, hx, (hkeep x hI).trans hdx, hle⟩
    · exact ⟨v, _, _, rfl, hv, by rw [hdist v, if_pos ⟨hv, hI⟩], le_refl _⟩
  · -- nodup
    refine hR.nodup (h.nodup.erase t) ?_
    intro e he v hev
    obtain ⟨x, k, kd, rfl, hx, hdx, hle⟩ := h.pqOk e (List.mem_of_mem_erase he)
    have hxv : x = v := by
      have : (x : Int) = (v : Int) := hev
      exact_mod_cast this
    subst hxv
    show (Cost.fin k).lt (distAt s x) = false
    rw [hdx]
    simp only [Cost.lt_fin_fin, decide_eq_false_iff_not]
    omega
  · -- startD
    rw [hkeep start, h.startD]
    intro hI
    have h1 := hw start hI
    have h2 := hI.2
    rw [h.startD] at h2
    simp only [Cost.lt_fin_fin, decide_eq_true_eq] at h2
    omega
  · -- startP
    rw [hkeepP start, h.startP]
    intro hI
    have h1 := hw start hI
    have h2 := hI.2
    rw [h.startD] at h2
    simp only [Cost.lt_fin_fin, decide_eq_true_eq] at h2
    omega
  · -- nonneg
    intro v k hv
    rw [hdist v] at hv
    by_cases hI : v < g.size ∧ Improves g u d s v
    · rw [if_pos hI] at hv
      have h1 := hw v hI.2
      have : d + g.weight u v = k := by simpa using hv
      omega
    · rw [if_neg hI] at hv
      exact h.nonneg v k hv
  · -- infP
    intro v hv
    rw [hdist v] at hv
    by_cases hI : v < g.size ∧ Improves g u d s v
    · rw [if_pos hI] at hv; cases hv
    · rw [if_neg hI] at hv
      rw [hparent v, if_neg hI]
      exact h.infP v hv
  · -- proc
    intro v k hv hdv hnm
    have hI : ¬ Improves g u d s v := by
      intro hI
      apply hnm
      rw [hdist v, if_pos ⟨hv, hI⟩] at hdv
      have : d + g.weight u v = k := by simpa using hdv
      subst this
      exact (hmem _).mpr (Or.inr ⟨v, hv, hI, rfl⟩)
    rw [hkeep v hI] at hdv
    have hnm1 : (Cost.fin k, (v : Int)) ∉ s.pq.erase t := fun hm => hnm ((hmem _).mpr (Or.inl hm))
    by_cases heq : (Cost.fin k, (v : Int)) = t
    · rw [htu] at heq
      have h1 : k = d := by simpa using congrArg Prod.fst heq
      have h2 : v = u := by
        have : (v : Int) = (u : Int) := congrArg Prod.snd heq
        exact_mod_cast this
      subst h1 h2
      refine ⟨hfinal2 k hmin, ?_⟩
      intro x hx hwx
      rw [hdist x]
      by_cases hIx : Improves g v k s x
      · rw [if_pos ⟨hx, hIx⟩]; simp
      · rw [if_neg (fun h => hIx h.2)]
        by_contra hlt
        exact hIx ⟨hwx, by simpa using hlt⟩
    · have hnm' : (Cost.fin k, (v : Int)) ∉ s.pq :=
        fun hm => hnm1 ((List.mem_erase_of_ne heq).mpr hm)
      obtain ⟨hf, hr⟩ := h.proc v k hv hdv hnm'
      exact ⟨hfinal2 k hf, fun x hx hwx => hdown x _ (hr x hx hwx)⟩
  · -- chain
    intro v k hv hdv
    by_cases hI : Improves g u d s v
    · rw [hdist v, if_pos ⟨hv, hI⟩] at hdv
      obtain ⟨q, hq1, hq2, hq3, hq4, hq5⟩ := h.chain u d hu hdu
      have hqne : q ≠ [] := by intro hq; subst hq; simp at hq1
      obtain ⟨q', rfl⟩ : ∃ q', q = u :: q' := by
        cases q with
        | nil => exact absurd rfl hqne
        | cons a q' =>
          simp only [List.head?_cons, Option.some.injEq] at hq1
          exact ⟨q', by rw [hq1]⟩
      have htail := chain_dist_le ⟨t, ht, by rw [htu]⟩ (u :: q') hq5
      have hvq : v ∉ u :: q' := by
        intro hm
        have h2 := hI.2
        rcases List.mem_cons.mp hm with rfl | hm
        · exact hself hI
        · obtain ⟨kx, hkx, hle⟩ := htail v hm
          have h1 := hw v hI
          rw [hkx] at h2
          simp only [Cost.lt_fin_fin, decide_eq_true_eq] at h2
          omega
      refine ⟨v :: u :: q', rfl, ?_, List.nodup_cons.mpr ⟨hvq, hq3⟩, ?_, ?_⟩
      · rw [List.getLast?_cons_cons]; exact hq2
      · intro x hx
        rcases List.mem_cons.mp hx with rfl | hx
        · exact hv
        · exact hq4 x hx
      · rw [List.chain'_cons]
        refine ⟨⟨?_, hI.1, d, (hkeep u hself).trans hdu, ?_, hfinal2 d hmin⟩, ?_⟩
        · rw [hparent v, if_pos ⟨hv, hI⟩]
        · rw [hdist v, if_pos ⟨hv, hI⟩]
        · refine chain_transfer hlink (u :: q') hq5 ?_
          intro a ha
          simp only [List.head?_cons, Option.mem_def, Option.some.injEq] at ha
          exact ha ▸ hkeep u hself
    · rw [hkeep v hI] at hdv
      obtain ⟨q, hq1, hq2, hq3, hq4, hq5⟩ := h.chain v k hv hdv
      refine ⟨q, hq1, hq2, hq3, hq4, chain_transfer hlink q hq5 ?_⟩
      intro a ha
      rw [hq1] at ha
      simp only [Option.mem_def, Option.some.injEq] at ha
      exact ha ▸ hkeep v hI
  · -- the measure
    have hcount : (List.range g.size).countP (unprocessed s2)
        < (List.range g.size).countP (unprocessed s) := by
      refine countP_lt _ _ _ ?_ u (List.mem_range.mpr hu) ?_ ?_
      · intro v hv hun
        have hv : v < g.size := List.mem_range.mp hv
        by_contra hpr
        simp only [unprocessed, Bool.or_eq_true, decide_eq_true_eq, not_or] at hpr hun
        obtain ⟨hfin, hnm⟩ := hpr
        cases hsv : distAt s v with
        | inf => exact hfin hsv
        | fin k =>
          rw [hsv] at hnm
          obtain ⟨hf, _⟩ := h.proc v k hv hsv hnm
          have hI := hfinal_keep v k hsv hf
          rw [hkeep v hI, hsv] at hun
          rcases hun with hun | hun
          · cases hun
          · rcases (hmem _).mp hun with hm | ⟨x, hx, hIx, hex⟩
            · exact hnm (List.mem_of_mem_erase hm)
            · have : (v : Int) = (x : Int) := congrArg Prod.snd hex
              have : v = x := by exact_mod_cast this
              subst this
              exact hI hIx
      · simp only [unprocessed, Bool.or_eq_true, decide_eq_true_eq]
        right
        rw [hdu, ← htu]
        exact ht
      · simp only [unprocessed, Bool.or_eq_false_iff, decide_eq_false_iff_not]
        rw [hkeep u hself, hdu]
        refine ⟨by simp, ?_⟩
        intro hm
        rcases (hmem _).mp hm with hm | ⟨x, hx, hIx, hex⟩
        · rw [← htu] at hm
          exact ((h.nodup.mem_erase_iff).mp hm).1 rfl
        · have : (u : Int) = (x : Int) := congrArg Prod.snd hex
          have : u = x := by exact_mod_cast this
          subst this
          exact hself hIx
    have hlen2 : s2.pq.length ≤ (s.pq.erase t).length + g.size := hR.len
    have hlen : (s.pq.erase t).length = s.pq.length - 1 := List.length_erase_of_mem ht
    have hpos : 0 < s.pq.length := List.length_pos_of_mem ht
    unfold work
    have hmul := Nat.mul_le_mul_right (g.size + 1) (Nat.succ_le_of_lt hcount)
    rw [Nat.succ_mul] at hmul
    omega

end Dijkstra

namespace Dijkstra

/-- The state in which `calculate` enters the frontier loop. -/
theorem Inv.init (g : Graph) (start : Nat) (hs : start < g.size) :
    Inv g start (initState g.size start) := by
  have hd : ∀ v, distAt (initState g.size start) v
      = if v = start then Cost.fin 0 else Cost.inf := by
    intro v
    unfold distAt initState
    by_cases h : v = start
    · subst h; simp [hs]
    · simp only [List.getElem?_set_ne (Ne.symm h), if_neg h]
      cases hv : (List.replicate g.size Cost.inf)[v]? with
      | none => rfl
      | some c =>
        have := List.getElem?_mem hv
        rw [List.mem_replicate] at this
        simp [this.2]
  have hp : ∀ v, parentAt (initState g.size start) v = -1 := by
    intro v
    unfold parentAt initState
    cases hv : (List.replicate g.size (-1 : Int))[v]? with
    | none => rfl
    | some c =>
      have := List.getElem?_mem hv
      rw [List.mem_replicate] at this
      simp [this.2]
  have hfin : ∀ v k, distAt (initState g.size start) v = Cost.fin k → v = start ∧ k = 0 := by
    intro v k hv
    rw [hd v] at hv
    by_cases h : v = start
    · rw [if_pos h] at hv
      exact ⟨h, by simpa using hv.symm⟩
    · rw [if_neg h] at hv; cases hv
  refine ⟨by simp [initState], by simp [initState], ?_, by simp [initState], hs, by rw [hd]; simp, hp start, ?_, fun v _ => hp v,
    ?_, ?_⟩
  · intro e he
    simp only [initState, List.mem_singleton] at he
    exact ⟨start, 0, 0, he, hs, by rw [hd]; simp, le_refl _⟩
  · intro v k hv
    rw [(hfin v k hv).2]
  · intro v k _ hv hnm
    obtain ⟨rfl, rfl⟩ := hfin v k hv
    exact absurd (by simp [initState]) hnm
  · intro v k _ hv
    obtain ⟨rfl, rfl⟩ := hfin v k hv
    exact ⟨[v], rfl, rfl, by simp, by simpa using hs, List.chain'_singleton v⟩

theorem work_init (g : Graph) (start : Nat) :
    work g.size (initState g.size start) < enoughFuel g.size := by
  unfold work enoughFuel
  have h : (List.range g.size).countP (unprocessed (initState g.size start))
      ≤ (List.range g.size).length := List.countP_le_length _
  rw [List.length_range] at h
  have := Nat.mul_le_mul_right (g.size + 1) h
  simp only [initState, List.length_singleton] at this ⊢
  omega

/-- The frontier loop ends, with an empty frontier and the invariant, whenever
the fuel exceeds the measure. -/
theorem mainLoop_ok {g : Graph} (hwf : g.WellFormed) (hnn : g.NonNeg) {start : Nat} :
    ∀ (fuel : Nat) (s : DState), Inv g start s → work g.size s < fuel →
      ∃ s2, mainLoop g g.size fuel s = .ok s2 ∧ Inv g start s2 ∧ s2.pq = [] := by
  intro fuel
  induction fuel with
  | zero => intro s _ h; omega
  | succ fuel ih =>
    intro s hinv hwork
    unfold mainLoop
    cases htop : pqTop s.pq with
    | none => exact ⟨s, rfl, hinv, pqTop_none htop⟩
    | some t =>
      have ht := pqTop_mem htop
      obtain ⟨u, d, kd, htu, hu, hdu, hle⟩ := hinv.pqOk t ht
      have hread : readAt s.dist t.2 = .ok (Cost.fin kd) := by
        rw [htu, ← hdu]
        exact readAt_dist s u (by rw [hinv.lenD]; exact hu)
      simp only [hread, ok_bind]
      by_cases hlt : kd < d
      · have hc : (Cost.fin kd).lt t.1 = true := by rw [htu]; simpa using hlt
        rw [if_pos hc]
        obtain ⟨hinv1, hwork1⟩ := hinv.stale ht u d kd htu hdu hlt
        exact ih _ hinv1 (by omega)
      · have hc : ¬ (Cost.fin kd).lt t.1 = true := by rw [htu]; simpa using hlt
        rw [if_neg hc]
        have hkd : kd = d := by omega
        subst hkd
        have hfold : (List.range g.size).foldlM (relaxEdge g t.2) { s with pq := s.pq.erase t }
            = .ok ((List.range g.size).foldl (relaxPure g u) { s with pq := s.pq.erase t }) := by
          rw [htu]
          exact foldlM_relaxEdge g hwf u hu _ (fun v hv => List.mem_range.mp hv) _
            hinv.lenD hinv.lenP
        rw [hfold, ok_bind]
        obtain ⟨hinv2, hwork2⟩ := hinv.relax hnn htop u kd htu hu hdu
        exact ih _ hinv2 (by omega)

end Dijkstra

namespace Graph

theorem walkCost_append_pair (g : Graph) (l : List Nat) (a b : Nat) :
    g.walkCost (l ++ [a, b]) = g.walkCost (l ++ [a]) + g.weight a b := by
  induction l with
  | nil => simp [walkCost]
  | cons x l ih =>
    cases l with
    | nil => simp [walkCost]
    | cons y l =>
      have e1 : g.walkCost (x :: y :: l ++ [a, b])
          = g.weight x y + g.walkCost (y :: l ++ [a, b]) := rfl
      have e2 : g.walkCost (x :: y :: l ++ [a])
          = g.weight x y + g.walkCost (y :: l ++ [a]) := rfl
      rw [e1, e2, ih]
      omega

theorem walkCost_reverse (g : Graph) (q : List Nat) : g.walkCost q.reverse = g.backCost q := by
  induction q with
  | nil => rfl
  | cons v q ih =>
    cases q with
    | nil => rfl
    | cons u q =>
      rw [List.reverse_cons, List.reverse_cons, List.append_assoc]
      simp only [List.singleton_append]
      rw [walkCost_append_pair, ← List.reverse_cons, ih, backCost]
      omega

end Graph

namespace Dijkstra

theorem chain_backCost {g : Graph} {s : DState} {start : Nat} :
    ∀ (q : List Nat) (v : Nat) (k k0 : Int), q.Chain' (Link g s) → q.head? = some v →
      q.getLast? = some start → distAt s v = Cost.fin k → distAt s start = Cost.fin k0 →
      g.backCost q = k - k0 := by
  intro q
  induction q with
  | nil => intro v k k0 _ h; cases h
  | cons a q ih =>
    intro v k k0 hc hhead hlast hv hs
    simp only [List.head?_cons, Option.some.injEq] at hhead
    subst hhead
    cases q with
    | nil =>
      simp only [List.getLast?_singleton, Option.some.injEq] at hlast
      subst hlast
      rw [hv] at hs
      have : k = k0 := by simpa using hs
      simp [Graph.backCost, this]
    | cons b q =>
      rw [List.chain'_cons] at hc
      obtain ⟨⟨_, _, ku, hku, hkv, _⟩, hc⟩ := hc
      rw [List.getLast?_cons_cons] at hlast
      have := ih b ku k0 hc rfl hlast hku hs
      rw [hv] at hkv
      have hk : k = ku + g.weight b a := by simpa using hkv
      rw [Graph.backCost, this, hk]
      omega

theorem chain_isWalk {g : Graph} {s : DState} (q : List Nat) (hc : q.Chain' (Link g s))
    (hlt : ∀ x ∈ q, x < g.size) : g.IsWalk q.reverse := by
  refine ⟨fun x hx => hlt x (List.mem_reverse.mp hx), ?_⟩
  rw [List.chain'_reverse]
  exact hc.imp (fun a b hab => hab.2.1)

/-- With an empty frontier every finite distance is a lower bound along every edge. -/
theorem lower_bound {g : Graph} {s : DState} {start : Nat} (h : Inv g start s)
    (hpq : s.pq = []) :
    ∀ (p : List Nat), g.IsWalk p → ∀ (a b : Nat) (k : Int), p.head? = some a →
      p.getLast? = some b → distAt s a = Cost.fin k →
      ∃ kb, distAt s b = Cost.fin kb ∧ kb ≤ k + g.walkCost p := by
  intro p
  induction p with
  | nil => intro _ a b k hh; cases hh
  | cons x p ih =>
    intro hw a b k hhead hlast ha
    simp only [List.head?_cons, Option.some.injEq] at hhead
    subst hhead
    cases p with
    | nil =>
      simp only [List.getLast?_singleton, Option.some.injEq] at hlast
      subst hlast
      exact ⟨k, ha, by simp [Graph.walkCost]⟩
    | cons y p =>
      obtain ⟨hlt, hc⟩ := hw
      rw [List.chain'_cons] at hc
      obtain ⟨hxy, hc⟩ := hc
      have hx : x < g.size := hlt x (by simp)
      have hy : y < g.size := hlt y (by simp)
      obtain ⟨_, hrel⟩ := h.proc x k hx ha (by rw [hpq]; simp)
      have hlt2 := hrel y hy hxy
      cases hdy : distAt s y with
      | inf => rw [hdy] at hlt2; simp at hlt2
      | fin ky =>
        rw [hdy] at hlt2
        simp only [Cost.lt_fin_fin, decide_eq_false_iff_not] at hlt2
        rw [List.getLast?_cons_cons] at hlast
        obtain ⟨kb, hkb, hle⟩ := ih ⟨fun z hz => hlt z (List.mem_cons_of_mem _ hz), hc⟩
          y b ky rfl hlast hdy
        refine ⟨kb, hkb, ?_⟩
        rw [Graph.walkCost]
        omega

theorem walkBack_chain {g : Graph} {s : DState} {start : Nat} (hP : s.parent.length = g.size)
    (hstart : parentAt s start = -1) :
    ∀ (q : List Nat) (v : Nat) (fuel : Nat) (acc : List Int), q.Chain' (Link g s) →
      (∀ x ∈ q, x < g.size) → q.head? = some v → q.getLast? = some start → q.length < fuel →
      walkBack s.parent fuel (v : Int) acc = .ok (acc ++ q.map (fun x : Nat => (x : Int))) := by
  intro q
  induction q with
  | nil => intro v fuel acc _ _ h; cases h
  | cons a q ih =>
    intro v fuel acc hc hlt hhead hlast hfuel
    simp only [List.head?_cons, Option.some.injEq] at hhead
    subst hhead
    have ha : a < s.parent.length := by rw [hP]; exact hlt a (by simp)
    have hne : ((a : Nat) : Int) ≠ -1 := by omega
    cases fuel with
    | zero => omega
    | succ fuel =>
      unfold walkBack
      rw [if_neg hne, readAt_parent s a ha, ok_bind]
      cases q with
      | nil =>
        simp only [List.getLast?_singleton, Option.some.injEq] at hlast
        subst hlast
        rw [hstart]
        cases fuel with
        | zero => simp at hfuel
        | succ fuel =>
          unfold walkBack
          simp
      | cons b q =>
        rw [List.chain'_cons] at hc
        obtain ⟨⟨hpar, _⟩, hc⟩ := hc
        rw [List.getLast?_cons_cons] at hlast
        rw [hpar, ih b fuel (acc ++ [(a : Int)]) hc
          (fun z hz => hlt z (List.mem_cons_of_mem _ hz)) rfl hlast
          (by simp only [List.length_cons] at hfuel ⊢; omega)]
        simp

theorem nodup_length_le (q : List Nat) (n : Nat) (hnd : q.Nodup) (hlt : ∀ x ∈ q, x < n) :
    q.length ≤ n := by
  have hsub : q ⊆ List.range n := fun x hx => List.mem_range.mpr (hlt x hx)
  have := (List.subperm_of_subset hnd hsub).length_le
  simpa using this

end Dijkstra

namespace Dijkstra

theorem calculate_unfold (g : Graph) (hwf : g.WellFormed) (hnn : g.NonNeg) (start : Nat)
    (hs : start < g.size) (e : Int) (fuel : Nat) (hfuel : enoughFuel g.size ≤ fuel) :
    ∃ s2, Inv g start s2 ∧ s2.pq = [] ∧
      calculate fuel g start e = (do
        let path ← walkBack s2.parent fuel e []
        if path.reverse.length = 1 ∧ path.reverse.head? ≠ some (start : Int)
        then pure (Cost.inf, [])
        else do
          let de ← readAt s2.dist e
          pure (de, path.reverse)) := by
  obtain ⟨s2, hloop, hinv, hpq⟩ := mainLoop_ok hwf hnn fuel (initState g.size start)
    (Inv.init g start hs) (lt_of_lt_of_le (work_init g start) hfuel)
  refine ⟨s2, hinv, hpq, ?_⟩
  unfold calculate
  dsimp only
  rw [writeAt_natCast _ _ _ (by simpa using hs)]
  simp only [ok_bind]
  have : mainLoop g g.size fuel
      { dist := (List.replicate g.size Cost.inf).set start (Cost.fin 0),
        parent := List.replicate g.size (-1), pq := [(Cost.fin 0, (start : Int))] }
      = .ok s2 := hloop
  rw [this]
  rfl

/-- The result of `calculate` on a well-formed graph with non-negative weights,
for endpoints in range and enough fuel, in terms of walks over natural indices. -/
theorem calculate_nat (g : Graph) (hwf : g.WellFormed) (hnn : g.NonNeg) (start e : Nat)
    (hs : start < g.size) (he : e < g.size) (fuel : Nat) (hfuel : enoughFuel g.size ≤ fuel) :
    (∃ (k : Int) (p : List Nat),
        calculate fuel g start e = .ok (Cost.fin k, p.map (fun x : Nat => (x : Int))) ∧
        p.head? = some start ∧ p.getLast? = some e ∧ g.IsWalk p ∧ p.Nodup ∧ g.walkCost p = k ∧
        ∀ p2, g.IsWalk p2 → p2.head? = some start → p2.getLast? = some e → k ≤ g.walkCost p2)
    ∨ (calculate fuel g start e = .ok (Cost.inf, []) ∧ e ≠ start ∧
        ∀ p2, g.IsWalk p2 → p2.head? = some start → p2.getLast? = some e → False) := by
  obtain ⟨s2, hinv, hpq, hcalc⟩ := calculate_unfold g hwf hnn start hs e fuel hfuel
  have hfuel2 : g.size + 2 ≤ fuel := by
    unfold enoughFuel at hfuel
    have : g.size ≤ g.size * (g.size + 1) := Nat.le_mul_of_pos_right _ (by omega)
    omega
  cases hde : distAt s2 e with
  | inf =>
    right
    have hne : e ≠ start := by
      intro h
      rw [h, hinv.startD] at hde
      cases hde
    refine ⟨?_, hne, ?_⟩
    · rw [hcalc]
      have hpar := hinv.infP e hde
      have hwalk : walkBack s2.parent fuel (e : Int) [] = .ok [(e : Int)] := by
        obtain ⟨f, rfl⟩ : ∃ f, fuel = f + 2 := ⟨fuel - 2, by omega⟩
        unfold walkBack
        rw [if_neg (by omega), readAt_parent s2 e (by rw [hinv.lenP]; exact he), ok_bind, hpar]
        unfold walkBack
        simp
      rw [hwalk, ok_bind]
      have hne2 : (e : Int) ≠ (start : Int) := by exact_mod_cast hne
      simp [hne2, ok_pure]
    · intro p2 hw hh hl
      obtain ⟨kb, hkb, _⟩ := lower_bound hinv hpq p2 hw start e 0 hh hl hinv.startD
      rw [hde] at hkb
      cases hkb
  | fin k =>
    left
    obtain ⟨q, hq1, hq2, hq3, hq4, hq5⟩ := hinv.chain e k he hde
    have hqlen := nodup_length_le q g.size hq3 hq4
    refine ⟨k, q.reverse, ?_, ?_, ?_, chain_isWalk q hq5 hq4, List.nodup_reverse.mpr hq3, ?_, ?_⟩
    · rw [hcalc, walkBack_chain hinv.lenP hinv.startP q e fuel [] hq5 hq4 hq1 hq2 (by omega),
        ok_bind]
      have hhead : ([] ++ q.map (fun x : Nat => (x : Int))).reverse.head? = some (start : Int) := by
        rw [List.nil_append, List.head?_reverse, List.getLast?_map, hq2]
        rfl
      rw [if_neg (fun h => h.2 hhead), readAt_dist s2 e (by rw [hinv.lenD]; exact he), hde, ok_bind,
        ok_pure, List.nil_append, List.map_reverse]
    · rw [List.head?_reverse, hq2]
    · rw [List.getLast?_reverse, hq1]
    · rw [Graph.walkCost_reverse, chain_backCost q e k 0 hq5 hq1 hq2 hde hinv.startD]
      omega
    · intro p2 hw hh hl
      obtain ⟨kb, hkb, hle⟩ := lower_bound hinv hpq p2 hw start e 0 hh hl hinv.startD
      rw [hde] at hkb
      have : k = kb := by simpa using hkb
      omega

end Dijkstra

namespace Graph

theorem hasEdge_iff (g : Graph) (u v : Int) :
    g.HasEdge u v ↔ ∃ w, g.getEdgeWeight u v = .ok w ∧ w ≠ -1 := by
  unfold HasEdge hasEdge
  cases h : g.getEdgeWeight u v with
  | error f => simp
  | ok w => simp

theorem allEdges_iff (g : Graph) (path : List Int) :
    g.allEdges path = true ↔ path.Chain' (HasEdge g) := by
  induction path with
  | nil => simp [allEdges]
  | cons a path ih =>
    cases path with
    | nil => simp [allEdges]
    | cons b path =>
      rw [allEdges, List.chain'_cons, Bool.and_eq_true, ih]
      rfl

theorem getEdgeWeight_ok (g : Graph) (hwf : g.WellFormed) (x y : Int) (w : Int)
    (h : g.getEdgeWeight x y = .ok w) :
    ∃ a b : Nat, x = a ∧ y = b ∧ a < g.size ∧ b < g.size ∧ g.weight a b = w := by
  unfold getEdgeWeight at h
  cases hrow : readAt g.adjMatrix x with
  | error f => rw [hrow] at h; cases h
  | ok row =>
    rw [hrow, ok_bind] at h
    obtain ⟨a, rfl, ha⟩ := (readAt_ok_iff _ _ _).mp hrow
    obtain ⟨b, rfl, hb⟩ := (readAt_ok_iff _ _ _).mp h
    have ha' : a < g.adjMatrix.length := (List.getElem?_eq_some.mp ha).1
    have hb' : b < row.length := (List.getElem?_eq_some.mp hb).1
    have hlen : row.length = g.size := hwf row (List.getElem?_mem ha)
    refine ⟨a, b, rfl, rfl, ha', by omega, ?_⟩
    simp [weight, ha, hb]

theorem hasEdge_nat (g : Graph) (hwf : g.WellFormed) (a b : Nat) (ha : a < g.size)
    (hb : b < g.size) : g.HasEdge a b ↔ g.weight a b ≠ -1 := by
  rw [hasEdge_iff, getEdgeWeight_eq g hwf a b ha hb]
  constructor
  · rintro ⟨w, hw, hne⟩
    cases hw
    exact hne
  · intro h
    exact ⟨_, rfl, h⟩

/-- A walk over natural indices is a route of the program, of the same cost. -/
theorem route_of_walk (g : Graph) (hwf : g.WellFormed) :
    ∀ p : List Nat, g.IsWalk p →
      (p.map (fun x : Nat => (x : Int))).Chain' (HasEdge g) ∧
      g.routeCost (p.map (fun x : Nat => (x : Int))) = .ok (g.walkCost p) := by
  intro p
  induction p with
  | nil => intro _; exact ⟨List.chain'_nil, rfl⟩
  | cons a p ih =>
    intro hw
    cases p with
    | nil => exact ⟨List.chain'_singleton _, rfl⟩
    | cons b p =>
      obtain ⟨hlt, hc⟩ := hw
      rw [List.chain'_cons] at hc
      obtain ⟨hab, hc⟩ := hc
      have ha : a < g.size := hlt a (by simp)
      have hb : b < g.size := hlt b (by simp)
      obtain ⟨ih1, ih2⟩ := ih ⟨fun z hz => hlt z (List.mem_cons_of_mem _ hz), hc⟩
      constructor
      · simp only [List.map_cons] at ih1 ⊢
        rw [List.chain'_cons]
        exact ⟨(hasEdge_nat g hwf a b ha hb).mpr hab, ih1⟩
      · simp only [List.map_cons] at ih2 ⊢
        rw [routeCost, getEdgeWeight_eq g hwf a b ha hb, ok_bind, ih2, ok_bind, ok_pure, walkCost]

/-- A route of the program that starts in range is a walk over natural indices. -/
theorem walk_of_route (g : Graph) (hwf : g.WellFormed) :
    ∀ (path : List Int) (a : Nat), a < g.size → path.head? = some (a : Int) →
      path.Chain' (HasEdge g) →
      ∃ p : List Nat, path = p.map (fun x : Nat => (x : Int)) ∧ g.IsWalk p := by
  intro path
  induction path with
  | nil => intro a _ h; cases h
  | cons x path ih =>
    intro a ha hhead hc
    simp only [List.head?_cons, Option.some.injEq] at hhead
    subst hhead
    cases path with
    | nil => exact ⟨[a], rfl, by simpa using ha, List.chain'_singleton _⟩
    | cons y path =>
      rw [List.chain'_cons] at hc
      obtain ⟨hxy, hc⟩ := hc
      obtain ⟨w, hw, hne⟩ := (hasEdge_iff g _ _).mp hxy
      obtain ⟨a2, b, ha2, rfl, _, hb, hwab⟩ := getEdgeWeight_ok g hwf _ _ w hw
      have : a = a2 := by exact_mod_cast ha2
      subst this
      obtain ⟨p, hp, hpw⟩ := ih b hb rfl hc
      cases p with
      | nil => cases hp
      | cons b2 p =>
        simp only [List.map_cons, List.cons.injEq] at hp
        have : b = b2 := by exact_mod_cast hp.1
        subst this
        refine ⟨a :: b :: p, by simp [hp.2], ?_, ?_⟩
        · intro z hz
          rcases List.mem_cons.mp hz with rfl | hz
          · exact ha
          · exact hpw.1 z hz
        · rw [List.chain'_cons]
          exact ⟨by rw [hwab]; exact hne, hpw.2⟩

theorem route_iff_walk (g : Graph) (hwf : g.WellFormed) (a b : Nat) (ha : a < g.size)
    (path : List Int) (h : g.IsRoute a b path) :
    ∃ p : List Nat, path = p.map (fun x : Nat => (x : Int)) ∧ g.IsWalk p ∧
      p.head? = some a ∧ p.getLast? = some b := by
  obtain ⟨h1, h2, h3⟩ := h
  obtain ⟨p, rfl, hp⟩ := walk_of_route g hwf path a ha h1 ((g.allEdges_iff path).mp h3)
  refine ⟨p, rfl, hp, ?_, ?_⟩
  · rw [List.head?_map] at h1
    cases hh : p.head? with
    | none => rw [hh] at h1; cases h1
    | some x =>
      rw [hh] at h1
      simp only [Option.map_some', Option.some.injEq] at h1
      have : x = a := by exact_mod_cast h1
      rw [this]
  · rw [List.getLast?_map] at h2
    cases hh : p.getLast? with
    | none => rw [hh] at h2; cases h2
    | some x =>
      rw [hh] at h2
      simp only [Option.map_some', Option.some.injEq] at h2
      have : x = b := by exact_mod_cast h2
      rw [this]

end Graph

theorem InRange.exists_nat {n : Nat} {i : Int} (h : InRange n i) :
    ∃ a : Nat, i = (a : Int) ∧ a < n := by
  obtain ⟨h1, h2⟩ := h
  obtain ⟨a, rfl⟩ := Int.eq_ofNat_of_zero_le h1
  exact ⟨a, rfl, by exact_mod_cast h2⟩

theorem singleton_of_nodup_ends {α : Type} (l : List α) (a : α) (hnd : l.Nodup)
    (hh : l.head? = some a) (hl : l.getLast? = some a) : l = [a] := by
  cases l with
  | nil => cases hh
  | cons x t =>
    simp only [List.head?_cons, Option.some.injEq] at hh
    subst hh
    cases t with
    | nil => rfl
    | cons y t =>
      rw [List.getLast?_cons_cons] at hl
      have : x ∈ y :: t := List.mem_of_getLast?_eq_some hl
      exact absurd this (List.nodup_cons.mp hnd).1

/-- What `calculate` returns on a well-formed graph with non-negative weights,
for valid endpoints and enough fuel: either a cheapest route with its cost, or
`(+∞, [])` when the end node cannot be reached. -/
theorem Dijkstra.calculate_result (g : Graph) (hwf : g.WellFormed) (hnn : g.NonNeg)
    (start end_ : Int) (hs : g.Valid start) (he : g.Valid end_) (fuel : Nat)
    (hfuel : enoughFuel g.size ≤ fuel) :
    (∃ (c : Int) (path : List Int),
        Dijkstra.calculate fuel g start end_ = .ok (Cost.fin c, path) ∧
        g.IsRoute start end_ path ∧ path.Nodup ∧ g.routeCost path = .ok c ∧
        ∀ walk, g.IsRoute start end_ walk → ∃ c2, g.routeCost walk = .ok c2 ∧ c ≤ c2)
    ∨ (Dijkstra.calculate fuel g start end_ = .ok (Cost.inf, []) ∧ end_ ≠ start ∧
        ¬ g.Reachable start end_) := by
  obtain ⟨s, rfl, hs'⟩ := hs.exists_nat
  obtain ⟨e, rfl, he'⟩ := he.exists_nat
  rcases Dijkstra.calculate_nat g hwf hnn s e hs' he' fuel hfuel with
    ⟨k, p, hcalc, hh, hl, hw, hnd, hcost, hmin⟩ | ⟨hcalc, hne, hno⟩
  · left
    obtain ⟨hr1, hr2⟩ := g.route_of_walk hwf p hw
    refine ⟨k, _, hcalc, ⟨?_, ?_, (g.allEdges_iff _).mpr hr1⟩, ?_, ?_, ?_⟩
    · rw [List.head?_map, hh]; rfl
    · rw [List.getLast?_map, hl]; rfl
    · exact hnd.map (fun a b hab => by exact_mod_cast hab)
    · rw [hr2, hcost]
    · intro walk hwalk
      obtain ⟨p2, rfl, hp2, hh2, hl2⟩ := g.route_iff_walk hwf s e hs' walk hwalk
      exact ⟨_, (g.route_of_walk hwf p2 hp2).2, hmin p2 hp2 hh2 hl2⟩
  · right
    refine ⟨hcalc, by exact_mod_cast hne, ?_⟩
    rintro ⟨walk, hwalk⟩
    obtain ⟨p2, _, hp2, hh2, hl2⟩ := g.route_iff_walk hwf s e hs' walk hwalk
    exact hno p2 hp2 hh2 hl2

namespace Graph

theorem new_wellFormed (n : Nat) : (new n).WellFormed := by
  intro row hrow
  simp only [new, List.mem_replicate] at hrow
  simp [hrow.2, new, size]

theorem new_size (n : Nat) : (new n).size = n := by simp [new, size]

theorem new_weight (n : Nat) (a b : Nat) : (new n).weight a b = -1 := by
  unfold weight new
  cases hrow : (List.replicate n (List.replicate n (-1 : Int)))[a]? with
  | none => simp
  | some row =>
    have := List.getElem?_mem hrow
    rw [List.mem_replicate] at this
    cases hcell : row[b]? with
    | none => simp [hcell]
    | some w =>
      have hw := List.getElem?_mem hcell
      rw [this.2, List.mem_replicate] at hw
      simp [hcell, hw.2]

theorem lastSet_snoc (ops : List (Int × Int × Int)) (op : Int × Int × Int) (u v : Int) :
    lastSet (ops ++ [op]) u v =
      if (op.1 = u ∧ op.2.1 = v) ∨ (op.1 = v ∧ op.2.1 = u) then op.2.2 else lastSet ops u v := by
  simp [lastSet, List.foldl_append]

theorem lastSet_comm (ops : List (Int × Int × Int)) (u v : Int) :
    lastSet ops u v = lastSet ops v u := by
  induction ops using List.reverseRecOn with
  | nil => rfl
  | append_singleton ops op ih =>
    rw [lastSet_snoc, lastSet_snoc, ih]
    by_cases h : (op.1 = u ∧ op.2.1 = v) ∨ (op.1 = v ∧ op.2.1 = u)
    · rw [if_pos h, if_pos (Or.symm h)]
    · rw [if_neg h, if_neg (fun h2 => h (Or.symm h2))]

/-- The graph built by a sequence of in-range `setEdge` calls on `Graph(n)`. -/
theorem runSetEdges_spec (n : Nat) (ops : List (Int × Int × Int)) (hops : OpsInRange n ops) :
    ∃ g, runSetEdges (new n) ops = .ok g ∧ g.WellFormed ∧ g.size = n ∧
      ∀ a b : Nat, a < n → b < n → g.weight a b = lastSet ops a b := by
  induction ops using List.reverseRecOn with
  | nil =>
    exact ⟨new n, rfl, new_wellFormed n, new_size n, fun a b _ _ => new_weight n a b⟩
  | append_singleton ops op ih =>
    obtain ⟨g, hrun, hwf, hsize, hw⟩ := ih (fun o ho => hops o (List.mem_append_left _ ho))
    obtain ⟨hu, hv⟩ := hops op (by simp)
    obtain ⟨u, hu1, hu2⟩ := hu.exists_nat
    obtain ⟨v, hv1, hv2⟩ := hv.exists_nat
    obtain ⟨g2, hset, hsize2, hwf2, hw2⟩ :=
      g.setEdge_ok hwf u v (by omega) (by omega) op.2.2
    refine ⟨g2, ?_, hwf2, by omega, ?_⟩
    · unfold runSetEdges at hrun ⊢
      rw [List.foldlM_append, hrun, ok_bind, List.foldlM_cons, hu1, hv1, hset, ok_bind]
      rfl
    · intro a b ha hb
      rw [hw2 a b (by omega) (by omega), lastSet_snoc, hw a b ha hb, hu1, hv1]
      simp only [Nat.cast_inj]
      by_cases h : (a = u ∧ b = v) ∨ (a = v ∧ b = u)
      · rw [if_pos h, if_pos (by
          rcases h with ⟨h1, h2⟩ | ⟨h1, h2⟩
          · exact Or.inl ⟨h1.symm, h2.symm⟩
          · exact Or.inr ⟨h2.symm, h1.symm⟩)]
      · rw [if_neg h, if_neg (by
          rintro (⟨h1, h2⟩ | ⟨h1, h2⟩)
          · exact h (Or.inl ⟨h1.symm, h2.symm⟩)
          · exact h (Or.inr ⟨h2.symm, h1.symm⟩))]

end Graph

/-- When `calculate` reports `+∞`, the end node cannot be reached. -/
theorem Dijkstra.unreachable_of_inf (g : Graph) (hwf : g.WellFormed) (hnn : g.NonNeg)
    (start end_ : Int) (hs : g.Valid start) (he : g.Valid end_) (fuel : Nat)
    (hfuel : enoughFuel g.size ≤ fuel) (path : List Int)
    (h : Dijkstra.calculate fuel g start end_ = .ok (Cost.inf, path)) :
    ¬ g.Reachable start end_ := by
  rcases Dijkstra.calculate_result g hwf hnn start end_ hs he fuel hfuel with
    ⟨c, p, hcalc, _⟩ | ⟨_, _, hno⟩
  · rw [hcalc] at h
    cases h
  · exact hno

/-- C1: on a graph whose weights are all `-1` or non-negative, for valid `start` and
`end` with `end` reachable from `start`, `calculate` returns a finite cost, some walk
from `start` to `end` along existing edges has exactly that cost, and every such walk
costs at least as much: the cost is the minimum over all walks. -/
theorem calculate_cost_is_minimum (g : Graph) (hwf : g.WellFormed) (hnn : g.NonNeg)
    (start end_ : Int) (hs : g.Valid start) (he : g.Valid end_)
    (hreach : g.Reachable start end_) (fuel : Nat) (hfuel : enoughFuel g.size ≤ fuel) :
    ∃ (c : Int) (path : List Int),
      Dijkstra.calculate fuel g start end_ = .ok (Cost.fin c, path) ∧
      (∃ walk, g.IsRoute start end_ walk ∧ g.routeCost walk = .ok c) ∧
      ∀ walk, g.IsRoute start end_ walk → ∃ c2, g.routeCost walk = .ok c2 ∧ c ≤ c2 := by
  rcases Dijkstra.calculate_result g hwf hnn start end_ hs he fuel hfuel with
    ⟨c, p, hcalc, hroute, _, hcost, hmin⟩ | ⟨_, _, hno⟩
  · exact ⟨c, p, hcalc, ⟨p, hroute, hcost⟩, hmin⟩
  · exact absurd hreach hno

theorem calculate_cost_is_minimum_witness :
    scenarioB.WellFormed ∧ scenarioB.NonNeg ∧ scenarioB.Valid 0 ∧ scenarioB.Valid 2 ∧
    scenarioB.Reachable 0 2 ∧ enoughFuel scenarioB.size ≤ 14 ∧
    ∃ (c : Int) (path : List Int),
      Dijkstra.calculate 14 scenarioB 0 2 = .ok (Cost.fin c, path) ∧
      (∃ walk, scenarioB.IsRoute 0 2 walk ∧ scenarioB.routeCost walk = .ok c) ∧
      ∀ walk, scenarioB.IsRoute 0 2 walk → ∃ c2, scenarioB.routeCost walk = .ok c2 ∧ c ≤ c2 :=
  ⟨by decide, by decide, by decide, by decide, ⟨[0, 2], by decide⟩, by decide,
    calculate_cost_is_minimum scenarioB (by decide) (by decide) 0 2 (by decide) (by decide)
      ⟨[0, 2], by decide⟩ 14 (by decide)⟩

/-- C2: on a graph with non-negative weights, for valid `start` and `end` with `end`
reachable from `start`, the path returned by `calculate` starts at `start`, ends at
`end`, every two consecutive elements are joined by an existing edge
(`getEdgeWeight ≠ -1`), and the sum of `getEdgeWeight` over consecutive elements is
exactly the returned cost. -/
theorem calculate_path_is_route (g : Graph) (hwf : g.WellFormed) (hnn : g.NonNeg)
    (start end_ : Int) (hs : g.Valid start) (he : g.Valid end_)
    (hreach : g.Reachable start end_) (fuel : Nat) (hfuel : enoughFuel g.size ≤ fuel) :
    ∃ (c : Int) (path : List Int),
      Dijkstra.calculate fuel g start end_ = .ok (Cost.fin c, path) ∧
      path.head? = some start ∧ path.getLast? = some end_ ∧
      path.Chain' (fun u v => ∃ w, g.getEdgeWeight u v = .ok w ∧ w ≠ -1) ∧
      g.routeCost path = .ok c := by
  rcases Dijkstra.calculate_result g hwf hnn start end_ hs he fuel hfuel with
    ⟨c, p, hcalc, hroute, _, hcost, _⟩ | ⟨_, _, hno⟩
  · exact ⟨c, p, hcalc, hroute.1, hroute.2.1,
      ((g.allEdges_iff p).mp hroute.2.2).imp (fun u v h => (g.hasEdge_iff u v).mp h), hcost⟩
  · exact absurd hreach hno

theorem calculate_path_is_route_witness :
    scenarioB.WellFormed ∧ scenarioB.NonNeg ∧ scenarioB.Valid 0 ∧ scenarioB.Valid 2 ∧
    scenarioB.Reachable 0 2 ∧ enoughFuel scenarioB.size ≤ 14 ∧
    ∃ (c : Int) (path : List Int),
      Dijkstra.calculate 14 scenarioB 0 2 = .ok (Cost.fin c, path) ∧
      path.head? = some 0 ∧ path.getLast? = some 2 ∧
      path.Chain' (fun u v => ∃ w, scenarioB.getEdgeWeight u v = .ok w ∧ w ≠ -1) ∧
      scenarioB.routeCost path = .ok c :=
  ⟨by decide, by decide, by decide, by decide, ⟨[0, 1, 2], by decide⟩, by decide,
    calculate_path_is_route scenarioB (by decide) (by decide) 0 2 (by decide) (by decide)
      ⟨[0, 1, 2], by decide⟩ 14 (by decide)⟩

/-- C6: on a graph with non-negative weights and for every valid node `s`,
`calculate(graph, s, s)` returns cost `0` and the path `[s]`. -/
theorem calculate_same_node (g : Graph) (hwf : g.WellFormed) (hnn : g.NonNeg)
    (s : Int) (hs : g.Valid s) (fuel : Nat) (hfuel : enoughFuel g.size ≤ fuel) :
    Dijkstra.calculate fuel g s s = .ok (Cost.fin 0, [s]) := by
  rcases Dijkstra.calculate_result g hwf hnn s s hs hs fuel hfuel with
    ⟨c, p, hcalc, hroute, hnd, hcost, _⟩ | ⟨_, hne, _⟩
  · have hp : p = [s] := singleton_of_nodup_ends p s hnd hroute.1 hroute.2.1
    subst hp
    have : c = 0 := by
      have : (Except.ok 0 : Except Fault Int) = .ok c := hcost
      cases this
      rfl
    rw [hcalc, this]
  · exact absurd rfl hne

theorem calculate_same_node_witness :
    scenarioB.WellFormed ∧ scenarioB.NonNeg ∧ scenarioB.Valid 1 ∧
    enoughFuel scenarioB.size ≤ 14 ∧
    Dijkstra.calculate 14 scenarioB 1 1 = .ok (Cost.fin 0, [1]) :=
  ⟨by decide, by decide, by decide, by decide,
    calculate_same_node scenarioB (by decide) (by decide) 1 (by decide) 14 (by decide)⟩

/-- C7: on a graph with non-negative weights, for valid `start` and `end` such that no
walk along existing edges connects `start` to `end`, `calculate` returns cost `+∞`
(the unreachable marker) and an empty path. -/
theorem calculate_unreachable (g : Graph) (hwf : g.WellFormed) (hnn : g.NonNeg)
    (start end_ : Int) (hs : g.Valid start) (he : g.Valid end_)
    (hno : ¬ g.Reachable start end_) (fuel : Nat) (hfuel : enoughFuel g.size ≤ fuel) :
    Dijkstra.calculate fuel g start end_ = .ok (Cost.inf, []) := by
  rcases Dijkstra.calculate_result g hwf hnn start end_ hs he fuel hfuel with
    ⟨c, p, _, hroute, _⟩ | ⟨hcalc, _, _⟩
  · exact absurd ⟨p, hroute⟩ hno
  · exact hcalc

theorem calculate_unreachable_witness :
    scenarioC.WellFormed ∧ scenarioC.NonNeg ∧ scenarioC.Valid 0 ∧ scenarioC.Valid 2 ∧
    ¬ scenarioC.Reachable 0 2 ∧ enoughFuel scenarioC.size ≤ 14 ∧
    Dijkstra.calculate 14 scenarioC 0 2 = .ok (Cost.inf, []) :=
  ⟨by decide, by decide, by decide, by decide,
    Dijkstra.unreachable_of_inf scenarioC (by decide) (by decide) 0 2 (by decide) (by decide)
      14 (by decide) [] rfl,
    by decide,
    calculate_unreachable scenarioC (by decide) (by decide) 0 2 (by decide) (by decide)
      (Dijkstra.unreachable_of_inf scenarioC (by decide) (by decide) 0 2 (by decide)
        (by decide) 14 (by decide) [] rfl) 14 (by decide)⟩

/-- C9: every graph obtained from `Graph(n)` by a finite sequence of `setEdge` calls with
in-range indices is symmetric: for all `0 ≤ u, v < n`, `getEdgeWeight(u, v)` and
`getEdgeWeight(v, u)` return the same weight.  The empty sequence gives the initial
graph, and a sequence extended by one call gives preservation by that `setEdge`. -/
theorem setEdge_keeps_symmetry (n : Nat) (ops : List (Int × Int × Int))
    (hops : OpsInRange n ops) (u v : Int) (hu : InRange n u) (hv : InRange n v) :
    ∃ g w, runSetEdges (Graph.new n) ops = .ok g ∧
      g.getEdgeWeight u v = .ok w ∧ g.getEdgeWeight v u = .ok w := by
  obtain ⟨g, hrun, hwf, hsize, hw⟩ := Graph.runSetEdges_spec n ops hops
  obtain ⟨a, rfl, ha⟩ := hu.exists_nat
  obtain ⟨b, rfl, hb⟩ := hv.exists_nat
  refine ⟨g, g.weight a b, hrun, g.getEdgeWeight_eq hwf a b (by omega) (by omega), ?_⟩
  rw [g.getEdgeWeight_eq hwf b a (by omega) (by omega), hw a b ha hb, hw b a hb ha,
    Graph.lastSet_comm]

theorem setEdge_keeps_symmetry_witness :
    OpsInRange 3 [(0, 1, 4), (2, 1, 7), (1, 0, 9), (2, 2, 5)] ∧ InRange 3 1 ∧ InRange 3 2 ∧
    ∃ g w, runSetEdges (Graph.new 3) [(0, 1, 4), (2, 1, 7), (1, 0, 9), (2, 2, 5)] = .ok g ∧
      g.getEdgeWeight 1 2 = .ok w ∧ g.getEdgeWeight 2 1 = .ok w :=
  ⟨by decide, by decide, by decide,
    setEdge_keeps_symmetry 3 _ (by decide) 1 2 (by decide) (by decide)⟩

/-- C10: for a graph `g` obtained from `Graph(n)` by a finite sequence of in-range
`setEdge` calls, `getEdgeWeight(a, b)` is the weight of the most recent call on the
unordered pair `{a, b}`, or `-1` if there was none, and `size()` is `n`; one more call
`setEdge(u, v, w)` keeps the size and changes only the cells `(u, v)` and `(v, u)`. -/
theorem getEdgeWeight_is_last_setEdge (n : Nat) (ops : List (Int × Int × Int))
    (hops : OpsInRange n ops) (u v w : Int) (hu : InRange n u) (hv : InRange n v) :
    ∃ g g2, runSetEdges (Graph.new n) ops = .ok g ∧ g.size = n ∧
      (∀ a b, InRange n a → InRange n b → g.getEdgeWeight a b = .ok (lastSet ops a b)) ∧
      g.setEdge u v w = .ok g2 ∧ g2.size = n ∧
      (∀ a b, InRange n a → InRange n b →
        g2.getEdgeWeight a b =
          if (a = u ∧ b = v) ∨ (a = v ∧ b = u) then .ok w else g.getEdgeWeight a b) := by
  obtain ⟨g, hrun, hwf, hsize, hw⟩ := Graph.runSetEdges_spec n ops hops
  obtain ⟨x, rfl, hx⟩ := hu.exists_nat
  obtain ⟨y, rfl, hy⟩ := hv.exists_nat
  obtain ⟨g2, hset, hsize2, hwf2, hw2⟩ := g.setEdge_ok hwf x y (by omega) (by omega) w
  refine ⟨g, g2, hrun, hsize, ?_, hset, by omega, ?_⟩
  · intro a b ha hb
    obtain ⟨a, rfl, ha2⟩ := ha.exists_nat
    obtain ⟨b, rfl, hb2⟩ := hb.exists_nat
    rw [g.getEdgeWeight_eq hwf a b (by omega) (by omega), hw a b ha2 hb2]
  · intro a b ha hb
    obtain ⟨a, rfl, ha2⟩ := ha.exists_nat
    obtain ⟨b, rfl, hb2⟩ := hb.exists_nat
    rw [g2.getEdgeWeight_eq hwf2 a b (by omega) (by omega),
      g.getEdgeWeight_eq hwf a b (by omega) (by omega), hw2 a b (by omega) (by omega)]
    simp only [Nat.cast_inj]
    split <;> rfl

theorem getEdgeWeight_is_last_setEdge_witness :
    OpsInRange 3 [(0, 1, 4), (2, 1, 7), (1, 0, 9)] ∧ InRange 3 2 ∧ InRange 3 0 ∧
    ∃ g g2, runSetEdges (Graph.new 3) [(0, 1, 4), (2, 1, 7), (1, 0, 9)] = .ok g ∧ g.size = 3 ∧
      (∀ a b, InRange 3 a → InRange 3 b →
        g.getEdgeWeight a b = .ok (lastSet [(0, 1, 4), (2, 1, 7), (1, 0, 9)] a b)) ∧
      g.setEdge 2 0 6 = .ok g2 ∧ g2.size = 3 ∧
      (∀ a b, InRange 3 a → InRange 3 b →
        g2.getEdgeWeight a b =
          if (a = 2 ∧ b = 0) ∨ (a = 0 ∧ b = 2) then .ok 6 else g.getEdgeWeight a b) :=
  ⟨by decide, by decide, by decide,
    getEdgeWeight_is_last_setEdge 3 _ (by decide) 2 0 6 (by decide) (by decide)⟩

namespace Cost

theorem lt_chain {a b c : Cost} (h1 : a.lt b = true) (h2 : b.lt c = true) : a.lt c = true := by
  cases a <;> cases b <;> cases c <;> simp_all
  omega

theorem lt_le_chain {a b c : Cost} (h1 : a.lt b = true) (h2 : c.lt b = false) :
    a.lt c = true := by
  cases a <;> cases b <;> cases c <;> simp_all
  omega

theorem le_self (a : Cost) : a.lt a = false := by
  cases a <;> simp

theorem eq_inf_of_not_lt {a : Cost} (h : a.lt inf = false) : a = inf := by
  cases a <;> simp_all

end Cost

namespace Graph

theorem ext_weight (g g2 : Graph) (hwf : g.WellFormed) (hwf2 : g2.WellFormed)
    (hsize : g2.size = g.size)
    (hw : ∀ a b, a < g.size → b < g.size → g2.weight a b = g.weight a b) : g2 = g := by
  cases g with
  | mk m =>
  cases g2 with
  | mk m2 =>
  simp only [size] at hsize
  congr 1
  apply List.ext_getElem hsize
  intro a ha2 ha
  have hr2 : m2[a].length = m.length := by
    rw [← hsize]; exact hwf2 _ (List.getElem_mem _)
  have hr : m[a].length = m.length := hwf _ (List.getElem_mem _)
  apply List.ext_getElem (hr2.trans hr.symm)
  intro b hb2 hb
  have := hw a b ha (by show b < m.length; omega)
  simpa [weight, List.getElem?_eq_getElem ha, List.getElem?_eq_getElem ha2,
    List.getElem?_eq_getElem hb, List.getElem?_eq_getElem hb2] using this

theorem nonNeg_of_weight (g : Graph) (hwf : g.WellFormed)
    (hw : ∀ a b, a < g.size → b < g.size → -1 ≤ g.weight a b) : g.NonNeg := by
  intro row hrow w hw2
  obtain ⟨a, ha, rfl⟩ := List.getElem_of_mem hrow
  obtain ⟨b, hb, rfl⟩ := List.getElem_of_mem hw2
  have hlen : g.adjMatrix[a].length = g.size := hwf _ (List.getElem_mem _)
  have := hw a b ha (by rw [← hlen]; exact hb)
  simpa [weight, List.getElem?_eq_getElem ha, List.getElem?_eq_getElem hb] using this

theorem positive_nat (g : Graph) (hwf : g.WellFormed) (u v : Nat) (hu : u < g.size)
    (hv : v < g.size) : g.positive u v = decide (0 < g.weight u v) := by
  simp [positive, getEdgeWeight_eq g hwf u v hu hv]

/-- Writing a weight and then writing back the original restores a symmetric graph. -/
theorem setEdge_restore (g : Graph) (hwf : g.WellFormed) (hsym : g.Symmetric) (u v : Nat)
    (hu : u < g.size) (hv : v < g.size) (w : Int) (g1 : Graph)
    (h1 : g.setEdge u v w = .ok g1) : g1.setEdge u v (g.weight u v) = .ok g := by
  obtain ⟨g1b, hset1, hsize1, hwf1, hw1⟩ := g.setEdge_ok hwf u v hu hv w
  rw [h1] at hset1
  cases hset1
  obtain ⟨g2, hset2, hsize2, hwf2, hw2⟩ :=
    g1.setEdge_ok hwf1 u v (by omega) (by omega) (g.weight u v)
  have : g2 = g := by
    apply ext_weight g g2 hwf hwf2 (by omega)
    intro a b ha hb
    rw [hw2 a b (by omega) (by omega), hw1 a b ha hb]
    by_cases h : (a = u ∧ b = v) ∨ (a = v ∧ b = u)
    · rw [if_pos h]
      rcases h with ⟨rfl, rfl⟩ | ⟨rfl, rfl⟩
      · rfl
      · exact hsym b hu a hv
    · rw [if_neg h, if_neg h]
  rw [hset2, this]

end Graph

theorem discounted_ok (g : Graph) (hwf : g.WellFormed) (u v : Nat) (hu : u < g.size)
    (hv : v < g.size) :
    ∃ g1, discounted g u v = .ok g1 ∧ g.setEdge u v (Int.tdiv (g.weight u v) 2) = .ok g1 ∧
      g1.size = g.size ∧ g1.WellFormed ∧
      ∀ a b, a < g.size → b < g.size →
        g1.weight a b = if (a = u ∧ b = v) ∨ (a = v ∧ b = u) then Int.tdiv (g.weight u v) 2
          else g.weight a b := by
  obtain ⟨g1, hset, hsize, hwf1, hw⟩ :=
    g.setEdge_ok hwf u v hu hv (Int.tdiv (g.weight u v) 2)
  refine ⟨g1, ?_, hset, hsize, hwf1, hw⟩
  unfold discounted
  rw [g.getEdgeWeight_eq hwf u v hu hv, ok_bind, hset]

theorem tdiv_two_bounds (w : Int) (hw : 0 < w) : 0 ≤ Int.tdiv w 2 ∧ Int.tdiv w 2 < w := by
  have : Int.tdiv w 2 = w / 2 := by
    apply Int.tdiv_eq_ediv <;> omega
  rw [this]
  omega

theorem foldlM_ok_of_step {σ α : Type} (f : σ → α → Except Fault σ) (f2 : σ → α → σ)
    (P : σ → Prop) (l : List α)
    (hstep : ∀ s a, P s → a ∈ l → f s a = .ok (f2 s a) ∧ P (f2 s a)) :
    ∀ s, P s → l.foldlM f s = .ok (l.foldl f2 s) ∧ P (l.foldl f2 s) := by
  induction l with
  | nil => intro s hs; exact ⟨rfl, hs⟩
  | cons a l ih =>
    intro s hs
    obtain ⟨h1, h2⟩ := hstep s a hs (List.mem_cons_self _ _)
    rw [List.foldlM_cons, h1, ok_bind, List.foldl_cons]
    exact ih (fun s b hs hb => hstep s b hs (List.mem_cons_of_mem _ hb)) _ h2

theorem foldlM_inv {σ α : Type} (f : σ → α → Except Fault σ) (P : σ → Prop) (l : List α)
    (hstep : ∀ s a s2, P s → a ∈ l → f s a = .ok s2 → P s2) :
    ∀ s s2, P s → l.foldlM f s = .ok s2 → P s2 := by
  induction l with
  | nil =>
    intro s s2 hs h
    cases h
    exact hs
  | cons a l ih =>
    intro s s2 hs h
    rw [List.foldlM_cons] at h
    cases h1 : f s a with
    | error e => rw [h1] at h; cases h
    | ok s1 =>
      rw [h1, ok_bind] at h
      exact ih (fun s b s2 hs hb => hstep s b s2 hs (List.mem_cons_of_mem _ hb)) s1 s2
        (hstep s a s1 hs (List.mem_cons_self _ _) h1) h

/-- One pass of the discount search, when it completes, leaves the graph as it was. -/
theorem discountTrial_graph (g : Graph) (hwf : g.WellFormed) (hsym : g.Symmetric)
    (fuel : Nat) (A B : Int) (u v : Nat) (hu : u < g.size) (hv : v < g.size)
    (st st2 : Search) (hg : st.graph = g)
    (h : discountTrial fuel A B u st v = .ok st2) : st2.graph = g := by
  unfold discountTrial at h
  rw [hg, g.getEdgeWeight_eq hwf u v hu hv] at h
  simp only [ok_bind] at h
  by_cases hpos : 0 < g.weight u v
  · rw [if_pos hpos] at h
    cases hset : g.setEdge u v (Int.tdiv (g.weight u v) 2) with
    | error e => rw [hset] at h; cases h
    | ok g1 =>
      rw [hset, ok_bind] at h
      cases hcalc : Dijkstra.calculate fuel g1 A B with
      | error e => rw [hcalc] at h; cases h
      | ok r =>
        rw [hcalc, ok_bind, g.setEdge_restore hwf hsym u v hu hv _ g1 hset, ok_bind] at h
        cases h
        rfl
  · rw [if_neg hpos] at h
    cases h
    exact hg

/-- A trial on a pair of positive weight runs to completion, on a graph whose weights
are those of `g` except for the two halved cells. -/
theorem trial_ok (g : Graph) (hwf : g.WellFormed) (hnn : g.NonNeg) (fuel : Nat) (A B : Int)
    (hA : g.Valid A) (hB : g.Valid B) (hfuel : enoughFuel g.size ≤ fuel) (u v : Nat)
    (hu : u < g.size) (hv : v < g.size) (hpos : 0 < g.weight u v) :
    ∃ g1 r, g.setEdge u v (Int.tdiv (g.weight u v) 2) = .ok g1 ∧
      Dijkstra.calculate fuel g1 A B = .ok r ∧ trial fuel g A B u v = .ok r ∧
      g1.size = g.size ∧ g1.WellFormed ∧ g1.NonNeg ∧
      ∀ a b, a < g.size → b < g.size →
        g1.weight a b = if (a = u ∧ b = v) ∨ (a = v ∧ b = u) then Int.tdiv (g.weight u v) 2
          else g.weight a b := by
  obtain ⟨g1, hdisc, hset, hsize, hwf1, hw⟩ := discounted_ok g hwf u v hu hv
  have hnn1 : g1.NonNeg := by
    apply g1.nonNeg_of_weight hwf1
    intro a b ha hb
    rw [hw a b (by omega) (by omega)]
    split
    · have := (tdiv_two_bounds _ hpos).1
      omega
    · exact g.weight_ge hnn a b
  have hA1 : g1.Valid A := by unfold Graph.Valid at hA ⊢; rw [hsize]; exact hA
  have hB1 : g1.Valid B := by unfold Graph.Valid at hB ⊢; rw [hsize]; exact hB
  have hcalc : ∃ r, Dijkstra.calculate fuel g1 A B = .ok r := by
    rcases Dijkstra.calculate_result g1 hwf1 hnn1 A B hA1 hB1 fuel (by rw [hsize]; exact hfuel)
      with ⟨c, p, h, _⟩ | ⟨h, _⟩
    · exact ⟨_, h⟩
    · exact ⟨_, h⟩
  obtain ⟨r, hr⟩ := hcalc
  refine ⟨g1, r, hset, hr, ?_, hsize, hwf1, hnn1, hw⟩
  unfold trial
  rw [hdisc, ok_bind, hr]

theorem discountTrial_ok (g : Graph) (hwf : g.WellFormed) (hsym : g.Symmetric)
    (hnn : g.NonNeg) (fuel : Nat) (A B : Int) (hA : g.Valid A) (hB : g.Valid B)
    (hfuel : enoughFuel g.size ≤ fuel) (u v : Nat) (hu : u < g.size) (hv : v < g.size)
    (st : Search) (hg : st.graph = g) :
    discountTrial fuel A B u st v
      = .ok (if g.positive u v = true then better (trialResult fuel g A B) st (u, v) else st) := by
  unfold discountTrial
  rw [hg, g.getEdgeWeight_eq hwf u v hu hv, g.positive_nat hwf u v hu hv]
  simp only [ok_bind, decide_eq_true_eq]
  by_cases hpos : 0 < g.weight u v
  · rw [if_pos hpos, if_pos hpos]
    obtain ⟨g1, r, hset, hcalc, htrial, _⟩ :=
      trial_ok g hwf hnn fuel A B hA hB hfuel u v hu hv hpos
    rw [hset, ok_bind, hcalc, ok_bind, g.setEdge_restore hwf hsym u v hu hv _ g1 hset, ok_bind,
      ok_pure]
    have hT : trialResult fuel g A B (u, v) = r := by
      simp [trialResult, htrial]
    unfold better
    rw [hT]
    congr 1
    cases st with
    | mk graph min_cost_with_discount best_path_with_discount =>
      simp only at hg
      subst hg
      split <;> rfl
  · rw [if_neg hpos, if_neg hpos]
    rfl

theorem better_graph (T : Nat × Nat → Cost × List Int) (st : Search) (p : Nat × Nat) :
    (better T st p).graph = st.graph := by
  unfold better
  split <;> rfl

theorem foldl_pairs {σ : Type} (F : σ → Nat × Nat → σ) (l m : List Nat) (s : σ) :
    (l.flatMap (fun u => m.map (fun v => (u, v)))).foldl F s
      = l.foldl (fun s u => m.foldl (fun s v => F s (u, v)) s) s := by
  induction l generalizing s with
  | nil => rfl
  | cons u l ih =>
    rw [List.flatMap_cons, List.foldl_append, List.foldl_cons, List.foldl_map, ih]

theorem foldl_filter_eq {σ α : Type} (F : σ → α → σ) (p : α → Bool) (l : List α) (s : σ) :
    (l.filter p).foldl F s = l.foldl (fun s a => if p a = true then F s a else s) s := by
  induction l generalizing s with
  | nil => rfl
  | cons a l ih =>
    by_cases h : p a = true
    · rw [List.filter_cons_of_pos h, List.foldl_cons, List.foldl_cons, if_pos h, ih]
    · rw [List.filter_cons_of_neg h, List.foldl_cons, if_neg h, ih]

/-- The discount search runs to completion and returns the best trial result, with the
graph unchanged. -/
theorem discountSearch_ok (g : Graph) (hwf : g.WellFormed) (hsym : g.Symmetric)
    (hnn : g.NonNeg) (fuel : Nat) (A B : Int) (hA : g.Valid A) (hB : g.Valid B)
    (hfuel : enoughFuel g.size ≤ fuel) :
    discountSearch fuel g A B = .ok (searchResult fuel g A B) := by
  have hinner : ∀ (st : Search) (u : Nat), st.graph = g → u ∈ List.range g.size →
      (List.range g.size).foldlM (discountTrial fuel A B u) st
        = .ok ((List.range g.size).foldl
            (fun (st : Search) (v : Nat) => if g.positive u v = true
              then better (trialResult fuel g A B) st (u, v) else st) st) ∧
      ((List.range g.size).foldl
            (fun (st : Search) (v : Nat) => if g.positive u v = true
              then better (trialResult fuel g A B) st (u, v) else st) st).graph = g := by
    intro st u hst hu
    refine foldlM_ok_of_step _ _ (fun st => st.graph = g) _ ?_ st hst
    intro s v hs hv
    refine ⟨discountTrial_ok g hwf hsym hnn fuel A B hA hB hfuel u v (List.mem_range.mp hu)
      (List.mem_range.mp hv) s hs, ?_⟩
    split
    · rw [better_graph]; exact hs
    · exact hs
  have houter := foldlM_ok_of_step
    (fun st u => (List.range g.size).foldlM (discountTrial fuel A B u) st)
    (fun st u => (List.range g.size).foldl
            (fun (st : Search) (v : Nat) => if g.positive u v = true
              then better (trialResult fuel g A B) st (u, v) else st) st)
    (fun st => st.graph = g) (List.range g.size) hinner
    { graph := g, min_cost_with_discount := Cost.inf, best_path_with_discount := [] } rfl
  unfold discountSearch
  rw [houter.1]
  congr 1
  unfold searchResult candidates pairs
  rw [foldl_filter_eq, foldl_pairs]

theorem searchResult_graph (fuel : Nat) (g : Graph) (A B : Int) :
    (searchResult fuel g A B).graph = g := by
  unfold searchResult
  generalize candidates g = l
  have : ∀ (l : List (Nat × Nat)) (st : Search),
      (l.foldl (better (trialResult fuel g A B)) st).graph = st.graph := by
    intro l
    induction l with
    | nil => intro st; rfl
    | cons p l ih => intro st; rw [List.foldl_cons, ih, better_graph]
  rw [this]

/-- The best result of a run of strict-improvement updates: either nothing improved on
the initial result, or the result is that of the first trial of least cost. -/
theorem foldl_better (T : Nat × Nat → Cost × List Int) (l : List (Nat × Nat)) :
    ∀ st : Search,
      (l.foldl (better T) st = st ∧ ∀ p ∈ l, (T p).1.lt st.min_cost_with_discount = false) ∨
      ∃ pre p post, l = pre ++ p :: post ∧
        (l.foldl (better T) st).min_cost_with_discount = (T p).1 ∧
        (l.foldl (better T) st).best_path_with_discount = (T p).2 ∧
        (T p).1.lt st.min_cost_with_discount = true ∧
        (∀ x ∈ pre, (T p).1.lt (T x).1 = true) ∧
        ∀ x ∈ post, (T x).1.lt (T p).1 = false := by
  induction l with
  | nil => intro st; exact Or.inl ⟨rfl, fun p hp => by cases hp⟩
  | cons c l ih =>
    intro st
    rw [List.foldl_cons]
    by_cases hc : (T c).1.lt st.min_cost_with_discount = true
    · have hb : better T st c = { st with min_cost_with_discount := (T c).1, best_path_with_discount := (T c).2 } := by
        unfold better; rw [if_pos hc]
      rcases ih (better T st c) with ⟨heq, hall⟩ | ⟨pre, p, post, hl, h1, h2, h3, h4, h5⟩
      · right
        refine ⟨[], c, l, rfl, by rw [heq, hb], by rw [heq, hb], hc, fun x hx => absurd hx (List.not_mem_nil x), ?_⟩
        intro x hx
        have := hall x hx
        rwa [hb] at this
      · right
        rw [hb] at h3
        refine ⟨c :: pre, p, post, by rw [hl]; rfl, h1, h2, Cost.lt_chain h3 hc, ?_, h5⟩
        intro x hx
        rcases List.mem_cons.mp hx with rfl | hx
        · exact h3
        · exact h4 x hx
    · have hc2 : (T c).1.lt st.min_cost_with_discount = false := by simpa using hc
      have hb : better T st c = st := by
        unfold better; rw [if_neg hc]
      rw [hb]
      rcases ih st with ⟨heq, hall⟩ | ⟨pre, p, post, hl, h1, h2, h3, h4, h5⟩
      · left
        refine ⟨heq, ?_⟩
        intro x hx
        rcases List.mem_cons.mp hx with rfl | hx
        · exact hc2
        · exact hall x hx
      · right
        refine ⟨c :: pre, p, post, by rw [hl]; rfl, h1, h2, h3, ?_, h5⟩
        intro x hx
        rcases List.mem_cons.mp hx with rfl | hx
        · exact Cost.lt_le_chain h3 hc2
        · exact h4 x hx

theorem mem_candidates (g : Graph) (p : Nat × Nat) :
    p ∈ candidates g ↔ p.1 < g.size ∧ p.2 < g.size ∧ g.positive p.1 p.2 = true := by
  unfold candidates pairs
  rw [List.mem_filter, List.mem_flatMap]
  constructor
  · rintro ⟨⟨u, hu, hp⟩, hpos⟩
    rw [List.mem_map] at hp
    obtain ⟨v, hv, rfl⟩ := hp
    exact ⟨List.mem_range.mp hu, List.mem_range.mp hv, hpos⟩
  · rintro ⟨hu, hv, hpos⟩
    exact ⟨⟨p.1, List.mem_range.mpr hu, List.mem_map.mpr ⟨p.2, List.mem_range.mpr hv, rfl⟩⟩, hpos⟩

/-- A pair with `getEdgeWeight(u, v) > 0` is one of the pairs the search tries. -/
theorem candidate_of_positive (g : Graph) (hwf : g.WellFormed) (u v w : Int)
    (h : g.getEdgeWeight u v = .ok w) (hw : 0 < w) :
    ∃ a b : Nat, u = a ∧ v = b ∧ a < g.size ∧ b < g.size ∧ g.weight a b = w ∧
      (a, b) ∈ candidates g := by
  obtain ⟨a, b, rfl, rfl, ha, hb, hab⟩ := g.getEdgeWeight_ok hwf u v w h
  refine ⟨a, b, rfl, rfl, ha, hb, hab, (mem_candidates g (a, b)).mpr ⟨ha, hb, ?_⟩⟩
  rw [g.positive_nat hwf a b ha hb, hab]
  simpa using hw

theorem candidate_weight (g : Graph) (hwf : g.WellFormed) (p : Nat × Nat)
    (hp : p ∈ candidates g) : p.1 < g.size ∧ p.2 < g.size ∧ 0 < g.weight p.1 p.2 := by
  obtain ⟨h1, h2, h3⟩ := (mem_candidates g p).mp hp
  rw [g.positive_nat hwf p.1 p.2 h1 h2] at h3
  exact ⟨h1, h2, by simpa using h3⟩

/-- The trial of a candidate pair completes, and its result is the recorded one; a
result of cost `+∞` carries the empty path. -/
theorem trialResult_ok (g : Graph) (hwf : g.WellFormed) (hnn : g.NonNeg) (fuel : Nat)
    (A B : Int) (hA : g.Valid A) (hB : g.Valid B) (hfuel : enoughFuel g.size ≤ fuel)
    (p : Nat × Nat) (hp : p ∈ candidates g) :
    trial fuel g A B p.1 p.2 = .ok (trialResult fuel g A B p) ∧
      ((trialResult fuel g A B p).1 = Cost.inf → (trialResult fuel g A B p).2 = []) := by
  obtain ⟨h1, h2, h3⟩ := candidate_weight g hwf p hp
  obtain ⟨g1, r, _, hcalc, htrial, hsize, hwf1, hnn1, _⟩ :=
    trial_ok g hwf hnn fuel A B hA hB hfuel p.1 p.2 h1 h2 h3
  have hT : trialResult fuel g A B p = r := by simp [trialResult, htrial]
  rw [hT]
  refine ⟨htrial, ?_⟩
  intro hinf
  have hA1 : g1.Valid A := by unfold Graph.Valid at hA ⊢; rw [hsize]; exact hA
  have hB1 : g1.Valid B := by unfold Graph.Valid at hB ⊢; rw [hsize]; exact hB
  rcases Dijkstra.calculate_result g1 hwf1 hnn1 A B hA1 hB1 fuel (by rw [hsize]; exact hfuel)
    with ⟨c, q, h, _⟩ | ⟨h, _⟩
  · rw [hcalc] at h
    cases h
    cases hinf
  · rw [hcalc] at h
    cases h
    rfl

theorem foldl_better_le (T : Nat × Nat → Cost × List Int) (l : List (Nat × Nat))
    (st : Search) : ∀ p ∈ l, (T p).1.lt (l.foldl (better T) st).min_cost_with_discount = false := by
  intro x hx
  rcases foldl_better T l st with ⟨heq, hall⟩ | ⟨pre, p, post, hl, h1, _, _, h4, h5⟩
  · rw [heq]; exact hall x hx
  · rw [h1]
    rw [hl] at hx
    rcases List.mem_append.mp hx with hx | hx
    · exact Cost.lt_flip (h4 x hx)
    · rcases List.mem_cons.mp hx with rfl | hx
      · exact Cost.le_self _
      · exact h5 x hx

/-- Replacing weights by smaller ones on the same edges keeps every walk and does not
raise its cost. -/
theorem walk_mono (g g1 : Graph) (hsize : g1.size = g.size)
    (hw : ∀ a b, a < g.size → b < g.size → g.weight a b ≠ -1 →
      g1.weight a b ≠ -1 ∧ g1.weight a b ≤ g.weight a b) :
    ∀ p : List Nat, g.IsWalk p → g1.IsWalk p ∧ g1.walkCost p ≤ g.walkCost p := by
  intro p
  induction p with
  | nil => intro _; exact ⟨⟨fun x hx => absurd hx (List.not_mem_nil x), List.chain'_nil⟩, le_refl _⟩
  | cons a p ih =>
    intro hp
    cases p with
    | nil =>
      refine ⟨⟨?_, List.chain'_singleton _⟩, le_refl _⟩
      intro x hx
      rw [hsize]
      exact hp.1 x hx
    | cons b p =>
      obtain ⟨hlt, hc⟩ := hp
      rw [List.chain'_cons] at hc
      obtain ⟨hab, hc⟩ := hc
      obtain ⟨⟨ih1, ih2⟩, ih3⟩ := ih ⟨fun z hz => hlt z (List.mem_cons_of_mem _ hz), hc⟩
      obtain ⟨h1, h2⟩ := hw a b (hlt a (by simp)) (hlt b (by simp)) hab
      refine ⟨⟨?_, ?_⟩, ?_⟩
      · intro x hx
        rw [hsize]
        exact hlt x hx
      · rw [List.chain'_cons]
        exact ⟨h1, ih2⟩
      · rw [Graph.walkCost, Graph.walkCost]
        omega

/-- A discount trial never costs more than the baseline. -/
theorem trial_le_base (g : Graph) (hwf : g.WellFormed) (hsym : g.Symmetric) (hnn : g.NonNeg)
    (fuel : Nat) (A B : Int) (hA : g.Valid A) (hB : g.Valid B)
    (hfuel : enoughFuel g.size ≤ fuel) (p : Nat × Nat) (hp : p ∈ candidates g)
    (base : Cost × List Int) (hbase : Dijkstra.calculate fuel g A B = .ok base) :
    base.1.lt (trialResult fuel g A B p).1 = false := by
  obtain ⟨h1, h2, h3⟩ := candidate_weight g hwf p hp
  obtain ⟨g1, r, _, hcalc, htrial, hsize, hwf1, hnn1, hw1⟩ :=
    trial_ok g hwf hnn fuel A B hA hB hfuel p.1 p.2 h1 h2 h3
  have hT : trialResult fuel g A B p = r := by simp [trialResult, htrial]
  rw [hT]
  obtain ⟨s, rfl, hs⟩ := hA.exists_nat
  obtain ⟨e, rfl, he⟩ := hB.exists_nat
  rcases Dijkstra.calculate_nat g hwf hnn s e hs he fuel hfuel with
    ⟨k, q, hc, hh, hl, hwalk, _, hcost, _⟩ | ⟨hc, _⟩
  · rw [hbase] at hc
    cases hc
    have hmono := walk_mono g g1 hsize (by
      intro a b ha hb hab
      rw [hw1 a b ha hb]
      have hb2 := tdiv_two_bounds _ h3
      by_cases hcell : (a = p.1 ∧ b = p.2) ∨ (a = p.2 ∧ b = p.1)
      · rw [if_pos hcell]
        refine ⟨by omega, ?_⟩
        rcases hcell with ⟨ha1, hb1⟩ | ⟨ha1, hb1⟩
        · rw [ha1, hb1]; omega
        · rw [ha1, hb1, hsym p.2 h2 p.1 h1]; omega
      · rw [if_neg hcell]
        exact ⟨hab, le_refl _⟩) q hwalk
    rcases Dijkstra.calculate_nat g1 hwf1 hnn1 s e (by omega) (by omega) fuel
      (by rw [hsize]; exact hfuel) with ⟨k1, q1, hc1, _, _, _, _, _, hmin1⟩ | ⟨_, _, hno⟩
    · rw [hcalc] at hc1
      cases hc1
      have := hmin1 q hmono.1 hh hl
      simp only [Cost.lt_fin_fin, decide_eq_false_iff_not]
      omega
    · exact absurd (hno q hmono.1 hh hl) id
  · rw [hbase] at hc
    cases hc
    simp

namespace Graph

theorem replaceBoth_size (g : Graph) (u v w : Int) : (g.replaceBoth u v w).size = g.size := by
  simp [replaceBoth, size]

theorem replaceBoth_wellFormed (g : Graph) (hwf : g.WellFormed) (u v w : Int) :
    (g.replaceBoth u v w).WellFormed := by
  intro row hrow
  rw [replaceBoth_size]
  obtain ⟨a, ha, rfl⟩ := List.getElem_of_mem hrow
  have ha2 : a < g.adjMatrix.length := by simpa [replaceBoth] using ha
  simp only [replaceBoth, List.getElem_mapIdx, List.length_mapIdx]
  exact hwf _ (List.getElem_mem ha2)

theorem replaceBoth_weight (g : Graph) (hwf : g.WellFormed) (u v w : Int) (a b : Nat)
    (ha : a < g.size) (hb : b < g.size) :
    (g.replaceBoth u v w).weight a b
      = if ((a : Int) = u ∧ (b : Int) = v) ∨ ((a : Int) = v ∧ (b : Int) = u) then w
        else g.weight a b := by
  obtain ⟨row, hrow, hlen, hcell⟩ := cell_exists g hwf a b ha hb
  have h1 : (g.replaceBoth u v w).adjMatrix[a]?
      = some (row.mapIdx (fun b x =>
          if ((a : Int) = u ∧ (b : Int) = v) ∨ ((a : Int) = v ∧ (b : Int) = u) then w else x)) := by
    show (g.adjMatrix.mapIdx _)[a]? = _
    rw [List.getElem?_mapIdx, hrow]
    rfl
  unfold weight
  rw [h1, Option.getD_some, List.getElem?_mapIdx, hcell]
  rfl

/-- On a square matrix `setEdge(u, v, w)` builds exactly the graph with the two cells
`(u, v)` and `(v, u)` replaced by `w`. -/
theorem setEdge_eq_replaceBoth (g : Graph) (hwf : g.WellFormed) (u v : Nat)
    (hu : u < g.size) (hv : v < g.size) (w : Int) :
    g.setEdge u v w = .ok (g.replaceBoth u v w) := by
  obtain ⟨g2, hset, hsize, hwf2, hw⟩ := g.setEdge_ok hwf u v hu hv w
  have : g2 = g.replaceBoth u v w := by
    apply ext_weight (g.replaceBoth u v w) g2 (replaceBoth_wellFormed g hwf u v w) hwf2
      (by rw [hsize, replaceBoth_size])
    intro a b ha hb
    rw [replaceBoth_size] at ha hb
    rw [hw a b ha hb, replaceBoth_weight g hwf u v w a b ha hb]
    simp only [Nat.cast_inj]
  rw [hset, this]

end Graph

/-- The trial for an in-range pair is the run of `calculate` on the graph whose cells
`(u, v)` and `(v, u)` hold the truncated half of the weight of `(u, v)`. -/
theorem trial_eq_calculate (g : Graph) (hwf : g.WellFormed) (fuel : Nat) (A B : Int)
    (u v : Nat) (hu : u < g.size) (hv : v < g.size) :
    trial fuel g A B u v
      = Dijkstra.calculate fuel (g.replaceBoth u v (Int.tdiv (g.weight u v) 2)) A B := by
  unfold trial discounted
  rw [g.getEdgeWeight_eq hwf u v hu hv, ok_bind,
    g.setEdge_eq_replaceBoth hwf u v hu hv, ok_bind]

/-- C3: on a graph that satisfies the symmetry invariant, once the discount search loop
completes every `getEdgeWeight(u, v)` has its pre-search value (the graph is the same
graph), and after each single iteration that completes the graph equals its pre-trial
state; on non-negative weights with valid `start`, `end` the loop does complete. -/
theorem discount_search_restores_graph (g : Graph) (hwf : g.WellFormed)
    (hsym : g.Symmetric) (A B : Int) (hA : g.Valid A) (hB : g.Valid B) :
    (∀ fuel st, discountSearch fuel g A B = .ok st →
        st.graph = g ∧ ∀ u v : Int, st.graph.getEdgeWeight u v = g.getEdgeWeight u v) ∧
    (∀ fuel (u v : Nat) (st st2 : Search), u < g.size → v < g.size → st.graph = g →
        discountTrial fuel A B u st v = .ok st2 → st2.graph = g) ∧
    (g.NonNeg → ∀ fuel, enoughFuel g.size ≤ fuel →
        ∃ st, discountSearch fuel g A B = .ok st ∧ st.graph = g) := by
  refine ⟨?_, ?_, ?_⟩
  · intro fuel st h
    have hg : st.graph = g := by
      refine foldlM_inv _ (fun st => st.graph = g) (List.range g.size) ?_ _ st rfl h
      intro s u s2 hs hu hrow
      refine foldlM_inv _ (fun st => st.graph = g) (List.range g.size) ?_ s s2 hs hrow
      intro s3 v s4 hs3 hv hstep
      exact discountTrial_graph g hwf hsym fuel A B u v (List.mem_range.mp hu)
        (List.mem_range.mp hv) s3 s4 hs3 hstep
    exact ⟨hg, fun u v => by rw [hg]⟩
  · intro fuel u v st st2 hu hv hg h
    exact discountTrial_graph g hwf hsym fuel A B u v hu hv st st2 hg h
  · intro hnn fuel hfuel
    exact ⟨_, discountSearch_ok g hwf hsym hnn fuel A B hA hB hfuel, searchResult_graph fuel g A B⟩

theorem discount_search_restores_graph_witness :
    scenarioB.WellFormed ∧ scenarioB.Symmetric ∧ scenarioB.Valid 0 ∧ scenarioB.Valid 2 ∧
    ((∀ fuel st, discountSearch fuel scenarioB 0 2 = .ok st →
        st.graph = scenarioB ∧
        ∀ u v : Int, st.graph.getEdgeWeight u v = scenarioB.getEdgeWeight u v) ∧
    (∀ fuel (u v : Nat) (st st2 : Search), u < scenarioB.size → v < scenarioB.size →
        st.graph = scenarioB → discountTrial fuel 0 2 u st v = .ok st2 →
        st2.graph = scenarioB) ∧
    (scenarioB.NonNeg → ∀ fuel, enoughFuel scenarioB.size ≤ fuel →
        ∃ st, discountSearch fuel scenarioB 0 2 = .ok st ∧ st.graph = scenarioB)) :=
  ⟨by decide, by decide, by decide, by decide,
    discount_search_restores_graph scenarioB (by decide) (by decide) 0 2 (by decide)
      (by decide)⟩

/-- C4: on a symmetric graph with non-negative weights and valid `start`, `end`, the cost
returned by the discount search is the minimum, over all pairs `(u, v)` with
`getEdgeWeight(u, v) > 0`, of the cost `calculate` returns on the graph in which the
cells `(u, v)` and `(v, u)` hold the truncated half of the weight and every other cell is
kept (`replaceBoth`, written without `setEdge`; the trial of the program runs on that
very graph): it is at most the cost of every such run, it is `+∞` or the cost of one of
them, and it is `+∞` when every such run (in particular when there is none) returns
`+∞`. -/
theorem discount_cost_is_minimum (g : Graph) (hwf : g.WellFormed) (hsym : g.Symmetric)
    (hnn : g.NonNeg) (A B : Int) (hA : g.Valid A) (hB : g.Valid B) (fuel : Nat)
    (hfuel : enoughFuel g.size ≤ fuel) :
    ∃ st, discountSearch fuel g A B = .ok st ∧
      (∀ (u v w : Int), g.getEdgeWeight u v = .ok w → 0 < w →
        ∃ r, Dijkstra.calculate fuel (g.replaceBoth u v (Int.tdiv w 2)) A B = .ok r ∧
          trial fuel g A B u v = .ok r ∧ r.1.lt st.min_cost_with_discount = false) ∧
      (st.min_cost_with_discount = Cost.inf ∨
        ∃ (u v w : Int) (r : Cost × List Int), g.getEdgeWeight u v = .ok w ∧ 0 < w ∧
          Dijkstra.calculate fuel (g.replaceBoth u v (Int.tdiv w 2)) A B = .ok r ∧
          trial fuel g A B u v = .ok r ∧ r.1 = st.min_cost_with_discount) ∧
      ((∀ (u v w : Int), g.getEdgeWeight u v = .ok w → 0 < w →
          ∃ path, Dijkstra.calculate fuel (g.replaceBoth u v (Int.tdiv w 2)) A B
            = .ok (Cost.inf, path)) → st.min_cost_with_discount = Cost.inf) ∧
      (∀ (u v w : Int), g.getEdgeWeight u v = .ok w → 0 < w →
        ∀ a b : Int, g.Valid a → g.Valid b →
          (g.replaceBoth u v (Int.tdiv w 2)).getEdgeWeight a b
            = if (a = u ∧ b = v) ∨ (a = v ∧ b = u) then .ok (Int.tdiv w 2)
              else g.getEdgeWeight a b) := by
  have hrun : ∀ p ∈ candidates g,
      Dijkstra.calculate fuel (g.replaceBoth p.1 p.2 (Int.tdiv (g.weight p.1 p.2) 2)) A B
        = .ok (trialResult fuel g A B p) := by
    intro p hp
    obtain ⟨hp1, hp2, _⟩ := candidate_weight g hwf p hp
    rw [← trial_eq_calculate g hwf fuel A B p.1 p.2 hp1 hp2]
    exact (trialResult_ok g hwf hnn fuel A B hA hB hfuel p hp).1
  refine ⟨_, discountSearch_ok g hwf hsym hnn fuel A B hA hB hfuel, ?_, ?_, ?_, ?_⟩
  · intro u v w hget hw
    obtain ⟨a, b, rfl, rfl, _, _, hab, hmem⟩ := candidate_of_positive g hwf u v w hget hw
    refine ⟨_, ?_, (trialResult_ok g hwf hnn fuel A B hA hB hfuel (a, b) hmem).1,
      foldl_better_le _ _ _ (a, b) hmem⟩
    rw [← hab]
    exact hrun (a, b) hmem
  · rcases foldl_better (trialResult fuel g A B) (candidates g)
        { graph := g, min_cost_with_discount := Cost.inf, best_path_with_discount := [] } with
      ⟨heq, _⟩ | ⟨pre, p, post, hl, h1, _, _, _, _⟩
    · left
      show (searchResult fuel g A B).min_cost_with_discount = Cost.inf
      unfold searchResult
      rw [heq]
    · right
      have hmem : p ∈ candidates g := by rw [hl]; simp
      obtain ⟨hp1, hp2, hp3⟩ := candidate_weight g hwf p hmem
      exact ⟨p.1, p.2, g.weight p.1 p.2, _, g.getEdgeWeight_eq hwf p.1 p.2 hp1 hp2, hp3,
        hrun p hmem, (trialResult_ok g hwf hnn fuel A B hA hB hfuel p hmem).1, h1.symm⟩
  · intro hall
    rcases foldl_better (trialResult fuel g A B) (candidates g)
        { graph := g, min_cost_with_discount := Cost.inf, best_path_with_discount := [] } with
      ⟨heq, _⟩ | ⟨pre, p, post, hl, h1, _, h3, _, _⟩
    · show (searchResult fuel g A B).min_cost_with_discount = Cost.inf
      unfold searchResult
      rw [heq]
    · exfalso
      have hmem : p ∈ candidates g := by rw [hl]; simp
      obtain ⟨hp1, hp2, hp3⟩ := candidate_weight g hwf p hmem
      obtain ⟨path, hpath⟩ := hall p.1 p.2 _ (g.getEdgeWeight_eq hwf p.1 p.2 hp1 hp2) hp3
      rw [hrun p hmem] at hpath
      cases hr : trialResult fuel g A B p with
      | mk c q =>
        rw [hr] at hpath h3
        cases hpath
        simp at h3
  · intro u v w _ _ a b ha hb
    obtain ⟨x, rfl, hx⟩ := ha.exists_nat
    obtain ⟨y, rfl, hy⟩ := hb.exists_nat
    rw [(g.replaceBoth u v (Int.tdiv w 2)).getEdgeWeight_eq
        (g.replaceBoth_wellFormed hwf u v _) x y
        (by rw [Graph.replaceBoth_size]; exact hx) (by rw [Graph.replaceBoth_size]; exact hy),
      g.replaceBoth_weight hwf u v _ x y hx hy, g.getEdgeWeight_eq hwf x y hx hy]
    split <;> rfl

theorem discount_cost_is_minimum_witness :
    scenarioB.WellFormed ∧ scenarioB.Symmetric ∧ scenarioB.NonNeg ∧ scenarioB.Valid 0 ∧
    scenarioB.Valid 2 ∧ enoughFuel scenarioB.size ≤ 14 ∧
    discountSearch 14 scenarioB 0 2
      = .ok { graph := scenarioB, min_cost_with_discount := Cost.fin 5,
              best_path_with_discount := [0, 2] } ∧
    scenarioB.replaceBoth 0 2 (Int.tdiv 10 2) = ⟨[[-1, 4, 5], [4, -1, 4], [5, 4, -1]]⟩ ∧
    Dijkstra.calculate 14 (scenarioB.replaceBoth 0 2 (Int.tdiv 10 2)) 0 2
      = .ok (Cost.fin 5, [0, 2]) ∧
    ∃ st, discountSearch 14 scenarioB 0 2 = .ok st ∧
      (∀ (u v w : Int), scenarioB.getEdgeWeight u v = .ok w → 0 < w →
        ∃ r, Dijkstra.calculate 14 (scenarioB.replaceBoth u v (Int.tdiv w 2)) 0 2 = .ok r ∧
          trial 14 scenarioB 0 2 u v = .ok r ∧ r.1.lt st.min_cost_with_discount = false) ∧
      (st.min_cost_with_discount = Cost.inf ∨
        ∃ (u v w : Int) (r : Cost × List Int), scenarioB.getEdgeWeight u v = .ok w ∧ 0 < w ∧
          Dijkstra.calculate 14 (scenarioB.replaceBoth u v (Int.tdiv w 2)) 0 2 = .ok r ∧
          trial 14 scenarioB 0 2 u v = .ok r ∧ r.1 = st.min_cost_with_discount) ∧
      ((∀ (u v w : Int), scenarioB.getEdgeWeight u v = .ok w → 0 < w →
          ∃ path, Dijkstra.calculate 14 (scenarioB.replaceBoth u v (Int.tdiv w 2)) 0 2
            = .ok (Cost.inf, path)) → st.min_cost_with_discount = Cost.inf) ∧
      (∀ (u v w : Int), scenarioB.getEdgeWeight u v = .ok w → 0 < w →
        ∀ a b : Int, scenarioB.Valid a → scenarioB.Valid b →
          (scenarioB.replaceBoth u v (Int.tdiv w 2)).getEdgeWeight a b
            = if (a = u ∧ b = v) ∨ (a = v ∧ b = u) then .ok (Int.tdiv w 2)
              else scenarioB.getEdgeWeight a b) :=
  ⟨by decide, by decide, by decide, by decide, by decide, by decide, rfl, rfl, rfl,
    discount_cost_is_minimum scenarioB (by decide) (by decide) (by decide) 0 2 (by decide)
      (by decide) 14 (by decide)⟩

/-- C5: on a symmetric graph with non-negative weights that has at least one pair
`(u, v)` with `getEdgeWeight(u, v) > 0`, for valid `start`, `end`, the cost returned by
the discount search is less than or equal to the cost `calculate` returns on the
unmodified graph. -/
theorem discount_cost_le_baseline (g : Graph) (hwf : g.WellFormed) (hsym : g.Symmetric)
    (hnn : g.NonNeg) (hpos : ∃ u v w : Int, g.getEdgeWeight u v = .ok w ∧ 0 < w)
    (A B : Int) (hA : g.Valid A) (hB : g.Valid B) (fuel : Nat)
    (hfuel : enoughFuel g.size ≤ fuel) :
    ∃ base st, Dijkstra.calculate fuel g A B = .ok base ∧
      discountSearch fuel g A B = .ok st ∧ base.1.lt st.min_cost_with_discount = false := by
  obtain ⟨u, v, w, hget, hw⟩ := hpos
  obtain ⟨a, b, rfl, rfl, _, _, _, hmem⟩ := candidate_of_positive g hwf u v w hget hw
  have hbase : ∃ base, Dijkstra.calculate fuel g A B = .ok base := by
    rcases Dijkstra.calculate_result g hwf hnn A B hA hB fuel hfuel with
      ⟨c, p, h, _⟩ | ⟨h, _⟩
    · exact ⟨_, h⟩
    · exact ⟨_, h⟩
  obtain ⟨base, hbase⟩ := hbase
  refine ⟨base, _, hbase, discountSearch_ok g hwf hsym hnn fuel A B hA hB hfuel, ?_⟩
  exact Cost.le_chain (foldl_better_le _ _ _ (a, b) hmem)
    (trial_le_base g hwf hsym hnn fuel A B hA hB hfuel (a, b) hmem base hbase)

theorem discount_cost_le_baseline_witness :
    scenarioB.WellFormed ∧ scenarioB.Symmetric ∧ scenarioB.NonNeg ∧
    (∃ u v w : Int, scenarioB.getEdgeWeight u v = .ok w ∧ 0 < w) ∧
    scenarioB.Valid 0 ∧ scenarioB.Valid 2 ∧ enoughFuel scenarioB.size ≤ 14 ∧
    ∃ base st, Dijkstra.calculate 14 scenarioB 0 2 = .ok base ∧
      discountSearch 14 scenarioB 0 2 = .ok st ∧ base.1.lt st.min_cost_with_discount = false :=
  ⟨by decide, by decide, by decide, ⟨0, 1, 4, rfl, by decide⟩, by decide, by decide, by decide,
    discount_cost_le_baseline scenarioB (by decide) (by decide) (by decide)
      ⟨0, 1, 4, rfl, by decide⟩ 0 2 (by decide) (by decide) 14 (by decide)⟩

/-- C8: when the discount search tries at least one pair, the cost and path it returns
are those of the first trial of least cost in row-major order of the pairs `(u, v)`
(`u` outer, `v` inner, both from `0` to `n - 1`): every earlier trial costs strictly
more and no later trial costs strictly less, because a later trial replaces the best
only when its cost is strictly lower. -/
theorem discount_first_minimum_wins (g : Graph) (hwf : g.WellFormed) (hsym : g.Symmetric)
    (hnn : g.NonNeg) (A B : Int) (hA : g.Valid A) (hB : g.Valid B) (fuel : Nat)
    (hfuel : enoughFuel g.size ≤ fuel) (hne : candidates g ≠ []) :
    ∃ st pre p post, discountSearch fuel g A B = .ok st ∧
      candidates g = pre ++ p :: post ∧
      trial fuel g A B p.1 p.2 = .ok (st.min_cost_with_discount, st.best_path_with_discount) ∧
      (∀ q ∈ pre, ∃ r, trial fuel g A B q.1 q.2 = .ok r ∧ st.min_cost_with_discount.lt r.1 = true) ∧
      (∀ q ∈ post, ∃ r, trial fuel g A B q.1 q.2 = .ok r ∧ r.1.lt st.min_cost_with_discount = false) := by
  have hT := fun p hp => trialResult_ok g hwf hnn fuel A B hA hB hfuel p hp
  rcases foldl_better (trialResult fuel g A B) (candidates g)
      { graph := g, min_cost_with_discount := Cost.inf, best_path_with_discount := [] } with
    ⟨heq, hall⟩ | ⟨pre, p, post, hl, h1, h2, _, h4, h5⟩
  · obtain ⟨p, post, hl⟩ := List.exists_cons_of_ne_nil hne
    have hmem : p ∈ candidates g := by rw [hl]; simp
    have hcost : (trialResult fuel g A B p).1 = Cost.inf :=
      Cost.eq_inf_of_not_lt (hall p hmem)
    have hpath := (hT p hmem).2 hcost
    refine ⟨_, [], p, post, discountSearch_ok g hwf hsym hnn fuel A B hA hB hfuel, hl, ?_,
      fun q hq => absurd hq (List.not_mem_nil q), ?_⟩
    · unfold searchResult
      rw [heq, (hT p hmem).1, ← hcost, ← hpath]
    · intro q hq
      have hq2 : q ∈ candidates g := by rw [hl]; exact List.mem_cons_of_mem _ hq
      refine ⟨_, (hT q hq2).1, ?_⟩
      unfold searchResult
      rw [heq]
      exact hall q hq2
  · have hmem : p ∈ candidates g := by rw [hl]; simp
    refine ⟨_, pre, p, post, discountSearch_ok g hwf hsym hnn fuel A B hA hB hfuel, hl, ?_, ?_,
      ?_⟩
    · unfold searchResult
      rw [h1, h2]
      exact (hT p hmem).1
    · intro q hq
      have hq2 : q ∈ candidates g := by rw [hl]; exact List.mem_append_left _ hq
      refine ⟨_, (hT q hq2).1, ?_⟩
      unfold searchResult
      rw [h1]
      exact h4 q hq
    · intro q hq
      have hq2 : q ∈ candidates g := by
        rw [hl]; exact List.mem_append_right _ (List.mem_cons_of_mem _ hq)
      refine ⟨_, (hT q hq2).1, ?_⟩
      unfold searchResult
      rw [h1]
      exact h5 q hq

theorem discount_first_minimum_wins_witness :
    scenarioB.WellFormed ∧ scenarioB.Symmetric ∧ scenarioB.NonNeg ∧ scenarioB.Valid 0 ∧
    scenarioB.Valid 2 ∧ enoughFuel scenarioB.size ≤ 14 ∧ candidates scenarioB ≠ [] ∧
    ∃ st pre p post, discountSearch 14 scenarioB 0 2 = .ok st ∧
      candidates scenarioB = pre ++ p :: post ∧
      trial 14 scenarioB 0 2 p.1 p.2 = .ok (st.min_cost_with_discount, st.best_path_with_discount) ∧
      (∀ q ∈ pre, ∃ r, trial 14 scenarioB 0 2 q.1 q.2 = .ok r ∧ st.min_cost_with_discount.lt r.1 = true) ∧
      (∀ q ∈ post, ∃ r, trial 14 scenarioB 0 2 q.1 q.2 = .ok r ∧ r.1.lt st.min_cost_with_discount = false) :=
  ⟨by decide, by decide, by decide, by decide, by decide, by decide, by decide,
    discount_first_minimum_wins scenarioB (by decide) (by decide) (by decide) 0 2 (by decide)
      (by decide) 14 (by decide) (by decide)⟩

/-- C16: on a graph with non-negative weights and for valid `start`, `end`, the result
of `calculate` has cost `+∞` if and only if its path is empty, so a finite cost
(cost `0` included) always comes with a non-empty path. -/
theorem calculate_inf_iff_empty (g : Graph) (hwf : g.WellFormed) (hnn : g.NonNeg)
    (start end_ : Int) (hs : g.Valid start) (he : g.Valid end_) (fuel : Nat)
    (hfuel : enoughFuel g.size ≤ fuel) :
    ∃ r, Dijkstra.calculate fuel g start end_ = .ok r ∧ (r.1 = Cost.inf ↔ r.2 = []) ∧
      (∀ c, r.1 = Cost.fin c → r.2 ≠ []) := by
  rcases Dijkstra.calculate_result g hwf hnn start end_ hs he fuel hfuel with
    ⟨c, p, hcalc, hroute, _⟩ | ⟨hcalc, _, _⟩
  · have hne : p ≠ [] := by
      intro h
      rw [h] at hroute
      cases hroute.1
    refine ⟨_, hcalc, ⟨fun h => (by cases h), fun h => absurd h hne⟩, fun _ _ => hne⟩
  · exact ⟨_, hcalc, ⟨fun _ => rfl, fun _ => rfl⟩, fun c h => (by cases h)⟩

theorem calculate_inf_iff_empty_witness :
    scenarioB.WellFormed ∧ scenarioB.NonNeg ∧ scenarioB.Valid 1 ∧ scenarioB.Valid 1 ∧
    enoughFuel scenarioB.size ≤ 14 ∧
    ∃ r, Dijkstra.calculate 14 scenarioB 1 1 = .ok r ∧ (r.1 = Cost.inf ↔ r.2 = []) ∧
      (∀ c, r.1 = Cost.fin c → r.2 ≠ []) :=
  ⟨by decide, by decide, by decide, by decide, by decide,
    calculate_inf_iff_empty scenarioB (by decide) (by decide) 1 1 (by decide) (by decide) 14
      (by decide)⟩

/-- C11, as the code behaves: a node count of `0` does not fail, the constructor
returns the empty graph. -/
theorem construct_zero_counterexample :
    (∃ g, Graph.construct 0 = .ok g ∧ g.size = 0) ∧ ¬ ∃ e, Graph.construct 0 = .error e := by
  refine ⟨⟨Graph.new 0, rfl, rfl⟩, ?_⟩
  rintro ⟨e, he⟩
  cases he

/-- C11, amended: the constructor has no size check of its own.  A node count `n ≥ 0`
(`0` included) produces an `n × n` graph in which every weight is `-1`; only a negative
node count fails, through the length error of the vector library. -/
theorem construct_by_sign (n : Nat) :
    (∃ g, Graph.construct (n : Int) = .ok g ∧ g.size = n ∧
      ∀ u v : Int, InRange n u → InRange n v → g.getEdgeWeight u v = .ok (-1)) ∧
    Graph.construct (Int.negSucc n) = .error Fault.lengthError ∧
    Fault.lengthError.raised = true := by
  refine ⟨⟨Graph.new n, ?_, Graph.new_size n, ?_⟩, ?_, rfl⟩
  · simp [Graph.construct]
  · intro u v hu hv
    obtain ⟨a, rfl, ha⟩ := hu.exists_nat
    obtain ⟨b, rfl, hb⟩ := hv.exists_nat
    rw [Graph.getEdgeWeight_eq _ (Graph.new_wellFormed n) a b (by rw [Graph.new_size]; exact ha)
      (by rw [Graph.new_size]; exact hb), Graph.new_weight]
  · simp [Graph.construct, Int.negSucc_lt_zero]

/-- A pair whose weight is not positive is skipped by the discount search. -/
theorem discountTrial_skip (g : Graph) (hwf : g.WellFormed) (fuel : Nat) (A B : Int)
    (u v : Nat) (hu : u < g.size) (hv : v < g.size) (hpos : ¬ 0 < g.weight u v)
    (st : Search) (hg : st.graph = g) : discountTrial fuel A B u st v = .ok st := by
  unfold discountTrial
  rw [hg, g.getEdgeWeight_eq hwf u v hu hv]
  simp only [ok_bind]
  rw [if_neg hpos]
  rfl

theorem candidates_eq_nil (g : Graph) (hwf : g.WellFormed)
    (hnone : ∀ u v w : Int, g.getEdgeWeight u v = .ok w → ¬ 0 < w) : candidates g = [] := by
  apply List.eq_nil_iff_forall_not_mem.mpr
  intro p hp
  obtain ⟨h1, h2, h3⟩ := candidate_weight g hwf p hp
  exact hnone p.1 p.2 _ (g.getEdgeWeight_eq hwf p.1 p.2 h1 h2) h3

/-- Without a pair of positive weight the discount search tries nothing and returns
its initial result. -/
theorem discountSearch_no_candidates (g : Graph) (hwf : g.WellFormed)
    (hnone : ∀ u v w : Int, g.getEdgeWeight u v = .ok w → ¬ 0 < w) (fuel : Nat) (A B : Int) :
    discountSearch fuel g A B
      = .ok { graph := g, min_cost_with_discount := Cost.inf, best_path_with_discount := [] } := by
  have hinner : ∀ (st : Search) (u : Nat), st.graph = g → u ∈ List.range g.size →
      (List.range g.size).foldlM (discountTrial fuel A B u) st
        = .ok ((List.range g.size).foldl (fun (st : Search) (_ : Nat) => st) st) ∧
      ((List.range g.size).foldl (fun (st : Search) (_ : Nat) => st) st).graph = g := by
    intro st u hst hu
    refine foldlM_ok_of_step _ _ (fun st => st.graph = g) _ ?_ st hst
    intro s v hs hv
    refine ⟨discountTrial_skip g hwf fuel A B u v (List.mem_range.mp hu) (List.mem_range.mp hv)
      ?_ s hs, hs⟩
    exact hnone u v _ (g.getEdgeWeight_eq hwf u v (List.mem_range.mp hu) (List.mem_range.mp hv))
  have houter := foldlM_ok_of_step
    (fun st u => (List.range g.size).foldlM (discountTrial fuel A B u) st)
    (fun st _ => (List.range g.size).foldl (fun (st : Search) (_ : Nat) => st) st)
    (fun st => st.graph = g) (List.range g.size) hinner
    { graph := g, min_cost_with_discount := Cost.inf, best_path_with_discount := [] } rfl
  have hconst : ∀ (l : List Nat) (st : Search),
      l.foldl (fun (st : Search) (_ : Nat) => st) st = st := by
    intro l
    induction l with
    | nil => intro st; rfl
    | cons a l ih => intro st; rw [List.foldl_cons, ih]
  have hconst2 : ∀ (l : List Nat) (st : Search),
      l.foldl (fun (st : Search) (_ : Nat) =>
        (List.range g.size).foldl (fun (st : Search) (_ : Nat) => st) st) st = st := by
    intro l
    induction l with
    | nil => intro st; rfl
    | cons a l ih => intro st; rw [List.foldl_cons, hconst, ih]
  unfold discountSearch
  rw [houter.1, hconst2]

theorem isolatedPair_no_positive :
    ∀ u v w : Int, isolatedPair.getEdgeWeight u v = .ok w → ¬ 0 < w := by
  intro u v w h hw
  obtain ⟨a, b, _, _, _, _, _, hmem⟩ :=
    candidate_of_positive isolatedPair (by decide) u v w h hw
  have : candidates isolatedPair = [] := by decide
  rw [this] at hmem
  cases hmem

/-- C12, as the code behaves: on two isolated nodes with `start = end = 0` no pair has
positive weight, the discount search returns `(+∞, [])`, and the baseline `calculate`
returns `(0, [0])`: the two results differ. -/
theorem no_positive_edge_counterexample :
    (∀ u v w : Int, isolatedPair.getEdgeWeight u v = .ok w → ¬ 0 < w) ∧
    isolatedPair.Valid 0 ∧
    discountSearch 8 isolatedPair 0 0
      = .ok { graph := isolatedPair, min_cost_with_discount := Cost.inf,
              best_path_with_discount := [] } ∧
    Dijkstra.calculate 8 isolatedPair 0 0 = .ok (Cost.fin 0, [0]) ∧
    (Cost.inf, ([] : List Int)) ≠ (Cost.fin 0, [0]) := by
  exact ⟨isolatedPair_no_positive, by decide, rfl, rfl, by decide⟩

/-- C12, amended: on a graph with no pair of positive weight, for valid `start`, `end`,
the discount search returns the unreachable marker with an empty path; the baseline
result of `calculate` is the same exactly when `end` is not reachable from `start`
(so not when `start = end`, nor when `end` is reached through edges of weight `0`). -/
theorem no_positive_edge_search (g : Graph) (hwf : g.WellFormed) (hnn : g.NonNeg)
    (hnone : ∀ u v w : Int, g.getEdgeWeight u v = .ok w → ¬ 0 < w)
    (A B : Int) (hA : g.Valid A) (hB : g.Valid B) (fuel : Nat)
    (hfuel : enoughFuel g.size ≤ fuel) :
    discountSearch fuel g A B
      = .ok { graph := g, min_cost_with_discount := Cost.inf, best_path_with_discount := [] } ∧
    ∃ base, Dijkstra.calculate fuel g A B = .ok base ∧
      (base = (Cost.inf, []) ↔ ¬ g.Reachable A B) := by
  refine ⟨discountSearch_no_candidates g hwf hnone fuel A B, ?_⟩
  rcases Dijkstra.calculate_result g hwf hnn A B hA hB fuel hfuel with
    ⟨c, p, hcalc, hroute, _⟩ | ⟨hcalc, _, hno⟩
  · refine ⟨_, hcalc, ⟨fun h => (by cases h), fun h => absurd ⟨p, hroute⟩ h⟩⟩
  · exact ⟨_, hcalc, ⟨fun _ => hno, fun _ => rfl⟩⟩

theorem no_positive_edge_search_witness :
    isolatedPair.WellFormed ∧ isolatedPair.NonNeg ∧
    (∀ u v w : Int, isolatedPair.getEdgeWeight u v = .ok w → ¬ 0 < w) ∧
    isolatedPair.Valid 0 ∧ isolatedPair.Valid 1 ∧ enoughFuel isolatedPair.size ≤ 8 ∧
    (discountSearch 8 isolatedPair 0 1
      = .ok { graph := isolatedPair, min_cost_with_discount := Cost.inf,
              best_path_with_discount := [] } ∧
    ∃ base, Dijkstra.calculate 8 isolatedPair 0 1 = .ok base ∧
      (base = (Cost.inf, []) ↔ ¬ isolatedPair.Reachable 0 1)) :=
  ⟨by decide, by decide, isolatedPair_no_positive, by decide, by decide, by decide,
    no_positive_edge_search isolatedPair (by decide) (by decide)
      isolatedPair_no_positive 0 1 (by decide) (by decide) 8 (by decide)⟩

/-- A walk stays a walk in any graph of the same size that has at least the same edges. -/
theorem isWalk_of_edges (g g1 : Graph) (hsize : g1.size = g.size)
    (hedge : ∀ a b, a < g.size → b < g.size → g1.weight a b ≠ -1 → g.weight a b ≠ -1) :
    ∀ p : List Nat, g1.IsWalk p → g.IsWalk p := by
  intro p
  induction p with
  | nil => intro _; exact ⟨fun x hx => absurd hx (List.not_mem_nil x), List.chain'_nil⟩
  | cons a p ih =>
    intro hp
    obtain ⟨hlt, hc⟩ := hp
    have hlt2 : ∀ x ∈ a :: p, x < g.size := fun x hx => by rw [← hsize]; exact hlt x hx
    cases p with
    | nil => exact ⟨hlt2, List.chain'_singleton _⟩
    | cons b p =>
      rw [List.chain'_cons] at hc
      obtain ⟨hab, hc⟩ := hc
      obtain ⟨_, ih2⟩ := ih ⟨fun z hz => hlt z (List.mem_cons_of_mem _ hz), hc⟩
      refine ⟨hlt2, ?_⟩
      rw [List.chain'_cons]
      exact ⟨hedge a b (hlt2 a (by simp)) (hlt2 b (by simp)) hab, ih2⟩

/-- Halving an edge adds no edge: a trial on a graph in which `end` is unreachable
returns `(+∞, [])`. -/
theorem trial_unreachable (g : Graph) (hwf : g.WellFormed) (hsym : g.Symmetric)
    (hnn : g.NonNeg) (fuel : Nat) (A B : Int) (hA : g.Valid A) (hB : g.Valid B)
    (hfuel : enoughFuel g.size ≤ fuel) (p : Nat × Nat) (hp : p ∈ candidates g)
    (hno : ¬ g.Reachable A B) : trialResult fuel g A B p = (Cost.inf, []) := by
  obtain ⟨h1, h2, h3⟩ := candidate_weight g hwf p hp
  obtain ⟨g1, r, _, hcalc, htrial, hsize, hwf1, hnn1, hw1⟩ :=
    trial_ok g hwf hnn fuel A B hA hB hfuel p.1 p.2 h1 h2 h3
  have hT : trialResult fuel g A B p = r := by simp [trialResult, htrial]
  rw [hT]
  have hA1 : g1.Valid A := by unfold Graph.Valid at hA ⊢; rw [hsize]; exact hA
  have hB1 : g1.Valid B := by unfold Graph.Valid at hB ⊢; rw [hsize]; exact hB
  rcases Dijkstra.calculate_result g1 hwf1 hnn1 A B hA1 hB1 fuel (by rw [hsize]; exact hfuel)
    with ⟨c, q, h, hroute, _⟩ | ⟨h, _⟩
  · exfalso
    apply hno
    obtain ⟨s, rfl, hs⟩ := hA.exists_nat
    obtain ⟨e, rfl, he⟩ := hB.exists_nat
    obtain ⟨w, rfl, hw, hh, hl⟩ := g1.route_iff_walk hwf1 s e (by omega) q hroute
    have hwalk : g.IsWalk w := isWalk_of_edges g g1 hsize (by
      intro a b ha hb hab
      rw [hw1 a b ha hb] at hab
      by_cases hcell : (a = p.1 ∧ b = p.2) ∨ (a = p.2 ∧ b = p.1)
      · rcases hcell with ⟨ha1, hb1⟩ | ⟨ha1, hb1⟩
        · rw [ha1, hb1]; omega
        · rw [ha1, hb1, hsym p.2 h2 p.1 h1]; omega
      · rwa [if_neg hcell] at hab) w hw
    refine ⟨w.map (fun x : Nat => (x : Int)), ?_, ?_, (g.allEdges_iff _).mpr
      (g.route_of_walk hwf w hwalk).1⟩
    · rw [List.head?_map, hh]; rfl
    · rw [List.getLast?_map, hl]; rfl
  · rw [hcalc] at h
    cases h
    rfl

/-- C14: on a symmetric graph with non-negative weights, for valid `start` and `end`
with `end` unreachable from `start` (which entails `start ≠ end`), the baseline
`calculate` returns the unreachable marker with an empty path, so does every discount
trial, and so does the discount search: halving an edge never makes an unreachable node
reachable. -/
theorem unreachable_stays_unreachable (g : Graph) (hwf : g.WellFormed) (hsym : g.Symmetric)
    (hnn : g.NonNeg) (A B : Int) (hA : g.Valid A) (hB : g.Valid B)
    (hno : ¬ g.Reachable A B) (fuel : Nat) (hfuel : enoughFuel g.size ≤ fuel) :
    A ≠ B ∧ Dijkstra.calculate fuel g A B = .ok (Cost.inf, []) ∧
    (∀ u v w : Int, g.getEdgeWeight u v = .ok w → 0 < w →
      trial fuel g A B u v = .ok (Cost.inf, [])) ∧
    discountSearch fuel g A B
      = .ok { graph := g, min_cost_with_discount := Cost.inf, best_path_with_discount := [] } := by
  have hT := fun p hp => trial_unreachable g hwf hsym hnn fuel A B hA hB hfuel p hp hno
  refine ⟨?_, ?_, ?_, ?_⟩
  · rintro rfl
    exact hno ⟨[A], by simp [Graph.IsRoute, Graph.allEdges]⟩
  · rcases Dijkstra.calculate_result g hwf hnn A B hA hB fuel hfuel with
      ⟨c, p, _, hroute, _⟩ | ⟨hcalc, _, _⟩
    · exact absurd ⟨p, hroute⟩ hno
    · exact hcalc
  · intro u v w hget hw
    obtain ⟨a, b, rfl, rfl, _, _, _, hmem⟩ := candidate_of_positive g hwf u v w hget hw
    rw [(trialResult_ok g hwf hnn fuel A B hA hB hfuel (a, b) hmem).1, hT (a, b) hmem]
  · rw [discountSearch_ok g hwf hsym hnn fuel A B hA hB hfuel]
    congr 1
    rcases foldl_better (trialResult fuel g A B) (candidates g)
        { graph := g, min_cost_with_discount := Cost.inf, best_path_with_discount := [] } with
      ⟨heq, _⟩ | ⟨pre, p, post, hl, _, _, h3, _, _⟩
    · exact heq
    · have hmem : p ∈ candidates g := by rw [hl]; simp
      rw [hT p hmem] at h3
      simp at h3

theorem unreachable_stays_unreachable_witness :
    scenarioC.WellFormed ∧ scenarioC.Symmetric ∧ scenarioC.NonNeg ∧ scenarioC.Valid 0 ∧
    scenarioC.Valid 2 ∧ ¬ scenarioC.Reachable 0 2 ∧ enoughFuel scenarioC.size ≤ 14 ∧
    ((0 : Int) ≠ 2 ∧ Dijkstra.calculate 14 scenarioC 0 2 = .ok (Cost.inf, []) ∧
    (∀ u v w : Int, scenarioC.getEdgeWeight u v = .ok w → 0 < w →
      trial 14 scenarioC 0 2 u v = .ok (Cost.inf, [])) ∧
    discountSearch 14 scenarioC 0 2
      = .ok { graph := scenarioC, min_cost_with_discount := Cost.inf,
              best_path_with_discount := [] }) :=
  ⟨by decide, by decide, by decide, by decide, by decide,
    Dijkstra.unreachable_of_inf scenarioC (by decide) (by decide) 0 2 (by decide) (by decide)
      14 (by decide) [] rfl,
    by decide,
    unreachable_stays_unreachable scenarioC (by decide) (by decide) (by decide) 0 2 (by decide)
      (by decide)
      (Dijkstra.unreachable_of_inf scenarioC (by decide) (by decide) 0 2 (by decide)
        (by decide) 14 (by decide) [] rfl) 14 (by decide)⟩

namespace Dijkstra

/-- Whatever the fuel, the frontier loop started in a state that satisfies the
invariant never leaves the vectors: it runs out of fuel or ends with the invariant. -/
theorem mainLoop_safe {g : Graph} (hwf : g.WellFormed) (hnn : g.NonNeg) {start : Nat} :
    ∀ (fuel : Nat) (s : DState), Inv g start s →
      mainLoop g g.size fuel s = .error Fault.outOfFuel ∨
      ∃ s2, mainLoop g g.size fuel s = .ok s2 ∧ Inv g start s2 ∧ s2.pq = [] := by
  intro fuel
  induction fuel with
  | zero => intro s _; exact Or.inl rfl
  | succ fuel ih =>
    intro s hinv
    unfold mainLoop
    cases htop : pqTop s.pq with
    | none => exact Or.inr ⟨s, rfl, hinv, pqTop_none htop⟩
    | some t =>
      have ht := pqTop_mem htop
      obtain ⟨u, d, kd, htu, hu, hdu, hle⟩ := hinv.pqOk t ht
      have hread : readAt s.dist t.2 = .ok (Cost.fin kd) := by
        rw [htu, ← hdu]
        exact readAt_dist s u (by rw [hinv.lenD]; exact hu)
      simp only [hread, ok_bind]
      by_cases hlt : kd < d
      · have hc : (Cost.fin kd).lt t.1 = true := by rw [htu]; simpa using hlt
        rw [if_pos hc]
        exact ih _ (hinv.stale ht u d kd htu hdu hlt).1
      · have hc : ¬ (Cost.fin kd).lt t.1 = true := by rw [htu]; simpa using hlt
        rw [if_neg hc]
        have hkd : kd = d := by omega
        subst hkd
        have hfold : (List.range g.size).foldlM (relaxEdge g t.2) { s with pq := s.pq.erase t }
            = .ok ((List.range g.size).foldl (relaxPure g u) { s with pq := s.pq.erase t }) := by
          rw [htu]
          exact foldlM_relaxEdge g hwf u hu _ (fun v hv => List.mem_range.mp hv) _
            hinv.lenD hinv.lenP
        rw [hfold, ok_bind]
        exact ih _ (hinv.relax hnn htop u kd htu hu hdu).1

/-- The predecessor walk along a chain of links, whatever the fuel: it runs out of
fuel or lists the chain. -/
theorem walkBack_chain_any {g : Graph} {s : DState} {start : Nat}
    (hP : s.parent.length = g.size) (hstart : parentAt s start = -1) :
    ∀ (q : List Nat) (v : Nat) (fuel : Nat) (acc : List Int), q.Chain' (Link g s) →
      (∀ x ∈ q, x < g.size) → q.head? = some v → q.getLast? = some start →
      walkBack s.parent fuel (v : Int) acc = .error Fault.outOfFuel ∨
      walkBack s.parent fuel (v : Int) acc = .ok (acc ++ q.map (fun x : Nat => (x : Int))) := by
  intro q
  induction q with
  | nil => intro v fuel acc _ _ h; cases h
  | cons a q ih =>
    intro v fuel acc hc hlt hhead hlast
    simp only [List.head?_cons, Option.some.injEq] at hhead
    subst hhead
    have ha : a < s.parent.length := by rw [hP]; exact hlt a (by simp)
    have hne : ((a : Nat) : Int) ≠ -1 := by omega
    cases fuel with
    | zero => exact Or.inl rfl
    | succ fuel =>
      unfold walkBack
      rw [if_neg hne, readAt_parent s a ha, ok_bind]
      cases q with
      | nil =>
        simp only [List.getLast?_singleton, Option.some.injEq] at hlast
        subst hlast
        rw [hstart]
        cases fuel with
        | zero => exact Or.inl rfl
        | succ fuel =>
          right
          unfold walkBack
          simp
      | cons b q =>
        rw [List.chain'_cons] at hc
        obtain ⟨⟨hpar, _⟩, hc⟩ := hc
        rw [List.getLast?_cons_cons] at hlast
        rw [hpar]
        rcases ih b fuel (acc ++ [(a : Int)]) hc
          (fun z hz => hlt z (List.mem_cons_of_mem _ hz)) rfl hlast with h | h
        · exact Or.inl h
        · right
          rw [h]
          simp

/-- The nodes the predecessor walk visits from a node `e` in range, in a state that
satisfies the invariant: pairwise distinct nodes in range, first `e`; the walk lists
them once the fuel exceeds their number and never leaves the vector `parent`. -/
theorem final_walk {g : Graph} {s : DState} {start : Nat} (hinv : Inv g start s) (e : Nat)
    (he : e < g.size) :
    ∃ q : List Nat, q.Nodup ∧ (∀ x ∈ q, x < g.size) ∧ q.head? = some e ∧
      (∀ fuel, walkBack s.parent fuel (e : Int) [] = .error Fault.outOfFuel ∨
        walkBack s.parent fuel (e : Int) [] = .ok (q.map (fun x : Nat => (x : Int)))) ∧
      (∀ fuel, g.size + 2 ≤ fuel →
        walkBack s.parent fuel (e : Int) [] = .ok (q.map (fun x : Nat => (x : Int)))) := by
  cases hde : distAt s e with
  | inf =>
    have hpar := hinv.infP e hde
    have hstep : ∀ fuel, walkBack s.parent (fuel + 2) (e : Int) [] = .ok [(e : Int)] := by
      intro fuel
      unfold walkBack
      rw [if_neg (by omega), readAt_parent s e (by rw [hinv.lenP]; exact he), ok_bind, hpar]
      unfold walkBack
      simp
    refine ⟨[e], by simp, by simpa using he, rfl, ?_, ?_⟩
    · intro fuel
      cases fuel with
      | zero => exact Or.inl rfl
      | succ fuel =>
        cases fuel with
        | zero =>
          left
          unfold walkBack
          rw [if_neg (by omega), readAt_parent s e (by rw [hinv.lenP]; exact he), ok_bind]
          rfl
        | succ fuel => exact Or.inr (hstep fuel)
    · intro fuel hfuel
      obtain ⟨f, rfl⟩ : ∃ f, fuel = f + 2 := ⟨fuel - 2, by omega⟩
      exact hstep f
  | fin k =>
    obtain ⟨q, hq1, hq2, hq3, hq4, hq5⟩ := hinv.chain e k he hde
    have hqlen := nodup_length_le q g.size hq3 hq4
    refine ⟨q, hq3, hq4, hq1, ?_, ?_⟩
    · intro fuel
      simpa using walkBack_chain_any hinv.lenP hinv.startP q e fuel [] hq5 hq4 hq1 hq2
    · intro fuel hfuel
      simpa using walkBack_chain hinv.lenP hinv.startP q e fuel [] hq5 hq4 hq1 hq2 (by omega)

/-- Every entry of `parent` is `-1` or a node in range. -/
theorem parent_entries {g : Graph} {s : DState} {start : Nat} (hinv : Inv g start s) :
    ∀ p ∈ s.parent, p = -1 ∨ InRange g.size p := by
  intro p hp
  obtain ⟨v, hv, rfl⟩ := List.getElem_of_mem hp
  have hv2 : v < g.size := by rw [← hinv.lenP]; exact hv
  have hpar : parentAt s v = s.parent[v] := by
    simp [parentAt, List.getElem?_eq_getElem hv]
  rw [← hpar]
  cases hde : distAt s v with
  | inf => exact Or.inl (hinv.infP v hde)
  | fin k =>
    obtain ⟨q, hq1, hq2, _, hq4, hq5⟩ := hinv.chain v k hv2 hde
    cases q with
    | nil => cases hq1
    | cons a q =>
      simp only [List.head?_cons, Option.some.injEq] at hq1
      subst hq1
      cases q with
      | nil =>
        simp only [List.getLast?_singleton, Option.some.injEq] at hq2
        subst hq2
        exact Or.inl hinv.startP
      | cons b q =>
        rw [List.chain'_cons] at hq5
        right
        rw [hq5.1.1]
        have hb : b < g.size := hq4 b (by simp)
        exact ⟨by omega, by exact_mod_cast hb⟩

/-- The body of `calculate` once the start node is known to be in range. -/
theorem calculate_eq (g : Graph) (start : Nat) (hs : start < g.size) (e : Int) (fuel : Nat) :
    calculate fuel g start e = (do
      let s ← mainLoop g g.size fuel (initState g.size start)
      let path ← walkBack s.parent fuel e []
      if path.reverse.length = 1 ∧ path.reverse.head? ≠ some (start : Int)
      then pure (Cost.inf, [])
      else do
        let de ← readAt s.dist e
        pure (de, path.reverse)) := by
  unfold calculate
  dsimp only
  rw [writeAt_natCast _ _ _ (by simpa using hs)]
  rfl

end Dijkstra

theorem error_bind {ε α β : Type} (e : ε) (f : α → Except ε β) :
    (Except.error e >>= f) = .error e := rfl

theorem foldlM_total {σ α : Type} (f : σ → α → Except Fault σ) (P : σ → Prop) (l : List α)
    (hstep : ∀ s a, P s → a ∈ l → ∃ s2, f s a = .ok s2 ∧ P s2) :
    ∀ s, P s → ∃ s2, l.foldlM f s = .ok s2 ∧ P s2 := by
  induction l with
  | nil => intro s hs; exact ⟨s, rfl, hs⟩
  | cons a l ih =>
    intro s hs
    obtain ⟨s1, h1, h2⟩ := hstep s a hs (List.mem_cons_self _ _)
    rw [List.foldlM_cons, h1, ok_bind]
    exact ih (fun s b hs hb => hstep s b hs (List.mem_cons_of_mem _ hb)) s1 h2

/-- One pass of the discount search on a square graph with non-negative weights runs
to completion and leaves such a graph of the same size (symmetric or not). -/
theorem discountTrial_total (n : Nat) (fuel : Nat) (A B : Int) (hA : InRange n A)
    (hB : InRange n B) (hfuel : enoughFuel n ≤ fuel) (u v : Nat) (hu : u < n) (hv : v < n)
    (st : Search)
    (hst : st.graph.WellFormed ∧ st.graph.NonNeg ∧ st.graph.size = n) :
    ∃ st2, discountTrial fuel A B u st v = .ok st2 ∧
      st2.graph.WellFormed ∧ st2.graph.NonNeg ∧ st2.graph.size = n := by
  obtain ⟨hwf, hnn, hsize⟩ := hst
  subst hsize
  unfold discountTrial
  rw [st.graph.getEdgeWeight_eq hwf u v hu hv]
  simp only [ok_bind]
  by_cases hpos : 0 < st.graph.weight u v
  · rw [if_pos hpos]
    obtain ⟨g1, r, hset, hcalc, _, hsize1, hwf1, hnn1, _⟩ :=
      trial_ok st.graph hwf hnn fuel A B hA hB hfuel u v hu hv hpos
    obtain ⟨g2, hset2, hsize2, hwf2, hw2⟩ :=
      g1.setEdge_ok hwf1 u v (by omega) (by omega) (st.graph.weight u v)
    rw [hset, ok_bind, hcalc, ok_bind, hset2, ok_bind]
    refine ⟨_, rfl, hwf2, ?_, by simp only; omega⟩
    apply g2.nonNeg_of_weight hwf2
    intro a b ha hb
    rw [hw2 a b (by omega) (by omega)]
    split
    · omega
    · exact g1.weight_ge hnn1 a b
  · rw [if_neg hpos]
    exact ⟨st, rfl, hwf, hnn, rfl⟩

/-- The discount search on a square graph with non-negative weights runs to
completion. -/
theorem discountSearch_total (g : Graph) (hwf : g.WellFormed) (hnn : g.NonNeg) (fuel : Nat)
    (A B : Int) (hA : g.Valid A) (hB : g.Valid B) (hfuel : enoughFuel g.size ≤ fuel) :
    ∃ st, discountSearch fuel g A B = .ok st := by
  unfold discountSearch
  obtain ⟨st, h, _⟩ := foldlM_total
    (fun st u => (List.range g.size).foldlM (discountTrial fuel A B u) st)
    (fun st => st.graph.WellFormed ∧ st.graph.NonNeg ∧ st.graph.size = g.size)
    (List.range g.size) (by
      intro s u hs hu
      exact foldlM_total (discountTrial fuel A B u)
        (fun st => st.graph.WellFormed ∧ st.graph.NonNeg ∧ st.graph.size = g.size)
        (List.range g.size) (fun s2 v hs2 hv =>
          discountTrial_total g.size fuel A B hA hB hfuel u v (List.mem_range.mp hu)
            (List.mem_range.mp hv) s2 hs2) s hs)
    { graph := g, min_cost_with_discount := Cost.inf, best_path_with_discount := [] }
    ⟨hwf, hnn, rfl⟩
  exact ⟨st, h⟩

/-- C13: on a finite graph whose weights are all `-1` or non-negative, for valid
`start`, `end` and enough fuel, the frontier loop of `calculate` ends with an empty
frontier, the predecessor walk from `end` ends (it reaches `-1`) after visiting pairwise
distinct nodes (the predecessor chain has no cycle), `calculate` returns a result, and
the whole discount search returns a result. -/
theorem calculate_terminates (g : Graph) (hwf : g.WellFormed) (hnn : g.NonNeg)
    (start end_ : Int) (hs : g.Valid start) (he : g.Valid end_) (fuel : Nat)
    (hfuel : enoughFuel g.size ≤ fuel) :
    (∃ s, Dijkstra.mainLoop g g.size fuel (Dijkstra.initState g.size start.toNat) = .ok s ∧
      s.pq = [] ∧
      ∃ path, Dijkstra.walkBack s.parent fuel end_ [] = .ok path ∧ path.Nodup ∧
        path.head? = some end_) ∧
    (∃ r, Dijkstra.calculate fuel g start end_ = .ok r) ∧
    (∃ st, discountSearch fuel g start end_ = .ok st) := by
  refine ⟨?_, ?_, discountSearch_total g hwf hnn fuel start end_ hs he hfuel⟩
  · obtain ⟨a, rfl, ha⟩ := hs.exists_nat
    obtain ⟨e, rfl, he2⟩ := he.exists_nat
    obtain ⟨s2, hloop, hinv, hpq⟩ := Dijkstra.mainLoop_ok hwf hnn fuel
      (Dijkstra.initState g.size a) (Dijkstra.Inv.init g a ha)
      (lt_of_lt_of_le (Dijkstra.work_init g a) hfuel)
    obtain ⟨q, hq1, _, hq3, _, hq5⟩ := Dijkstra.final_walk hinv e he2
    have hfuel2 : g.size + 2 ≤ fuel := by
      unfold enoughFuel at hfuel
      have : g.size ≤ g.size * (g.size + 1) := Nat.le_mul_of_pos_right _ (by omega)
      omega
    refine ⟨s2, by simpa using hloop, hpq, _, hq5 fuel hfuel2, ?_, ?_⟩
    · exact hq1.map (fun a b hab => by exact_mod_cast hab)
    · rw [List.head?_map, hq3]; rfl
  · rcases Dijkstra.calculate_result g hwf hnn start end_ hs he fuel hfuel with
      ⟨c, p, h, _⟩ | ⟨h, _⟩
    · exact ⟨_, h⟩
    · exact ⟨_, h⟩

theorem calculate_terminates_witness :
    scenarioB.WellFormed ∧ scenarioB.NonNeg ∧ scenarioB.Valid 0 ∧ scenarioB.Valid 2 ∧
    enoughFuel scenarioB.size ≤ 14 ∧
    ((∃ s, Dijkstra.mainLoop scenarioB scenarioB.size 14
        (Dijkstra.initState scenarioB.size (0 : Int).toNat) = .ok s ∧ s.pq = [] ∧
      ∃ path, Dijkstra.walkBack s.parent 14 2 [] = .ok path ∧ path.Nodup ∧
        path.head? = some 2) ∧
    (∃ r, Dijkstra.calculate 14 scenarioB 0 2 = .ok r) ∧
    (∃ st, discountSearch 14 scenarioB 0 2 = .ok st)) :=
  ⟨by decide, by decide, by decide, by decide, by decide,
    calculate_terminates scenarioB (by decide) (by decide) 0 2 (by decide) (by decide) 14
      (by decide)⟩

/-- C18: under the precondition `0 ≤ start, end < n` on an `n × n` graph with
non-negative weights, no run of `calculate` reaches an index outside a vector: whatever
the fuel, the run is cut by the fuel or returns a path of nodes in range; and whenever
the frontier loop ends, `dist` and `parent` still have `n` entries, every entry of
`parent` is `-1` or a node in `[0, n)`, and the predecessor walk visits nodes in range
only. -/
theorem calculate_indices_in_range (g : Graph) (hwf : g.WellFormed) (hnn : g.NonNeg)
    (start end_ : Int) (hs : g.Valid start) (he : g.Valid end_) :
    (∀ fuel, Dijkstra.calculate fuel g start end_ ≠ .error Fault.outOfBounds ∧
      (Dijkstra.calculate fuel g start end_ = .error Fault.outOfFuel ∨
        ∃ r, Dijkstra.calculate fuel g start end_ = .ok r ∧ ∀ x ∈ r.2, g.Valid x)) ∧
    (∀ fuel s,
      Dijkstra.mainLoop g g.size fuel (Dijkstra.initState g.size start.toNat) = .ok s →
      s.dist.length = g.size ∧ s.parent.length = g.size ∧
      (∀ e ∈ s.pq, g.Valid e.2) ∧
      (∀ p ∈ s.parent, p = -1 ∨ g.Valid p) ∧
      Dijkstra.walkBack s.parent fuel end_ [] ≠ .error Fault.outOfBounds ∧
      ∀ path, Dijkstra.walkBack s.parent fuel end_ [] = .ok path → ∀ x ∈ path, g.Valid x) := by
  obtain ⟨a, rfl, ha⟩ := hs.exists_nat
  obtain ⟨e, rfl, he2⟩ := he.exists_nat
  have hvalid : ∀ (q : List Nat), (∀ x ∈ q, x < g.size) →
      ∀ x ∈ q.map (fun x : Nat => (x : Int)), g.Valid x := by
    intro q hq x hx
    obtain ⟨y, hy, rfl⟩ := List.mem_map.mp hx
    have := hq y hy
    exact ⟨by omega, by exact_mod_cast this⟩
  have hmain : ∀ fuel,
      Dijkstra.calculate fuel g a e = .error Fault.outOfFuel ∨
        ∃ r, Dijkstra.calculate fuel g a e = .ok r ∧ ∀ x ∈ r.2, g.Valid x := by
    intro fuel
    rw [Dijkstra.calculate_eq g a ha e fuel]
    rcases Dijkstra.mainLoop_safe hwf hnn fuel (Dijkstra.initState g.size a)
      (Dijkstra.Inv.init g a ha) with hloop | ⟨s2, hloop, hinv, _⟩
    · left
      rw [hloop]
      rfl
    · rw [hloop, ok_bind]
      obtain ⟨q, _, hq2, _, hq4, _⟩ := Dijkstra.final_walk hinv e he2
      rcases hq4 fuel with hwalk | hwalk
      · left
        rw [hwalk]
        rfl
      · right
        rw [hwalk, ok_bind]
        split
        · exact ⟨_, rfl, fun x hx => absurd hx (List.not_mem_nil x)⟩
        · rw [Dijkstra.readAt_dist s2 e (by rw [hinv.lenD]; exact he2), ok_bind]
          refine ⟨_, rfl, ?_⟩
          intro x hx
          exact hvalid q hq2 x (List.mem_reverse.mp hx)
  refine ⟨?_, ?_⟩
  · intro fuel
    refine ⟨?_, hmain fuel⟩
    rcases hmain fuel with h | ⟨r, h, _⟩
    · rw [h]; intro h2; cases h2
    · rw [h]; intro h2; cases h2
  · intro fuel s hs
    have hs2 : Dijkstra.mainLoop g g.size fuel (Dijkstra.initState g.size a) = .ok s := by
      simpa using hs
    rcases Dijkstra.mainLoop_safe hwf hnn fuel (Dijkstra.initState g.size a)
      (Dijkstra.Inv.init g a ha) with hloop | ⟨s2, hloop, hinv, _⟩
    · rw [hloop] at hs2; cases hs2
    · rw [hloop] at hs2
      cases hs2
      obtain ⟨q, _, hq2, _, hq4, _⟩ := Dijkstra.final_walk hinv e he2
      refine ⟨hinv.lenD, hinv.lenP, ?_, Dijkstra.parent_entries hinv, ?_, ?_⟩
      · intro t ht
        obtain ⟨x, k, kd, rfl, hx, _⟩ := hinv.pqOk t ht
        exact ⟨by simp, by simpa using hx⟩
      · rcases hq4 fuel with hwalk | hwalk
        · rw [hwalk]; intro h2; cases h2
        · rw [hwalk]; intro h2; cases h2
      · intro path hpath
        rcases hq4 fuel with hwalk | hwalk
        · rw [hwalk] at hpath; cases hpath
        · rw [hwalk] at hpath
          cases hpath
          exact hvalid q hq2

theorem calculate_indices_in_range_witness :
    scenarioB.WellFormed ∧ scenarioB.NonNeg ∧ scenarioB.Valid 0 ∧ scenarioB.Valid 2 ∧
    Dijkstra.calculate 3 scenarioB 0 2 ≠ .error Fault.outOfBounds ∧
    Dijkstra.calculate 14 scenarioB 0 2 ≠ .error Fault.outOfBounds :=
  ⟨by decide, by decide, by decide, by decide,
    ((calculate_indices_in_range scenarioB (by decide) (by decide) 0 2 (by decide)
      (by decide)).1 3).1,
    ((calculate_indices_in_range scenarioB (by decide) (by decide) 0 2 (by decide)
      (by decide)).1 14).1⟩

theorem readAt_out {α : Type} (xs : List α) (i : Int) (h : ¬ InRange xs.length i) :
    readAt xs i = .error Fault.outOfBounds := by
  cases i with
  | ofNat k =>
    have hk : xs.length ≤ k := by
      by_contra hlt
      exact h ⟨by simp, by simpa using hlt⟩
    simp [readAt, List.getElem?_eq_none hk]
  | negSucc k => rfl

theorem writeAt_out {α : Type} (xs : List α) (i : Int) (x : α) (h : ¬ InRange xs.length i) :
    writeAt xs i x = .error Fault.outOfBounds := by
  cases i with
  | ofNat k =>
    have hk : ¬ k < xs.length := by
      intro hlt
      exact h ⟨by simp, by simpa using hlt⟩
    simp [writeAt, hk]
  | negSucc k => rfl

/-- C15, as the code behaves: on the three-node graph of scenario B, `calculate` with
`start = 3`, with `end = 3` or with `end = -1` raises no error condition; each run ends
at an unchecked vector access outside the vector, which is undefined behaviour. -/
theorem calculate_out_of_range_counterexample :
    ¬ scenarioB.Valid 3 ∧ ¬ scenarioB.Valid (-1) ∧
    Dijkstra.calculate 14 scenarioB 3 0 = .error Fault.outOfBounds ∧
    Dijkstra.calculate 14 scenarioB 0 3 = .error Fault.outOfBounds ∧
    Dijkstra.calculate 14 scenarioB 0 (-1) = .error Fault.outOfBounds ∧
    Fault.outOfBounds.raised = false ∧
    ¬ ∃ e, Dijkstra.calculate 14 scenarioB 3 0 = .error e ∧ e.raised = true := by
  refine ⟨by decide, by decide, rfl, rfl, rfl, rfl, ?_⟩
  rintro ⟨e, he, hr⟩
  have h : Dijkstra.calculate 14 scenarioB 3 0 = .error Fault.outOfBounds := rfl
  rw [h] at he
  cases he
  cases hr

/-- C15, amended: `calculate` does not check `start` and `end`; the range
`[0, graph.size())` is a precondition left to the caller.  Outside it no `OutOfRange`
condition or assertion is raised: with `start` out of range the assignment
`dist[start] = 0` is an access outside the vector, and with `start` in range and `end`
out of range (on non-negative weights, with enough fuel) the predecessor walk or the
final `dist[end]` is one.  No index is clamped and the model returns no result. -/
theorem calculate_unchecked_indices (g : Graph) (hwf : g.WellFormed) (hnn : g.NonNeg)
    (start end_ : Int) (hbad : ¬ g.Valid start ∨ ¬ g.Valid end_) (fuel : Nat)
    (hfuel : enoughFuel g.size ≤ fuel) :
    Dijkstra.calculate fuel g start end_ = .error Fault.outOfBounds ∧
      Fault.outOfBounds.raised = false := by
  refine ⟨?_, rfl⟩
  by_cases hs : g.Valid start
  · have he : ¬ g.Valid end_ := hbad.resolve_left (fun h => h hs)
    obtain ⟨a, rfl, ha⟩ := hs.exists_nat
    rw [Dijkstra.calculate_eq g a ha end_ fuel]
    obtain ⟨s2, hloop, hinv, _⟩ := Dijkstra.mainLoop_ok hwf hnn fuel
      (Dijkstra.initState g.size a) (Dijkstra.Inv.init g a ha)
      (lt_of_lt_of_le (Dijkstra.work_init g a) hfuel)
    rw [hloop, ok_bind]
    obtain ⟨f, rfl⟩ : ∃ f, fuel = f + 1 := ⟨fuel - 1, by unfold enoughFuel at hfuel; omega⟩
    unfold Dijkstra.walkBack
    by_cases hend : end_ = -1
    · rw [if_pos hend, ok_bind]
      rw [if_neg (by simp), readAt_out s2.dist end_ (by rw [hinv.lenD]; exact he)]
      rfl
    · rw [if_neg hend, readAt_out s2.parent end_ (by rw [hinv.lenP]; exact he)]
      rfl
  · unfold Dijkstra.calculate
    dsimp only
    rw [writeAt_out _ _ _ (by simpa using hs)]
    rfl

theorem calculate_unchecked_indices_witness :
    scenarioB.WellFormed ∧ scenarioB.NonNeg ∧
    (¬ scenarioB.Valid 0 ∨ ¬ scenarioB.Valid 7) ∧ enoughFuel scenarioB.size ≤ 14 ∧
    Dijkstra.calculate 14 scenarioB 0 7 = .error Fault.outOfBounds ∧
      Fault.outOfBounds.raised = false :=
  ⟨by decide, by decide, by decide, by decide,
    calculate_unchecked_indices scenarioB (by decide) (by decide) 0 7 (by decide) 14
      (by decide)⟩

theorem Cost.lt_of_le_of_lt {a b c : Cost} (h1 : b.lt a = false) (h2 : b.lt c = true) :
    a.lt c = true := by
  cases a <;> cases b <;> cases c <;> simp_all
  omega

/-- The graph of the trial for a candidate pair: same size, same edges, no weight
raised, and the weight of the pair itself strictly lowered. -/
theorem trial_graph (g : Graph) (hwf : g.WellFormed) (hsym : g.Symmetric) (hnn : g.NonNeg)
    (fuel : Nat) (A B : Int) (hA : g.Valid A) (hB : g.Valid B)
    (hfuel : enoughFuel g.size ≤ fuel) (p : Nat × Nat) (hp : p ∈ candidates g) :
    ∃ g1, Dijkstra.calculate fuel g1 A B = .ok (trialResult fuel g A B p) ∧
      g1.size = g.size ∧ g1.WellFormed ∧ g1.NonNeg ∧
      (∀ a b, a < g.size → b < g.size → g.weight a b ≠ -1 →
        g1.weight a b ≠ -1 ∧ g1.weight a b ≤ g.weight a b) ∧
      g1.weight p.1 p.2 < g.weight p.1 p.2 := by
  obtain ⟨h1, h2, h3⟩ := candidate_weight g hwf p hp
  obtain ⟨g1, r, _, hcalc, htrial, hsize, hwf1, hnn1, hw1⟩ :=
    trial_ok g hwf hnn fuel A B hA hB hfuel p.1 p.2 h1 h2 h3
  have hT : trialResult fuel g A B p = r := by simp [trialResult, htrial]
  have hb2 := tdiv_two_bounds _ h3
  refine ⟨g1, by rw [hT]; exact hcalc, hsize, hwf1, hnn1, ?_, ?_⟩
  · intro a b ha hb hab
    rw [hw1 a b ha hb]
    by_cases hcell : (a = p.1 ∧ b = p.2) ∨ (a = p.2 ∧ b = p.1)
    · rw [if_pos hcell]
      refine ⟨by omega, ?_⟩
      rcases hcell with ⟨ha1, hb1⟩ | ⟨ha1, hb1⟩
      · rw [ha1, hb1]; omega
      · rw [ha1, hb1, hsym p.2 h2 p.1 h1]; omega
    · rw [if_neg hcell]
      exact ⟨hab, le_refl _⟩
  · rw [hw1 p.1 p.2 h1 h2, if_pos (Or.inl ⟨rfl, rfl⟩)]
    omega

/-- A walk of positive cost runs over an edge of positive weight, and lowering the
weight of that edge, raising none, lowers the cost of the walk. -/
theorem walk_strict (g : Graph) (hwf : g.WellFormed) (hnn : g.NonNeg) :
    ∀ q : List Nat, g.IsWalk q → 0 < g.walkCost q →
      ∃ p ∈ candidates g, ∀ g1 : Graph, g1.size = g.size →
        (∀ a b, a < g.size → b < g.size → g.weight a b ≠ -1 →
          g1.weight a b ≠ -1 ∧ g1.weight a b ≤ g.weight a b) →
        g1.weight p.1 p.2 < g.weight p.1 p.2 → g1.walkCost q < g.walkCost q := by
  intro q
  induction q with
  | nil => intro _ h; simp [Graph.walkCost] at h
  | cons x q ih =>
    intro hq hcost
    cases q with
    | nil => simp [Graph.walkCost] at hcost
    | cons y q =>
      obtain ⟨hlt, hc⟩ := hq
      rw [List.chain'_cons] at hc
      obtain ⟨hxy, hc⟩ := hc
      have hx : x < g.size := hlt x (by simp)
      have hy : y < g.size := hlt y (by simp)
      have hrest : g.IsWalk (y :: q) := ⟨fun z hz => hlt z (List.mem_cons_of_mem _ hz), hc⟩
      have hge := g.weight_ge hnn x y
      rw [Graph.walkCost] at hcost
      by_cases hpos : 0 < g.weight x y
      · refine ⟨(x, y), (mem_candidates g (x, y)).mpr ⟨hx, hy, ?_⟩, ?_⟩
        · rw [g.positive_nat hwf x y hx hy]; simpa using hpos
        · intro g1 hsize hmono hstrict
          have := (walk_mono g g1 hsize hmono (y :: q) hrest).2
          rw [Graph.walkCost, Graph.walkCost]
          simp only at hstrict
          omega
      · have hzero : g.weight x y = 0 := by omega
        obtain ⟨p, hp, hall⟩ := ih hrest (by omega)
        refine ⟨p, hp, ?_⟩
        intro g1 hsize hmono hstrict
        have h1 := hall g1 hsize hmono hstrict
        have h2 := (hmono x y hx hy hxy).2
        rw [Graph.walkCost, Graph.walkCost]
        omega

/-- C19: on a symmetric graph with non-negative weights, for valid `start`, `end`
whose baseline cost `c` from `calculate` is finite and strictly positive, the cost
returned by the discount search is strictly less than `c`. -/
theorem discount_strictly_cheaper (g : Graph) (hwf : g.WellFormed) (hsym : g.Symmetric)
    (hnn : g.NonNeg) (A B : Int) (hA : g.Valid A) (hB : g.Valid B) (fuel : Nat)
    (hfuel : enoughFuel g.size ≤ fuel) (c : Int) (path : List Int)
    (hbase : Dijkstra.calculate fuel g A B = .ok (Cost.fin c, path)) (hc : 0 < c) :
    ∃ st, discountSearch fuel g A B = .ok st ∧
      st.min_cost_with_discount.lt (Cost.fin c) = true := by
  refine ⟨_, discountSearch_ok g hwf hsym hnn fuel A B hA hB hfuel, ?_⟩
  obtain ⟨s, hsA, hs⟩ := hA.exists_nat
  obtain ⟨e, hsB, he⟩ := hB.exists_nat
  rcases Dijkstra.calculate_nat g hwf hnn s e hs he fuel hfuel with
    ⟨k, q, hcalc, hh, hl, hwalk, _, hcost, _⟩ | ⟨hcalc, _⟩
  · rw [← hsA, ← hsB, hbase] at hcalc
    cases hcalc
    obtain ⟨p, hp, hall⟩ := walk_strict g hwf hnn q hwalk (by omega)
    obtain ⟨g1, hcalc1, hsize, hwf1, hnn1, hmono, hstrict⟩ :=
      trial_graph g hwf hsym hnn fuel A B hA hB hfuel p hp
    have hlt := hall g1 hsize hmono hstrict
    have hq1 := (walk_mono g g1 hsize hmono q hwalk).1
    have hTlt : (trialResult fuel g A B p).1.lt (Cost.fin c) = true := by
      rcases Dijkstra.calculate_nat g1 hwf1 hnn1 s e (by omega) (by omega) fuel
        (by rw [hsize]; exact hfuel) with ⟨k1, q1, hc1, _, _, _, _, _, hmin1⟩ | ⟨_, _, hno⟩
      · rw [← hsA, ← hsB, hcalc1] at hc1
        have := hmin1 q hq1 hh hl
        rw [Except.ok.inj hc1]
        simp only [Cost.lt_fin_fin, decide_eq_true_eq]
        omega
      · exact absurd (hno q hq1 hh hl) id
    exact Cost.lt_of_le_of_lt (foldl_better_le _ _ _ p hp) hTlt
  · rw [← hsA, ← hsB, hbase] at hcalc
    cases hcalc

theorem discount_strictly_cheaper_witness :
    scenarioB.WellFormed ∧ scenarioB.Symmetric ∧ scenarioB.NonNeg ∧ scenarioB.Valid 0 ∧
    scenarioB.Valid 2 ∧ enoughFuel scenarioB.size ≤ 14 ∧
    Dijkstra.calculate 14 scenarioB 0 2 = .ok (Cost.fin 8, [0, 1, 2]) ∧ (0 : Int) < 8 ∧
    ∃ st, discountSearch 14 scenarioB 0 2 = .ok st ∧
      st.min_cost_with_discount.lt (Cost.fin 8) = true :=
  ⟨by decide, by decide, by decide, by decide, by decide, by decide, rfl, by decide,
    discount_strictly_cheaper scenarioB (by decide) (by decide) (by decide) 0 2 (by decide)
      (by decide) 14 (by decide) 8 [0, 1, 2] rfl (by decide)⟩

theorem pairs_pairwise (n : Nat) : (pairs n).Pairwise lexLt := by
  unfold pairs
  rw [List.pairwise_flatMap]
  constructor
  · intro u _
    rw [List.pairwise_map]
    exact (List.pairwise_lt_range n).imp (fun h => Or.inr ⟨rfl, h⟩)
  · refine (List.pairwise_lt_range n).imp ?_
    intro u1 u2 h x hx y hy
    obtain ⟨a, _, rfl⟩ := List.mem_map.mp hx
    obtain ⟨b, _, rfl⟩ := List.mem_map.mp hy
    exact Or.inl h

/-- In a list sorted by the enumeration order, nothing after an element precedes it. -/
theorem after_of_pairwise (l pre post : List (Nat × Nat)) (p : Nat × Nat)
    (hl : l = pre ++ p :: post) (hpw : l.Pairwise lexLt) : ∀ q ∈ post, lexLt p q := by
  rw [hl, List.pairwise_append] at hpw
  exact (List.pairwise_cons.mp hpw.2.1).1

/-- On a symmetric graph the trials for `(u, v)` and for `(v, u)` are the same run. -/
theorem trialResult_symm (g : Graph) (hwf : g.WellFormed) (hsym : g.Symmetric) (fuel : Nat)
    (A B : Int) (u v : Nat) (hu : u < g.size) (hv : v < g.size) :
    trialResult fuel g A B (u, v) = trialResult fuel g A B (v, u) := by
  obtain ⟨g1, hd1, _, hsize1, hwf1, hw1⟩ := discounted_ok g hwf u v hu hv
  obtain ⟨g2, hd2, _, hsize2, hwf2, hw2⟩ := discounted_ok g hwf v u hv hu
  have hg : g2 = g1 := by
    apply Graph.ext_weight g1 g2 hwf1 hwf2 (by omega)
    intro a b ha hb
    rw [hw1 a b (by omega) (by omega), hw2 a b (by omega) (by omega), hsym v hv u hu]
    by_cases h : (a = u ∧ b = v) ∨ (a = v ∧ b = u)
    · rw [if_pos h, if_pos (Or.symm h)]
    · rw [if_neg h, if_neg (fun h2 => h (Or.symm h2))]
  unfold trialResult trial
  simp only
  rw [hd1, hd2, hg]

/-- Dropping from a run of strict-improvement updates every trial whose result an
earlier trial already had does not change the outcome. -/
theorem foldl_better_filter (T : Nat × Nat → Cost × List Int) (keep : Nat × Nat → Bool)
    (l : List (Nat × Nat)) :
    (∀ pre p post, l = pre ++ p :: post → keep p = false → ∃ q ∈ pre, T q = T p) →
    ∀ st : Search, l.foldl (better T) st = (l.filter keep).foldl (better T) st := by
  induction l using List.reverseRecOn with
  | nil => intro _ st; rfl
  | append_singleton l p ih =>
    intro hdom st
    have hdom2 : ∀ pre x post, l = pre ++ x :: post → keep x = false →
        ∃ q ∈ pre, T q = T x := by
      intro pre x post hl hx
      exact hdom pre x (post ++ [p]) (by rw [hl]; simp) hx
    rw [List.foldl_append, List.foldl_cons, List.foldl_nil, List.filter_append]
    by_cases hk : keep p = true
    · rw [List.filter_cons_of_pos hk, List.filter_nil, List.foldl_append, List.foldl_cons,
        List.foldl_nil, ih hdom2 st]
    · have hk2 : keep p = false := by simpa using hk
      rw [List.filter_cons_of_neg hk, List.filter_nil, List.append_nil, ← ih hdom2 st]
      obtain ⟨q, hq, hTq⟩ := hdom l p [] rfl hk2
      have hle := foldl_better_le T l st q hq
      rw [hTq] at hle
      have hstep : ∀ s : Search, (T p).1.lt s.min_cost_with_discount = false →
          better T s p = s := by
        intro s h
        unfold better
        rw [if_neg (by rw [h]; simp)]
      exact hstep _ hle

theorem discountTrialOneWay_ok (g : Graph) (hwf : g.WellFormed) (hsym : g.Symmetric)
    (hnn : g.NonNeg) (fuel : Nat) (A B : Int) (hA : g.Valid A) (hB : g.Valid B)
    (hfuel : enoughFuel g.size ≤ fuel) (u v : Nat) (hu : u < g.size) (hv : v < g.size)
    (st : Search) (hg : st.graph = g) :
    discountTrialOneWay fuel A B u st v
      = .ok (if g.positive u v = true
          then (if decide (u < v) = true then better (trialResult fuel g A B) st (u, v) else st)
          else st) := by
  unfold discountTrialOneWay
  by_cases huv : u < v
  · rw [if_pos huv, discountTrial_ok g hwf hsym hnn fuel A B hA hB hfuel u v hu hv st hg]
    simp [huv]
  · rw [if_neg huv]
    simp [huv]

/-- The search restricted to `u < v` runs to completion and returns the best result
over the candidate pairs with `u < v`, taken in order. -/
theorem discountSearchOneWay_ok (g : Graph) (hwf : g.WellFormed) (hsym : g.Symmetric)
    (hnn : g.NonNeg) (fuel : Nat) (A B : Int) (hA : g.Valid A) (hB : g.Valid B)
    (hfuel : enoughFuel g.size ≤ fuel) :
    discountSearchOneWay fuel g A B
      = .ok (((candidates g).filter (fun p => decide (p.1 < p.2))).foldl
          (better (trialResult fuel g A B))
          { graph := g, min_cost_with_discount := Cost.inf, best_path_with_discount := [] }) := by
  have hinner : ∀ (st : Search) (u : Nat), st.graph = g → u ∈ List.range g.size →
      (List.range g.size).foldlM (discountTrialOneWay fuel A B u) st
        = .ok ((List.range g.size).foldl
            (fun (st : Search) (v : Nat) => if g.positive u v = true
              then (if decide (u < v) = true
                then better (trialResult fuel g A B) st (u, v) else st)
              else st) st) ∧
      ((List.range g.size).foldl
            (fun (st : Search) (v : Nat) => if g.positive u v = true
              then (if decide (u < v) = true
                then better (trialResult fuel g A B) st (u, v) else st)
              else st) st).graph = g := by
    intro st u hst hu
    refine foldlM_ok_of_step _ _ (fun st => st.graph = g) _ ?_ st hst
    intro s v hs hv
    refine ⟨discountTrialOneWay_ok g hwf hsym hnn fuel A B hA hB hfuel u v
      (List.mem_range.mp hu) (List.mem_range.mp hv) s hs, ?_⟩
    split
    · split
      · rw [better_graph]; exact hs
      · exact hs
    · exact hs
  have houter := foldlM_ok_of_step
    (fun st u => (List.range g.size).foldlM (discountTrialOneWay fuel A B u) st)
    (fun st u => (List.range g.size).foldl
            (fun (st : Search) (v : Nat) => if g.positive u v = true
              then (if decide (u < v) = true
                then better (trialResult fuel g A B) st (u, v) else st)
              else st) st)
    (fun st => st.graph = g) (List.range g.size) hinner
    { graph := g, min_cost_with_discount := Cost.inf, best_path_with_discount := [] } rfl
  unfold discountSearchOneWay
  rw [houter.1]
  congr 1
  unfold candidates pairs
  rw [foldl_filter_eq, foldl_filter_eq, foldl_pairs]

/-- C17, as the code behaves: on the two-node graph with a self-loop of weight `2` at
node `0` and an edge of weight `0` between the nodes, the search over all ordered pairs
tries the pair `(0, 0)` and returns cost `0` with path `[0, 1]`, while the search
restricted to `u < v` tries nothing and returns `(+∞, [])`. -/
theorem one_way_search_counterexample :
    selfLoopGraph.WellFormed ∧ selfLoopGraph.Symmetric ∧ selfLoopGraph.NonNeg ∧
    selfLoopGraph.Valid 0 ∧ selfLoopGraph.Valid 1 ∧
    discountSearch 8 selfLoopGraph 0 1
      = .ok { graph := selfLoopGraph, min_cost_with_discount := Cost.fin 0,
              best_path_with_discount := [0, 1] } ∧
    discountSearchOneWay 8 selfLoopGraph 0 1
      = .ok { graph := selfLoopGraph, min_cost_with_discount := Cost.inf,
              best_path_with_discount := [] } ∧
    discountSearch 8 selfLoopGraph 0 1 ≠ discountSearchOneWay 8 selfLoopGraph 0 1 := by
  have h1 : discountSearch 8 selfLoopGraph 0 1
      = .ok { graph := selfLoopGraph, min_cost_with_discount := Cost.fin 0,
              best_path_with_discount := [0, 1] } := rfl
  have h2 : discountSearchOneWay 8 selfLoopGraph 0 1
      = .ok { graph := selfLoopGraph, min_cost_with_discount := Cost.inf,
              best_path_with_discount := [] } := rfl
  refine ⟨by decide, by decide, by decide, by decide, by decide, h1, h2, ?_⟩
  rw [h1, h2]
  intro h
  cases h

/-- C17, amended: on a symmetric graph with non-negative weights and no self-loop of
positive weight, for valid `start`, `end`, the discount search restricted to the pairs
with `u < v`, in the same row-major order with the same strict comparison, returns the
same best cost and path as the search over all ordered pairs. -/
theorem one_way_search_equivalent (g : Graph) (hwf : g.WellFormed) (hsym : g.Symmetric)
    (hnn : g.NonNeg) (hloop : ∀ (u w : Int), g.getEdgeWeight u u = .ok w → ¬ 0 < w)
    (A B : Int) (hA : g.Valid A) (hB : g.Valid B) (fuel : Nat)
    (hfuel : enoughFuel g.size ≤ fuel) :
    ∃ st, discountSearch fuel g A B = .ok st ∧ discountSearchOneWay fuel g A B = .ok st := by
  refine ⟨_, discountSearch_ok g hwf hsym hnn fuel A B hA hB hfuel, ?_⟩
  rw [discountSearchOneWay_ok g hwf hsym hnn fuel A B hA hB hfuel]
  congr 1
  unfold searchResult
  symm
  apply foldl_better_filter
  intro pre p post hl hkeep
  have hmem : p ∈ candidates g := by rw [hl]; simp
  obtain ⟨h1, h2, h3⟩ := candidate_weight g hwf p hmem
  have hne : p.1 ≠ p.2 := by
    intro heq
    have := hloop p.1 _ (g.getEdgeWeight_eq hwf p.1 p.1 h1 h1)
    rw [← heq] at h3
    exact this h3
  have hlt : p.2 < p.1 := by
    have : ¬ p.1 < p.2 := by simpa using hkeep
    omega
  have htwin : (p.2, p.1) ∈ candidates g := by
    refine (mem_candidates g _).mpr ⟨h2, h1, ?_⟩
    rw [g.positive_nat hwf p.2 p.1 h2 h1, hsym p.2 h2 p.1 h1]
    simpa using h3
  have hpw : (candidates g).Pairwise lexLt := (pairs_pairwise g.size).filter _
  have hafter := after_of_pairwise (candidates g) pre post p hl hpw
  rw [hl] at htwin
  rcases List.mem_append.mp htwin with hin | hin
  · exact ⟨_, hin, trialResult_symm g hwf hsym fuel A B p.2 p.1 h2 h1⟩
  · exfalso
    rcases List.mem_cons.mp hin with heq | hin
    · have : p.2 = p.1 := congrArg Prod.fst heq
      omega
    · have := hafter _ hin
      unfold lexLt at this
      simp only at this
      omega

theorem scenarioB_no_self_loop :
    ∀ (u w : Int), scenarioB.getEdgeWeight u u = .ok w → ¬ 0 < w := by
  intro u w h hw
  obtain ⟨a, b, ha, hb, hlt, _, hab⟩ := scenarioB.getEdgeWeight_ok (by decide) u u w h
  have hab2 : a = b := by
    have : (a : Int) = (b : Int) := ha.symm.trans hb
    exact_mod_cast this
  subst hab2
  have hall : ∀ a < scenarioB.size, ¬ 0 < scenarioB.weight a a := by decide
  exact hall a hlt (by rw [hab]; exact hw)

theorem one_way_search_equivalent_witness :
    scenarioB.WellFormed ∧ scenarioB.Symmetric ∧ scenarioB.NonNeg ∧
    (∀ (u w : Int), scenarioB.getEdgeWeight u u = .ok w → ¬ 0 < w) ∧
    scenarioB.Valid 0 ∧ scenarioB.Valid 2 ∧ enoughFuel scenarioB.size ≤ 14 ∧
    ∃ st, discountSearch 14 scenarioB 0 2 = .ok st ∧
      discountSearchOneWay 14 scenarioB 0 2 = .ok st :=
  ⟨by decide, by decide, by decide, scenarioB_no_self_loop, by decide, by decide, by decide,
    one_way_search_equivalent scenarioB (by decide) (by decide) (by decide)
      scenarioB_no_self_loop 0 2 (by decide) (by decide) 14 (by decide)⟩
